import Mathlib

/-!
# Webserv: the request parser, the session registry, the buffer and the response

A shallow embedding of `src/parser/http/HttpParser.cpp`, of the session registry of
`src/common/SessionManager.cpp`, of `src/server/buffer/SmartBuffer.cpp` and of
`src/server/response/HttpResponse.cpp`.

* A `std::string` is a list of characters (`Str`); one `Char` stands for one byte.
* `size_t` values are natural numbers; the two additions of the chunked decoder that can
  wrap for inputs the parser really receives (`totalBodySize + chunkSize`, `chunkSize + 2`)
  are taken modulo `2 ^ 64`, and `std::stoul` rejects values above `2 ^ 64 - 1`.
* `while (true)` loops are structural recursions on a fuel argument; the fuel handed to a
  loop is shown to be enough, so the result never depends on it.
* `std::time(nullptr)` is the argument `now` of `parse`.
* The session registry is a list of sessions with distinct ids; the file of `serialize`
  and `deserialize` is the sequence of its bytes, and the value of the random engine is an
  argument of `getSessionId`.
* What `open`, `write`, `lseek` and `read` answer to a `SmartBuffer` is an argument of the
  function that makes the call; a sequence of calls and events is a list of `BufferCall`.
* The `std::unordered_map` of the headers of a response is a list with one entry for
  each key; `toHeaderString` writes the entries in the order of the list.
-/

namespace Webserv

/-- A `std::string`: the sequence of its bytes. -/
abbrev Str := List Char

/-! ## Library functions used by the parser -/

/-- The function `std::isspace` in the "C" locale. -/
def isspace (c : Char) : Bool :=
  c = ' ' || c = '\t' || c = '\n' || c.toNat = 11 || c.toNat = 12 || c = '\r'

/-- The function `std::iscntrl` in the "C" locale. -/
def iscntrl (c : Char) : Bool :=
  decide (c.toNat < 32) || c.toNat = 127

/-- The function `std::isxdigit`. -/
def isxdigit (c : Char) : Bool :=
  (decide (48 ≤ c.toNat) && decide (c.toNat ≤ 57)) ||
  (decide (65 ≤ c.toNat) && decide (c.toNat ≤ 70)) ||
  (decide (97 ≤ c.toNat) && decide (c.toNat ≤ 102))

/-- The function `::tolower` in the "C" locale. -/
def tolower (c : Char) : Char :=
  if 65 ≤ c.toNat ∧ c.toNat ≤ 90 then Char.ofNat (c.toNat + 32) else c

/-- The function `std::toupper` in the "C" locale. -/
def toupper (c : Char) : Char :=
  if 97 ≤ c.toNat ∧ c.toNat ≤ 122 then Char.ofNat (c.toNat - 32) else c

/-- The value of a digit in the given base (`none` when `c` is not such a digit). -/
def digitValue (base : Nat) (c : Char) : Option Nat :=
  let v : Option Nat :=
    if 48 ≤ c.toNat ∧ c.toNat ≤ 57 then some (c.toNat - 48)
    else if 97 ≤ c.toNat ∧ c.toNat ≤ 122 then some (c.toNat - 87)
    else if 65 ≤ c.toNat ∧ c.toNat ≤ 90 then some (c.toNat - 55)
    else none
  match v with
  | some d => if d < base then some d else none
  | none => none

/-- The longest run of digits of the given base at the head of `s`, as digit values. -/
def takeDigits (base : Nat) : Str → List Nat
  | [] => []
  | c :: s =>
    match digitValue base c with
    | some d => d :: takeDigits base s
    | none => []

/-- The number written by a list of digit values, most significant first. -/
def digitsValue (base : Nat) (ds : List Nat) : Nat :=
  ds.foldl (fun acc d => acc * base + d) 0

/-- The largest `unsigned long` plus one. -/
def ULONG_RANGE : Nat := 2 ^ 64

/-- The function `std::stoul(str, nullptr, base)` for base 10 or 16: leading white space is
skipped, one sign is accepted, base 16 accepts a `0x` in front of a digit, and the longest
run of digits is converted.  `none` stands for the exception thrown when there is no digit
(`std::invalid_argument`) or the number does not fit (`std::out_of_range`). -/
def stoul (str : Str) (base : Nat) : Option Nat :=
  let s1 := str.dropWhile isspace
  let (neg, s2) : Bool × Str :=
    match s1 with
    | '-' :: t => (true, t)
    | '+' :: t => (false, t)
    | _ => (false, s1)
  let s3 : Str :=
    match s2 with
    | '0' :: x :: d :: t =>
      if base = 16 ∧ (x = 'x' ∨ x = 'X') ∧ (digitValue 16 d).isSome then d :: t else s2
    | _ => s2
  let ds := takeDigits base s3
  if ds = [] then none
  else
    let v := digitsValue base ds
    if ULONG_RANGE ≤ v then none
    else some (if neg then (ULONG_RANGE - v) % ULONG_RANGE else v)

/-- The function `std::string::find(pattern)` from position 0: the index of the first
occurrence, `none` for `npos`. -/
def find (s pattern : Str) : Option Nat :=
  match s with
  | [] => if pattern = [] then some 0 else none
  | c :: t =>
    if pattern.isPrefixOf (c :: t) then some 0 else (find t pattern).map (· + 1)

/-- The two bytes that end a line. -/
def CRLF : Str := ['\r', '\n']

/-- The function `std::string::find_first_not_of(" \t")` followed by `erase(0, pos)`: with
`npos` the whole string is erased. -/
def eraseLeadingBlanks (value : Str) : Str :=
  value.dropWhile (fun c => c = ' ' || c = '\t')

/-- One `operator>>` into a `std::string`: white space is skipped, then the characters up
to the next white space are extracted.  The result is the token and the rest of the
stream; `none` when no character could be extracted. -/
def extractToken (s : Str) : Option (Str × Str) :=
  let s1 := s.dropWhile isspace
  let tok := s1.takeWhile (fun c => !isspace c)
  if tok = [] then none else some (tok, s1.dropWhile (fun c => !isspace c))

/-- What `std::istringstream(two) >> std::hex >> value` does for an `int`: white space is
skipped, a sign is accepted, a `0x` needs a digit after it, and at least one hexadecimal
digit has to be there. -/
def extractHexInt (two : Str) : Option Int :=
  let s1 := two.dropWhile isspace
  let (neg, s2) : Bool × Str :=
    match s1 with
    | '-' :: t => (true, t)
    | '+' :: t => (false, t)
    | _ => (false, s1)
  match s2 with
  | '0' :: x :: t =>
    if x = 'x' ∨ x = 'X' then
      let ds := takeDigits 16 t
      if ds = [] then none
      else some (if neg then - (digitsValue 16 ds : Int) else (digitsValue 16 ds : Int))
    else
      let ds := takeDigits 16 s2
      some (if neg then - (digitsValue 16 ds : Int) else (digitsValue 16 ds : Int))
  | _ =>
    let ds := takeDigits 16 s2
    if ds = [] then none
    else some (if neg then - (digitsValue 16 ds : Int) else (digitsValue 16 ds : Int))

/-- The conversion `static_cast<char>(value)`. -/
def castChar (value : Int) : Char :=
  Char.ofNat (value % 256).toNat

/-! ## Data model -/

/-- The enumeration `ParseState`. -/
inductive ParseState
  | REQUEST_LINE | HEADERS | BODY | COMPLETE | ERROR
  deriving DecidableEq

/-- The enumeration `HttpMethod`. -/
inductive HttpMethod
  | GET | POST | PUT | DELETE | HEAD | PATCH | OPTIONS
  deriving DecidableEq

/-- Modelled from the spec: the enumeration `HttpResponse::StatusCode` is declared in a
header that is not part of the sources; its members are the HTTP status numbers of the
error table (400, 413, 414, 501, 505). -/
abbrev StatusCode := Nat

/-- Status 400. -/
def BAD_REQUEST : StatusCode := 400
/-- Status 413. -/
def CONTENT_TOO_LARGE : StatusCode := 413
/-- Status 414. -/
def REQUEST_URI_TOO_LONG : StatusCode := 414
/-- Status 501. -/
def NOT_IMPLEMENTED : StatusCode := 501
/-- Status 505. -/
def HTTP_VERSION_NOT_SUPPORTED : StatusCode := 505

/-- The part of `clientConnection->config` that the parser reads. -/
structure ClientConfig where
  client_max_header_count : Nat
  client_max_header_size : Nat
  client_max_body_size : Nat
  deriving DecidableEq

/-- What the parser takes from `ServerPool`, which is not part of the sources: the limit
`getHttpConfig().max_request_line_size`, and the effect of `matchVirtualServer` on the
configuration of the connection. -/
structure ServerPool where
  max_request_line_size : Nat
  matchVirtualServer : ClientConfig → Str → ClientConfig

/-- The class `HttpRequest`.  `method` is `none` until the request line has assigned it;
`body` is the sequence of bytes appended to the body buffer so far. -/
structure HttpRequest where
  method : Option HttpMethod := none
  uri : Str := []
  version : Str := []
  headers : List (Str × Str) := []
  headerCount : Nat := 0
  body : Str := []
  totalBodySize : Nat := 0
  deriving DecidableEq

/-- The lookup `headers.find(name)`: the value stored under `name`, if any. -/
def headersFind (headers : List (Str × Str)) (name : Str) : Option Str :=
  match headers with
  | [] => none
  | (k, v) :: rest => if k = name then some v else headersFind rest name

/-- The assignment `headers[name] = value`: the entry is replaced if the key is there and
added otherwise. -/
def headersSet (headers : List (Str × Str)) (name value : Str) : List (Str × Str) :=
  match headers with
  | [] => [(name, value)]
  | (k, v) :: rest =>
    if k = name then (k, value) :: rest else (k, v) :: headersSet rest name value

/-- Modelled from the spec: `HttpRequest::getHeader` is defined in a file that is not part
of the sources; as its sibling `HttpResponse::getHeader` it returns the stored value, and
the empty string when the header is absent. -/
def HttpRequest.getHeader (r : HttpRequest) (name : Str) : Str :=
  (headersFind r.headers name).getD []

/-- The class `HttpParser`, with the configuration of its connection. -/
structure HttpParser where
  state : ParseState
  buffer : Str
  request : HttpRequest
  contentLength : Nat
  chunkedTransfer : Bool
  errorCode : StatusCode
  chunkSize : Nat
  hasChunkSize : Bool
  headerStart : Nat
  bodyStart : Nat
  config : ClientConfig
  deriving DecidableEq

/-! ## The parser -/

/-- The assignment `state = ParseState::ERROR` of an error path that sets no status. -/
def HttpParser.fail (p : HttpParser) : HttpParser :=
  { p with state := ParseState.ERROR }

/-- An error path that sets the state to ERROR and the status to `code`. -/
def HttpParser.latch (p : HttpParser) (code : StatusCode) : HttpParser :=
  { p with state := ParseState.ERROR, errorCode := code }

/-- The loop of `HttpParser::decodeString`; `skip` is the number of characters the index
still has to step over after a decoded escape (`i += 2`). -/
def decodeLoop : Nat → Str → Str
  | _, [] => []
  | skip + 1, _ :: rest => decodeLoop skip rest
  | 0, c :: rest =>
    if c = '%' ∧ 2 ≤ rest.length then
      match extractHexInt (rest.take 2) with
      | some value => castChar value :: decodeLoop 2 rest
      | none => c :: decodeLoop 0 rest
    else if c = '+' then ' ' :: decodeLoop 0 rest
    else c :: decodeLoop 0 rest

/-- The function `HttpParser::decodeString`. -/
def decodeString (input : Str) : Str :=
  decodeLoop 0 input

/-- The function `HttpParser::stringToMethod`. -/
def stringToMethod (method : Str) : Option HttpMethod :=
  if method = "GET".toList then some HttpMethod.GET
  else if method = "POST".toList then some HttpMethod.POST
  else if method = "PUT".toList then some HttpMethod.PUT
  else if method = "DELETE".toList then some HttpMethod.DELETE
  else if method = "HEAD".toList then some HttpMethod.HEAD
  else if method = "PATCH".toList then some HttpMethod.PATCH
  else if method = "OPTIONS".toList then some HttpMethod.OPTIONS
  else none

/-- The test of the version token in `parseRequestLine`: true when the token is refused. -/
def versionRefused (version : Str) : Bool :=
  decide (version.length < 8) || decide (version.take 5 ≠ "HTTP/".toList) ||
  decide (version.getD 5 '\x00' ≠ '1') || decide (version.getD 6 '\x00' ≠ '.') ||
  decide (version.getD 7 '\x00' ≠ '1')

/-- The part of `parseRequestLine` that follows the extraction of the three tokens. -/
def acceptRequestLine (now : Nat) (p : HttpParser) (methodStr uri version rest : Str) :
    Bool × HttpParser :=
  if rest.length > 0 then (false, p.fail)
  else
    match stringToMethod methodStr with
    | none => (false, p.fail)
    | some method =>
      if (uri = [] ∨ uri.head? ≠ some '/') ∧ find uri "://".toList = none then (false, p.fail)
      else if versionRefused version then (false, p.latch HTTP_VERSION_NOT_SUPPORTED)
      else
        (true, { p with
          request := { p.request with
            method := some method, uri := decodeString uri, version := version },
          state := ParseState.HEADERS,
          headerStart := now })

/-- The function `HttpParser::parseRequestLine`. -/
def parseRequestLine (pool : ServerPool) (now : Nat) (p : HttpParser) : Bool × HttpParser :=
  match find p.buffer CRLF with
  | none => (false, p)
  | some endPos =>
    if endPos > pool.max_request_line_size then (false, p.latch REQUEST_URI_TOO_LONG)
    else
      let line := p.buffer.take endPos
      let p1 := { p with buffer := p.buffer.drop (endPos + 2) }
      if line = [] ∨ isspace (line.headD ' ') = true then (false, p1.latch BAD_REQUEST)
      else
        match extractToken line with
        | none => (false, p1.fail)
        | some (methodStr, r1) =>
          match extractToken r1 with
          | none => (false, p1.fail)
          | some (uri, r2) =>
            match extractToken r2 with
            | none => (false, p1.fail)
            | some (version, r3) => acceptRequestLine now p1 methodStr uri version r3

/-- The character class of the header name in `headerRegex`: the token characters of
RFC 7230 (39 is the apostrophe, 96 the grave accent). -/
def isTokenChar (c : Char) : Bool :=
  c = '!' || c = '#' || c = '$' || c = '%' || c = '&' || c.toNat = 39 || c = '*' ||
  c = '+' || c = '-' || c = '.' || c = '^' || c = '_' || c.toNat = 96 || c = '|' ||
  c = '~' || (decide (48 ≤ c.toNat) && decide (c.toNat ≤ 57)) ||
  (decide (65 ≤ c.toNat) && decide (c.toNat ≤ 90)) ||
  (decide (97 ≤ c.toNat) && decide (c.toNat ≤ 122))

/-- The test `std::regex_match(line, headerRegex)`: one or more token characters, a colon,
spaces and tabs, then characters other than CR and LF up to the end of the line. -/
def headerRegexMatch (line : Str) : Bool :=
  let name := line.takeWhile isTokenChar
  match line.dropWhile isTokenChar with
  | ':' :: rest =>
    decide (name ≠ []) &&
      (rest.dropWhile (fun c => c = ' ' || c = '\t')).all (fun c => c != '\r' && c != '\n')
  | _ => false

/-- The loop `for (i = 1; ...) if (name[i - 1] == '-') name[i] = toupper(name[i])`, where
`previous` is the character at `i - 1`. -/
def upperAfterDash (previous : Char) : Str → Str
  | [] => []
  | c :: rest =>
    let c1 := if previous = '-' then toupper c else c
    c1 :: upperAfterDash c1 rest

/-- The canonical form of a header name as `parseHeaders` computes it: everything in lower
case, then the first character and each character after a dash in upper case. -/
def canonicalName (raw : Str) : Str :=
  match raw.map tolower with
  | [] => []
  | c :: rest => toupper c :: upperAfterDash (toupper c) rest

/-- The name `Host`. -/
def hostName : Str := "Host".toList
/-- The name `Content-Length`. -/
def contentLengthName : Str := "Content-Length".toList
/-- The name `Transfer-Encoding`. -/
def transferEncodingName : Str := "Transfer-Encoding".toList
/-- The value `chunked`. -/
def chunkedValue : Str := "chunked".toList

/-- The part of the body of the loop of `parseHeaders` that follows the regex test: the
name and the value are taken from the line and stored.  The boolean is true when the loop
goes on and false when the function returns false. -/
def storeHeader (pool : ServerPool) (p : HttpParser) (line : Str) : Bool × HttpParser :=
  let rawName : Str :=
    match find line [':'] with
    | some colonPos => line.take colonPos
    | none => line
  let rawValue : Str :=
    match find line [':'] with
    | some colonPos => line.drop (colonPos + 1)
    | none => line
  let name := canonicalName rawName
  if rawValue.any (fun c => iscntrl c && c != '\r' && c != '\n') then (false, p.fail)
  else
    let value := eraseLeadingBlanks rawValue
    if name = hostName ∧ (headersFind p.request.headers hostName).isSome then (false, p.fail)
    else if name = hostName ∧ value = [] then (false, p.fail)
    else
      let p1 : HttpParser :=
        if name = hostName then { p with config := pool.matchVirtualServer p.config value }
        else p
      if name = transferEncodingName ∧ value ≠ chunkedValue then
        (false, p1.latch NOT_IMPLEMENTED)
      else
        let p2 : HttpParser :=
          if name = transferEncodingName then { p1 with chunkedTransfer := true } else p1
        if name ≠ [] then
          (true, { p2 with
            request := { p2.request with headers := headersSet p2.request.headers name value } })
        else (true, p2)

/-- One turn of the loop of `parseHeaders` on a line that is not empty (`endPos` is not 0).
The boolean is true when the loop goes on and false when the function returns false. -/
def headerLine (pool : ServerPool) (p : HttpParser) (endPos : Nat) : Bool × HttpParser :=
  let max_header_count := p.config.client_max_header_count
  let client_max_header_size := p.config.client_max_header_size
  if client_max_header_size > 0 ∧ endPos > client_max_header_size then (false, p.fail)
  else
    let p1 : HttpParser :=
      { p with request := { p.request with headerCount := p.request.headerCount + 1 } }
    if p1.request.headerCount > max_header_count then (false, p1.fail)
    else
      let line := p1.buffer.take endPos
      let p2 : HttpParser := { p1 with buffer := p1.buffer.drop (endPos + 2) }
      if headerRegexMatch line = false then (false, p2.fail)
      else storeHeader pool p2 line

/-- The end of the header block in `parseHeaders`, after the Content-Length value has been
read: the tests on `Host` and on the two body framings, and the next state. -/
def headersDone (now : Nat) (p : HttpParser) (contentLengthStr : Str) : Bool × HttpParser :=
  if headersFind p.request.headers hostName = none then (false, p.latch BAD_REQUEST)
  else if contentLengthStr ≠ [] ∧ p.chunkedTransfer = true then (false, p.latch BAD_REQUEST)
  else if p.contentLength > 0 ∨ p.chunkedTransfer = true then
    (true, { p with bodyStart := now, state := ParseState.BODY })
  else (true, { p with state := ParseState.COMPLETE })

/-- The turn of the loop of `parseHeaders` on the empty line (`endPos` is 0). -/
def blankLine (now : Nat) (p : HttpParser) : Bool × HttpParser :=
  let p1 : HttpParser := { p with headerStart := 0, buffer := p.buffer.drop 2 }
  let contentLengthStr := p1.request.getHeader contentLengthName
  if contentLengthStr ≠ [] then
    if contentLengthStr.head? = some '-' then (false, p1.fail)
    else
      match stoul contentLengthStr 10 with
      | none => (false, p1.fail)
      | some n => headersDone now { p1 with contentLength := n } contentLengthStr
  else headersDone now p1 contentLengthStr

/-- The loop of `HttpParser::parseHeaders`. -/
def parseHeadersLoop (pool : ServerPool) (now : Nat) : Nat → HttpParser → Bool × HttpParser
  | 0, p => (false, p)
  | fuel + 1, p =>
    match find p.buffer CRLF with
    | none => (false, p)
    | some endPos =>
      if endPos = 0 then blankLine now p
      else
        match headerLine pool p endPos with
        | (true, p1) => parseHeadersLoop pool now fuel p1
        | (false, p1) => (false, p1)

/-- The function `HttpParser::parseHeaders`: every turn of the loop that goes on removes
at least three bytes from the buffer. -/
def parseHeaders (pool : ServerPool) (now : Nat) (p : HttpParser) : Bool × HttpParser :=
  parseHeadersLoop pool now (p.buffer.length + 1) p

/-- The function `HttpParser::appendToBody`. -/
def appendToBody (p : HttpParser) (data : Str) : Bool × HttpParser :=
  let client_max_body_size := p.config.client_max_body_size
  if client_max_body_size > 0 ∧ p.request.totalBodySize > client_max_body_size then
    (false, p.latch CONTENT_TOO_LARGE)
  else
    let p1 : HttpParser :=
      { p with request := { p.request with
          totalBodySize := p.request.totalBodySize + data.length,
          body := p.request.body ++ data } }
    (decide (p1.request.totalBodySize ≥ p1.contentLength), p1)

/-- The turn of the loop of `parseChunkedBody` that reads a chunk-size line
(`hasChunkSize` is false).  The boolean is true when the loop goes on. -/
def chunkSizeLine (p : HttpParser) (sizeEndPos : Nat) : Bool × HttpParser :=
  let client_max_body_size := p.config.client_max_body_size
  let sizeHex0 := p.buffer.take sizeEndPos
  let sizeHex : Str :=
    match find sizeHex0 [';'] with
    | some semicolonPos => sizeHex0.take semicolonPos
    | none => sizeHex0
  if sizeHex.all isxdigit = false then (false, p.fail)
  else
    match stoul sizeHex 16 with
    | none => (false, p.fail)
    | some n =>
      let p1 : HttpParser := { p with chunkSize := n, hasChunkSize := true }
      if client_max_body_size > 0 ∧
          (p1.request.totalBodySize + p1.chunkSize) % ULONG_RANGE > client_max_body_size then
        (false, p1.fail)
      else (true, { p1 with buffer := p1.buffer.drop (sizeEndPos + 2) })

/-- The turn of the loop of `parseChunkedBody` after the size line of the last chunk
(`hasChunkSize` is true and `chunkSize` is 0); `line` is the buffer up to the first CRLF. -/
def lastChunk (p : HttpParser) (line : Str) : Bool × HttpParser :=
  if line ≠ [] then (false, p.fail)
  else
    let p1 : HttpParser := { p with buffer := p.buffer.drop 2 }
    if p1.buffer ≠ [] then (false, p1.fail)
    else (true, { p1 with state := ParseState.COMPLETE })

/-- The result of one turn of the loop of `parseChunkedBody`. -/
inductive Turn
  | goOn (p : HttpParser)
  | done (result : Bool) (p : HttpParser)

/-- The turn of the loop of `parseChunkedBody` that reads the data of a chunk
(`hasChunkSize` is true and `chunkSize` is not 0).  A read of `buffer[i]` at `i = size()`
gives the null character; beyond that index the C++ program has no defined behaviour and
the model reads a null character there too. -/
def chunkData (p : HttpParser) : Turn :=
  if p.buffer.length < (p.chunkSize + 2) % ULONG_RANGE then Turn.done false p
  else if p.buffer.getD p.chunkSize '\x00' ≠ '\r' ∨
      p.buffer.getD ((p.chunkSize + 1) % ULONG_RANGE) '\x00' ≠ '\n' then
    Turn.done false p.fail
  else
    let chunkedBody := p.buffer.take p.chunkSize
    let p1 := (appendToBody p chunkedBody).2
    Turn.goOn { p1 with
      hasChunkSize := false,
      buffer := p1.buffer.drop ((p1.chunkSize + 2) % ULONG_RANGE) }

/-- The loop of `HttpParser::parseChunkedBody`. -/
def parseChunkedBodyLoop : Nat → HttpParser → Bool × HttpParser
  | 0, p => (false, p)
  | fuel + 1, p =>
    match find p.buffer CRLF with
    | none => (false, p)
    | some sizeEndPos =>
      if p.hasChunkSize = false then
        match chunkSizeLine p sizeEndPos with
        | (true, p1) => parseChunkedBodyLoop fuel p1
        | (false, p1) => (false, p1)
      else if p.chunkSize = 0 then lastChunk p (p.buffer.take sizeEndPos)
      else
        match chunkData p with
        | Turn.goOn p1 => parseChunkedBodyLoop fuel p1
        | Turn.done result p1 => (result, p1)

/-- The function `HttpParser::parseChunkedBody`: a turn that reads a size line removes at
least two bytes from the buffer and is followed by at most one turn that reads data. -/
def parseChunkedBody (p : HttpParser) : Bool × HttpParser :=
  parseChunkedBodyLoop (p.buffer.length + 2) p

/-- The function `HttpParser::parseBody`. -/
def parseBody (p : HttpParser) : Bool × HttpParser :=
  let client_max_body_size := p.config.client_max_body_size
  if p.chunkedTransfer = false ∧ client_max_body_size > 0 ∧
      p.contentLength > client_max_body_size then
    (false, p.latch CONTENT_TOO_LARGE)
  else if p.chunkedTransfer = true then parseChunkedBody p
  else if p.request.totalBodySize + p.buffer.length > p.contentLength then (false, p.fail)
  else
    let (isBodyComplete, p1) := appendToBody p p.buffer
    let p2 : HttpParser := { p1 with buffer := [] }
    if isBodyComplete = true then (true, { p2 with state := ParseState.COMPLETE })
    else (false, p2)

/-- The loop `while (!needMoreData)` of `HttpParser::parse`. -/
def parseLoop (pool : ServerPool) (now : Nat) : Nat → HttpParser → Bool × HttpParser
  | 0, p => (false, p)
  | fuel + 1, p =>
    match p.state with
    | ParseState.REQUEST_LINE =>
      match parseRequestLine pool now p with
      | (true, p1) => parseLoop pool now fuel p1
      | (false, p1) => (false, p1)
    | ParseState.HEADERS =>
      match parseHeaders pool now p with
      | (true, p1) => parseLoop pool now fuel p1
      | (false, p1) => (false, p1)
    | ParseState.BODY =>
      match parseBody p with
      | (true, p1) => parseLoop pool now fuel p1
      | (false, p1) => (false, p1)
    | ParseState.COMPLETE => (true, p)
    | ParseState.ERROR => (false, p)

/-- The function `HttpParser::parse`: the loop takes at most four turns, one for each
state on the way from REQUEST_LINE to COMPLETE. -/
def parse (pool : ServerPool) (now : Nat) (p : HttpParser) (data : Str) : Bool × HttpParser :=
  if p.state = ParseState.COMPLETE ∨ p.state = ParseState.ERROR then (false, p)
  else parseLoop pool now 4 { p with buffer := p.buffer ++ data }

/-- The function `HttpParser::reset`. -/
def HttpParser.reset (p : HttpParser) : HttpParser :=
  { p with
    errorCode := BAD_REQUEST,
    state := ParseState.REQUEST_LINE,
    request := {},
    buffer := [],
    contentLength := 0,
    chunkedTransfer := false,
    headerStart := 0,
    bodyStart := 0,
    chunkSize := 0,
    hasChunkSize := false }

/-- Modelled from the spec: the constructor `HttpParser(clientConnection)`.  It sets the
state, a new request, `contentLength` and `chunkedTransfer`; the other members get their
values from initialisers in a header that is not part of the sources, taken here to be the
values `reset` gives them (error code 400, empty buffer). -/
def HttpParser.create (config : ClientConfig) : HttpParser :=
  { state := ParseState.REQUEST_LINE,
    buffer := [],
    request := {},
    contentLength := 0,
    chunkedTransfer := false,
    errorCode := BAD_REQUEST,
    chunkSize := 0,
    hasChunkSize := false,
    headerStart := 0,
    bodyStart := 0,
    config := config }

/-- Successive `parse` calls on the given fragments; the call for fragment `i` reads the
clock value `clock i`. The result is the list of return values and the parser at the end. -/
def feed (pool : ServerPool) (clock : Nat → Nat) :
    HttpParser → List Str → List Bool × HttpParser
  | p, [] => ([], p)
  | p, data :: more =>
    let r := parse pool (clock 0) p data
    let rs := feed pool (fun i => clock (i + 1)) r.2 more
    (r.1 :: rs.1, rs.2)

/-! ## Auxiliary definitions for the proofs -/

/-- The shape of the result of a state function called on `p`: either it returns true
and the new state satisfies `next`, or it returns false and the state is the one of `p`
or ERROR. -/
def StepShape (p : HttpParser) (r : Bool × HttpParser) (next : ParseState → Prop) : Prop :=
  (r.1 = true ∧ next r.2.state) ∨
    (r.1 = false ∧ (r.2.state = p.state ∨ r.2.state = ParseState.ERROR))

/-- The number of turns the loop of `parse` can still take from a state. -/
def ParseState.rank : ParseState → Nat
  | ParseState.REQUEST_LINE => 3
  | ParseState.HEADERS => 2
  | ParseState.BODY => 1
  | ParseState.COMPLETE => 0
  | ParseState.ERROR => 0

/-- The measure that decreases at every turn of the loop of `parseChunkedBody`. -/
def chunkMeasure (p : HttpParser) : Nat :=
  p.buffer.length + (if p.hasChunkSize = true then 1 else 0)

/-- A server pool for the examples: request lines up to 8192 bytes, and a virtual-server
match that keeps the configuration of the connection. -/
def examplePool : ServerPool :=
  { max_request_line_size := 8192, matchVirtualServer := fun config _ => config }

/-- A connection configuration for the examples: at most 100 headers, header lines up to
8192 bytes, bodies up to 1000 bytes. -/
def exampleConfig : ClientConfig :=
  { client_max_header_count := 100, client_max_header_size := 8192,
    client_max_body_size := 1000 }

/-- The parser with `more` appended to its buffer. -/
def HttpParser.extend (p : HttpParser) (more : Str) : HttpParser :=
  { p with buffer := p.buffer ++ more }

/-- The parser with its two time stamps cleared. -/
def HttpParser.untimed (p : HttpParser) : HttpParser :=
  { p with headerStart := 0, bodyStart := 0 }

/-- A result of a state function with the time stamps of the parser cleared. -/
def untimedResult (r : Bool × HttpParser) : Bool × HttpParser :=
  (r.1, r.2.untimed)

/-- A turn of the chunk loop with the time stamps of the parser cleared. -/
def untimedTurn : Turn → Turn
  | Turn.goOn p => Turn.goOn p.untimed
  | Turn.done r p => Turn.done r p.untimed

/-- A result of a state function with `more` appended to the buffer of the parser. -/
def extendResult (r : Bool × HttpParser) (more : Str) : Bool × HttpParser :=
  (r.1, r.2.extend more)

/-- A turn of the chunk loop with `more` appended to the buffer of the parser. -/
def extendTurn (t : Turn) (more : Str) : Turn :=
  match t with
  | Turn.goOn p => Turn.goOn (p.extend more)
  | Turn.done r p => Turn.done r (p.extend more)

/-- The bytes the parser holds: those counted in the body and those in the buffer. -/
def HttpParser.mass (p : HttpParser) : Nat :=
  p.request.totalBodySize + p.buffer.length

/-- The running total of a chunked body respects the body limit, also with the size of a
chunk that has been announced. -/
def ChunkBound (p : HttpParser) : Prop :=
  p.config.client_max_body_size > 0 →
    p.request.totalBodySize ≤ p.config.client_max_body_size ∧
    (p.hasChunkSize = true →
      (p.request.totalBodySize + p.chunkSize) % ULONG_RANGE ≤ p.config.client_max_body_size)

/-- What the header phase has fixed and the body phase only reads: the request without its
body, the declared body length, the framing and the configuration. -/
def HttpParser.head (p : HttpParser) :
    Option HttpMethod × Str × Str × List (Str × Str) × Nat × Nat × Bool × ClientConfig :=
  (p.request.method, p.request.uri, p.request.version, p.request.headers,
    p.request.headerCount, p.contentLength, p.chunkedTransfer, p.config)

/-- The loop of `parse` with the fuel `parse` gives it. -/
def run (pool : ServerPool) (now : Nat) (p : HttpParser) : Bool × HttpParser :=
  parseLoop pool now 4 p

/-- What the header phase leaves alone: the body, its size and the state of the chunk
decoder. -/
def HttpParser.bodyPart (p : HttpParser) : Str × Nat × Nat × Bool :=
  (p.request.body, p.request.totalBodySize, p.chunkSize, p.hasChunkSize)

/-- What `parse` maintains from a new parser on: before the body nothing has been counted
and no chunk size is pending; in a chunked body the running total respects the limit. -/
def WellFormed (p : HttpParser) : Prop :=
  ((p.state = ParseState.REQUEST_LINE ∨ p.state = ParseState.HEADERS) →
    p.request.totalBodySize = 0 ∧ p.hasChunkSize = false) ∧
  (p.state = ParseState.BODY → p.chunkedTransfer = true → ChunkBound p)

/-- How the loop of `parse` on a buffer that holds `y` more relates to the loop on the
shorter buffer, whose result is `r`; `r1` is the result on the longer buffer.  Either the
first loop stopped for want of bytes, and the second does what a new loop does after `y`
has arrived (or both of these end in ERROR with the same status, when `y` exceeds the
declared length of an identity body); or the first ended in ERROR, and so does the second,
with the same parser but for the buffer; or the first ended in COMPLETE, and the second
ends in COMPLETE with `y` left in the buffer, or in ERROR. -/
def Outcome (pool : ServerPool) (now : Nat) (y : Str) (bound : Nat)
    (r r1 : Bool × HttpParser) : Prop :=
  (r.1 = false ∧ r.2.state ≠ ParseState.COMPLETE ∧ r.2.state ≠ ParseState.ERROR ∧
    WellFormed r.2 ∧ r.2.mass ≤ bound ∧
    (r1 = run pool now (r.2.extend y) ∨
      (r1.1 = false ∧ r1.2.state = ParseState.ERROR ∧
        (run pool now (r.2.extend y)).1 = false ∧
        (run pool now (r.2.extend y)).2.state = ParseState.ERROR ∧
        r1.2.errorCode = (run pool now (r.2.extend y)).2.errorCode ∧
        r1.2.head = (run pool now (r.2.extend y)).2.head))) ∨
  (r.1 = false ∧ r.2.state = ParseState.ERROR ∧ r1 = (false, r.2.extend y)) ∨
  (r.1 = true ∧ r.2.state = ParseState.COMPLETE ∧
    (y = [] ∨ r1 = (true, r.2.extend y) ∨
      (r1.1 = false ∧ r1.2.state = ParseState.ERROR)))

/-- Two results of `parse` are the same for a caller: the same return value, state, status
code and header part of the request, and, unless the state is ERROR, the same parser but
for the time stamps. -/
def SameResult (a b : Bool × HttpParser) : Prop :=
  a.1 = b.1 ∧ a.2.state = b.2.state ∧ a.2.errorCode = b.2.errorCode ∧ a.2.head = b.2.head ∧
    (a.2.state ≠ ParseState.ERROR → a.2.untimed = b.2.untimed)

/-- A request head that announces an identity body of five bytes. -/
def fiveByteHead : Str :=
  "POST /u HTTP/1.1\r\nHost: x\r\nContent-Length: 5\r\n\r\n".toList

/-- The name of a header line as received: the characters before the first colon. -/
def lineName (line : Str) : Str :=
  match find line [':'] with
  | some colonPos => line.take colonPos
  | none => line

/-- The value of a header line as received: the characters after the first colon. -/
def lineRawValue (line : Str) : Str :=
  match find line [':'] with
  | some colonPos => line.drop (colonPos + 1)
  | none => line

/-- The value of a header line after the leading spaces and tabs have been stripped. -/
def lineValue (line : Str) : Str :=
  eraseLeadingBlanks (lineRawValue line)

/-- The key under which a header line is stored. -/
def lineKey (line : Str) : Str :=
  canonicalName (lineName line)

/-- The lines of a block, each followed by CRLF. -/
def joinLines (lines : List Str) : Str :=
  (lines.map (· ++ CRLF)).flatten

/-- A line as the parser cuts it: followed by CRLF, the first CRLF is the one at its end. -/
def IsLine (line : Str) : Prop :=
  find (line ++ CRLF) CRLF = some line.length

/-- The header map after the given lines have been stored in order. -/
def headersOfLines (lines : List Str) : List (Str × Str) :=
  lines.foldl (fun headers line => headersSet headers (lineKey line) (lineValue line)) []

/-- The facts that link the header part of the request to the header lines received. -/
structure HeadFacts (p : HttpParser) (lines : List Str) : Prop where
  headers : p.request.headers = headersOfLines lines
  count : p.request.headerCount = lines.length
  lines_ok : ∀ l ∈ lines, IsLine l ∧ l ≠ [] ∧ headerRegexMatch l = true
  host_once : (lines.filter (fun l => decide (lineKey l = hostName))).length ≤ 1
  host_value : ∀ l ∈ lines, lineKey l = hostName → lineValue l ≠ []
  chunked : p.chunkedTransfer = true ↔ ∃ l ∈ lines, lineKey l = transferEncodingName
  encoding : ∀ l ∈ lines, lineKey l = transferEncodingName → lineValue l = chunkedValue

/-- The declared body length is the number read from the stored Content-Length value, and
0 when that value is empty or absent. -/
def LengthFact (p : HttpParser) : Prop :=
  (p.request.getHeader contentLengthName = [] → p.contentLength = 0) ∧
  (p.request.getHeader contentLengthName ≠ [] →
    stoul (p.request.getHeader contentLengthName) 10 = some p.contentLength)

/-- A parser as the constructor leaves it, but for the buffer and the configuration. -/
def Pristine (p : HttpParser) : Prop :=
  p.request = {} ∧ p.contentLength = 0 ∧ p.chunkedTransfer = false ∧
    p.errorCode = BAD_REQUEST ∧ p.hasChunkSize = false

/-- The parser is in the header block of `input`: the request line and the header `lines`
have been taken from it and the rest is in the buffer. -/
def InHeaders (input : Str) (p : HttpParser) : Prop :=
  ∃ (requestLine : Str) (lines : List Str),
    input = requestLine ++ CRLF ++ joinLines lines ++ p.buffer ∧
    IsLine requestLine ∧ requestLine ≠ [] ∧ HeadFacts p lines ∧
    p.errorCode = BAD_REQUEST ∧ p.request.body = [] ∧ p.request.totalBodySize = 0 ∧
    p.contentLength = 0 ∧ p.hasChunkSize = false

/-- The parser is past the header block of `input`, which the empty line after the header
`lines` has ended; `rest` is what follows that line. -/
def PastHeaders (input : Str) (p : HttpParser) : Prop :=
  ∃ (requestLine : Str) (lines : List Str) (rest : Str),
    input = requestLine ++ CRLF ++ joinLines lines ++ CRLF ++ rest ∧
    IsLine requestLine ∧ requestLine ≠ [] ∧ HeadFacts p lines ∧
    (lines.filter (fun l => decide (lineKey l = hostName))).length = 1 ∧
    LengthFact p ∧
    ¬ (p.request.getHeader contentLengthName ≠ [] ∧ p.chunkedTransfer = true) ∧
    (p.chunkedTransfer = false →
      (p.state = ParseState.BODY →
        p.request.body ++ p.buffer = rest ∧ p.request.totalBodySize = p.request.body.length ∧
        0 < p.contentLength) ∧
      (p.state = ParseState.COMPLETE →
        p.request.body = rest.take p.contentLength ∧
        p.request.totalBodySize = p.contentLength ∧ p.contentLength ≤ rest.length))

/-- What a parser fed `input` from its construction on knows about `input`. -/
def Trace (input : Str) (p : HttpParser) : Prop :=
  match p.state with
  | ParseState.REQUEST_LINE => p.buffer = input ∧ Pristine p
  | ParseState.HEADERS => InHeaders input p
  | ParseState.BODY => PastHeaders input p
  | ParseState.COMPLETE => PastHeaders input p
  | ParseState.ERROR => True

/-- A lowercase ASCII letter. -/
def isLowerLetter (c : Char) : Bool :=
  decide (97 ≤ c.toNat) && decide (c.toNat ≤ 122)

/-- An uppercase ASCII letter. -/
def isUpperLetter (c : Char) : Bool :=
  decide (65 ≤ c.toNat) && decide (c.toNat ≤ 90)

/-- The characters of `s` after the character `previous` are in canonical case: not a
lowercase letter right after a dash, not an uppercase letter elsewhere. -/
def canonicalAfter (previous : Char) : Str → Bool
  | [] => true
  | c :: rest =>
    (if previous = '-' then !isLowerLetter c else !isUpperLetter c) && canonicalAfter c rest

/-- The canonical Title-Case-Dash form: the first character and every character right
after a dash is not a lowercase letter, and no other character is an uppercase letter. -/
def isCanonicalForm (s : Str) : Bool :=
  match s with
  | [] => true
  | c :: rest => !isLowerLetter c && canonicalAfter c rest

/-- The value of a hexadecimal digit, in either case. -/
def hexDigitValue (c : Char) : Nat :=
  if 48 ≤ c.toNat ∧ c.toNat ≤ 57 then c.toNat - 48
  else if 97 ≤ c.toNat ∧ c.toNat ≤ 102 then c.toNat - 87
  else if 65 ≤ c.toNat ∧ c.toNat ≤ 70 then c.toNat - 55
  else 0

/-- The number that a string of hexadecimal digits writes, most significant digit first. -/
def hexValue (s : Str) : Nat :=
  s.foldl (fun acc c => acc * 16 + hexDigitValue c) 0

/-- A chunk of a chunked body as it is sent: the size in hexadecimal digits, a chunk
extension (empty, or introduced by a semicolon), and the data. -/
structure Chunk where
  sizeHex : Str
  ext : Str
  data : Str

/-- The chunk as the spec wants it: `size-hex [;ext] CRLF`, then `size` bytes, with a size
that is not 0; the size line has no CRLF but the one that ends it. -/
def Chunk.Valid (c : Chunk) : Prop :=
  c.sizeHex ≠ [] ∧ c.sizeHex.all isxdigit = true ∧ hexValue c.sizeHex = c.data.length ∧
    c.data ≠ [] ∧ (c.ext = [] ∨ c.ext.head? = some ';') ∧ IsLine (c.sizeHex ++ c.ext)

instance (c : Chunk) : Decidable c.Valid := by
  unfold Chunk.Valid IsLine
  infer_instance

/-- The bytes of a chunk: `size-hex [;ext] CRLF data CRLF`. -/
def Chunk.encode (c : Chunk) : Str :=
  c.sizeHex ++ c.ext ++ CRLF ++ c.data ++ CRLF

/-- The chunked body made of the given chunks and the last chunk `0 CRLF CRLF`. -/
def encodeChunked (chunks : List Chunk) : Str :=
  (chunks.map Chunk.encode).flatten ++ "0\r\n\r\n".toList

/-- The data of the chunks in order. -/
def chunkedData (chunks : List Chunk) : Str :=
  (chunks.map Chunk.data).flatten

/-- The sizes that the size lines of the chunks announce, added up. -/
def chunkSizes (chunks : List Chunk) : Nat :=
  (chunks.map (fun c => hexValue c.sizeHex)).sum

/-- A request head that announces a chunked body. -/
def chunkedHead : Str :=
  "POST /u HTTP/1.1\r\nHost: x\r\nTransfer-Encoding: chunked\r\n\r\n".toList

/-- Two chunks, the second with a size in upper case and a chunk extension. -/
def exampleChunks : List Chunk :=
  [{ sizeHex := "5".toList, ext := [], data := "Hello".toList },
   { sizeHex := "0A".toList, ext := ";foo=bar".toList, data := ", world!!!".toList }]

/-- A server pool for the examples with the given limit on the request line. -/
def poolWithLineLimit (limit : Nat) : ServerPool :=
  { max_request_line_size := limit, matchVirtualServer := fun config _ => config }

/-- The static member `SessionManager::sessions`, a `std::unordered_map` from a session id
to the list of the file names of the session.  The list holds one entry for each key; its
order stands for the order in which the map is iterated, which C++ leaves open. -/
abbrev Sessions := List (Str × List Str)

/-- The call `sessions.find(sid)`: the value stored under the key, `none` for `end()`. -/
def sessionsFind (sessions : Sessions) (sid : Str) : Option (List Str) :=
  match sessions with
  | [] => none
  | (k, v) :: rest => if k = sid then some v else sessionsFind rest sid

/-- The assignment `sessions[sid] = files`: the value is replaced if the key is there and
the entry is added otherwise. -/
def sessionsSet (sessions : Sessions) (sid : Str) (files : List Str) : Sessions :=
  match sessions with
  | [] => [(sid, files)]
  | (k, v) :: rest =>
    if k = sid then (k, files) :: rest else (k, v) :: sessionsSet rest sid files

/-- The function `generateSessionId` for the value `val` that the random engine gives:
`val` in lower-case hexadecimal digits, filled with `0` on the left to a width of 16. -/
def generateSessionId (val : Nat) : Str :=
  let digits := Nat.toDigits 16 (val % ULONG_RANGE)
  List.replicate (16 - digits.length) '0' ++ digits

/-- The call `s.find(pattern, pos)` for `pos` not beyond the end of `s`. -/
def findFrom (s pattern : Str) (pos : Nat) : Option Nat :=
  (find (s.drop pos) pattern).map (· + pos)

/-- The function `SessionManager::getSessionId`; `val` is the value that the random engine
gives if an id is generated.  The result is the id, `isNew` and the map after the call. -/
def getSessionId (sessions : Sessions) (cookieHeader : Str) (val : Nat) :
    Str × Bool × Sessions :=
  let created : Str × Bool × Sessions :=
    (generateSessionId val, true, sessionsSet sessions (generateSessionId val) [])
  match find cookieHeader "sessionId=".toList with
  | some found =>
    let pos := found + "sessionId=".length
    let id : Str :=
      match findFrom cookieHeader [';'] pos with
      | some e => (cookieHeader.drop pos).take (e - pos)
      | none => cookieHeader.drop pos
    if (sessionsFind sessions id).isSome then (id, false, sessions) else created
  | none => created

/-- The function `SessionManager::addUploadedFile`: `sessions[sid]` makes an entry with an
empty list when the key is new, then the name is put at the end of the list. -/
def addUploadedFile (sessions : Sessions) (sid fn : Str) : Sessions :=
  sessionsSet sessions sid ((sessionsFind sessions sid).getD [] ++ [fn])

/-- The function `SessionManager::ownsFile`. -/
def ownsFile (sessions : Sessions) (sid fn : Str) : Bool :=
  match sessionsFind sessions sid with
  | none => false
  | some v => decide (fn ∈ v)

/-- The function `SessionManager::removeFile`: the first occurrence of the name is erased.
The result is the return value and the map after the call. -/
def removeFile (sessions : Sessions) (sessionId filename : Str) : Bool × Sessions :=
  match sessionsFind sessions sessionId with
  | none => (false, sessions)
  | some v =>
    if filename ∈ v then (true, sessionsSet sessions sessionId (v.erase filename))
    else (false, sessions)

/-- The eight bytes of a `size_t` in memory, as `safeWrite(&n, sizeof(n))` writes them:
the least significant byte first (the byte order of the usual 64-bit platforms). -/
def sizeBytes (n : Nat) : Str :=
  (List.range 8).map (fun i => Char.ofNat (n / 256 ^ i % 256))

/-- The `size_t` that `read(fd, &n, sizeof(n))` leaves in `n` when it has read the given
bytes. -/
def sizeOfBytes (bytes : Str) : Nat :=
  bytes.foldr (fun c acc => c.toNat % 256 + 256 * acc) 0

/-- The bytes that the inner loop of `serialize` writes for the file names of a session. -/
def serializeFiles (files : List Str) : Str :=
  (files.map (fun fn => sizeBytes fn.length ++ fn)).flatten

/-- The bytes that `SessionManager::serialize` hands to `write`, in order. -/
def serializeBytes (sessions : Sessions) : Str :=
  sizeBytes sessions.length ++
    (sessions.map (fun pair =>
      sizeBytes pair.1.length ++ pair.1 ++ sizeBytes pair.2.length ++
        serializeFiles pair.2)).flatten

/-- The function `SessionManager::serialize` on a file that opens and polls writable: the
content of the file afterwards, when the descriptor takes `accepted` bytes before a `write`
fails (`safeWrite` gives up and the file keeps what was written). -/
def serialize (accepted : Nat) (sessions : Sessions) : Str :=
  (serializeBytes sessions).take accepted

/-- One `read(fd, &n, sizeof(n))` of a `size_t`: `none` when the read does not return 8,
else the value and the rest of the file. -/
def readSize (file : Str) : Option (Nat × Str) :=
  if (file.take 8).length ≠ 8 then none
  else some (sizeOfBytes (file.take 8), file.drop 8)

/-- One `read(fd, &s[0], len)` into a string of `len` bytes: `none` when the read does not
return `len`, else the string and the rest of the file. -/
def readString (len : Nat) (file : Str) : Option (Str × Str) :=
  if (file.take len).length ≠ len then none
  else some (file.take len, file.drop len)

/-- The inner loop of `deserialize` with `count` names still to read; `none` stands for the
paths `close(fd); sessions.clear(); return;`. -/
def readFiles : Nat → Str → List Str → Option (List Str × Str)
  | 0, file, files => some (files, file)
  | count + 1, file, files =>
    match readSize file with
    | none => none
    | some (fnLen, file1) =>
      if fnLen > 4096 then none
      else
        match readString fnLen file1 with
        | none => none
        | some (fn, file2) => readFiles count file2 (files ++ [fn])

/-- The outer loop of `deserialize` with `count` sessions still to read; `none` stands for
the paths `close(fd); sessions.clear(); return;`. -/
def readSessions : Nat → Str → Sessions → Option Sessions
  | 0, _, sessions => some sessions
  | count + 1, file, sessions =>
    match readSize file with
    | none => none
    | some (sidLen, file1) =>
      if sidLen > 4096 then none
      else
        match readString sidLen file1 with
        | none => none
        | some (sid, file2) =>
          match readSize file2 with
          | none => none
          | some (fileCount, file3) =>
            if fileCount > 10000 then none
            else
              match readFiles fileCount file3 [] with
              | none => none
              | some (files, file4) => readSessions count file4 (sessionsSet sessions sid files)

/-- The function `SessionManager::deserialize`.  `file` is `none` when the file cannot be
opened or does not poll readable, else its content; the result is the map after the call. -/
def deserialize (sessions : Sessions) (file : Option Str) : Sessions :=
  match file with
  | none => sessions
  | some content =>
    match readSize content with
    | none => []
    | some (sessionCount, rest) =>
      match readSessions sessionCount rest [] with
      | none => []
      | some loaded => loaded

/-- A call of `addUploadedFile` or of `removeFile`. -/
inductive SessionCall
  | add (sid fn : Str)
  | remove (sid fn : Str)
  deriving DecidableEq

/-- The map after the given calls, made in order. -/
def runCalls (sessions : Sessions) : List SessionCall → Sessions
  | [] => sessions
  | SessionCall.add sid fn :: rest => runCalls (addUploadedFile sessions sid fn) rest
  | SessionCall.remove sid fn :: rest => runCalls (removeFile sessions sid fn).2 rest

/-- The number of calls `addUploadedFile(id, name)` among the given calls. -/
def additions (calls : List SessionCall) (id name : Str) : Nat :=
  calls.count (SessionCall.add id name)

/-- The number of calls `removeFile(id, name)` among the given calls. -/
def removeCalls (calls : List SessionCall) (id name : Str) : Nat :=
  calls.count (SessionCall.remove id name)

/-- The number of calls `removeFile(id, name)` that return true when the given calls are
made in order from `sessions`. -/
def removals (sessions : Sessions) : List SessionCall → Str → Str → Nat
  | [], _, _ => 0
  | SessionCall.add sid fn :: rest, id, name =>
    removals (addUploadedFile sessions sid fn) rest id name
  | SessionCall.remove sid fn :: rest, id, name =>
    (if sid = id ∧ fn = name ∧ (removeFile sessions sid fn).1 = true then 1 else 0) +
      removals (removeFile sessions sid fn).2 rest id name

/-- The number of times `name` is in the list of the session `id`. -/
def owned (sessions : Sessions) (id name : Str) : Nat :=
  ((sessionsFind sessions id).getD []).count name

/-- The number of calls `removeFile(id, name)` that count against the additions of the
pair: a call counts when, at its moment, the additions of the pair made so far are more
than the removals counted so far.  `held` is that difference before the first of the
calls; the definition reads the calls only. -/
def countedRemovals (id name : Str) : Nat → List SessionCall → Nat
  | _, [] => 0
  | held, SessionCall.add sid fn :: rest =>
    countedRemovals id name (if sid = id ∧ fn = name then held + 1 else held) rest
  | held, SessionCall.remove sid fn :: rest =>
    (if sid = id ∧ fn = name ∧ 0 < held then 1 else 0) +
      countedRemovals id name (if sid = id ∧ fn = name then held - 1 else held) rest

/-- The limits that `deserialize` puts on what it loads: ids and names of at most 4096
bytes and at most 10000 names in a session. -/
def WithinLimits (sessions : Sessions) : Prop :=
  ∀ pair ∈ sessions,
    pair.1.length ≤ 4096 ∧ pair.2.length ≤ 10000 ∧ ∀ fn ∈ pair.2, fn.length ≤ 4096

/-- The bytes that the outer loop of `serialize` writes for one session. -/
def serializeSession (pair : Str × List Str) : Str :=
  sizeBytes pair.1.length ++ pair.1 ++ sizeBytes pair.2.length ++ serializeFiles pair.2

/-- The map after the given sessions have been stored in order. -/
def storeAll (sessions : Sessions) (loaded : Sessions) : Sessions :=
  loaded.foldl (fun acc pair => sessionsSet acc pair.1 pair.2) sessions

/-- A session id of 4097 bytes. -/
def longId : Str := List.replicate 4097 'a'

/-- A list of 10001 file names. -/
def manyFiles : List Str := List.replicate 10001 "f".toList

/-- A session at the limits of `deserialize`: an id of 4096 bytes and 10000 file names of
4096 bytes. -/
def sessionAtLimits : Str × List Str :=
  (List.replicate 4096 'a', List.replicate 10000 (List.replicate 4096 'b'))

/-- The value of the cookie `sessionId` in a header in which `sessionId=` begins at index
`found`: the text after it up to the next `;`, or to the end of the header. -/
def cookieValue (cookieHeader : Str) (found : Nat) : Str :=
  (cookieHeader.drop (found + 10)).takeWhile (fun c => c ≠ ';')

/-- A word of a line: not empty and without white space. -/
def IsWord (s : Str) : Prop :=
  s ≠ [] ∧ ∀ c ∈ s, isspace c = false

/-- A gap between two words: not empty and made of white space. -/
def IsGap (s : Str) : Prop :=
  s ≠ [] ∧ ∀ c ∈ s, isspace c = true

/-- The line is made of the three given words with a gap after the first and after the
second, and nothing else. -/
def ThreeWords (line method uri version : Str) : Prop :=
  ∃ gap1 gap2 : Str, line = method ++ (gap1 ++ (uri ++ (gap2 ++ version))) ∧
    IsWord method ∧ IsWord uri ∧ IsWord version ∧ IsGap gap1 ∧ IsGap gap2

/-! ## The buffer that spills to a file (`src/server/buffer/SmartBuffer.cpp`) -/

/-- The class `SmartBuffer`.  `fd` is negative when no descriptor is open; `tmpFileCount`
stands for the static counter of the temporary files, which also determines the name of
the file that `switchToFile` creates.  Sizes are natural numbers: the sums of byte counts
stay far from `2 ^ 64`. -/
structure SmartBuffer where
  maxMemorySize : Nat
  fd : Int
  isFile : Bool
  size : Nat
  buffer : Str
  writeBuffer : Str
  readBuffer : Str
  readPos : Nat
  toRead : Nat
  fdCallbackRegistered : Bool
  tmpFileCount : Nat
  deriving DecidableEq

/-- Modelled from the spec: the constructor `SmartBuffer(maxMemorySize)` sets the limit;
the other members get their values from initialisers in a header that is not part of the
sources, taken here to be those of an empty buffer in memory mode without a descriptor. -/
def SmartBuffer.create (maxMemorySize : Nat) : SmartBuffer :=
  { maxMemorySize := maxMemorySize, fd := -1, isFile := false, size := 0, buffer := [],
    writeBuffer := [], readBuffer := [], readPos := 0, toRead := 0,
    fdCallbackRegistered := false, tmpFileCount := 0 }

/-- The constructor `SmartBuffer(fd)`; `fileSize` is `none` when `fstat` fails, else the
size of the file.  The limit `maxMemorySize`, which this constructor leaves to the
initialiser of the header, is an argument. -/
def SmartBuffer.ofFd (maxMemorySize : Nat) (fd : Int) (fileSize : Option Nat) : SmartBuffer :=
  match fileSize with
  | none => { SmartBuffer.create maxMemorySize with fd := fd }
  | some n =>
    { SmartBuffer.create maxMemorySize with
      fd := fd, size := n, isFile := true, fdCallbackRegistered := true }

/-- The function `SmartBuffer::onFileEvent` for the flags `POLLOUT` and `POLLIN` of the
event.  `written` is what the system answers to `write` (a value that is not positive
is returned as it is, a positive one is the number of bytes taken, at most the number
offered); `seekOk` tells whether `lseek` succeeds; `available` holds the bytes that the
file has at the read position, of which `read` returns at most the number requested. -/
def SmartBuffer.onFileEvent (b : SmartBuffer) (pollout pollin : Bool) (written : Int)
    (seekOk : Bool) (available : Str) : Bool × SmartBuffer :=
  let bytesWritten : Int :=
    if written ≤ 0 then written else min written (b.writeBuffer.length : Int)
  if pollout = true ∧ b.writeBuffer ≠ [] ∧ bytesWritten ≤ 0 then (true, { b with fd := -1 })
  else
    let b1 : SmartBuffer :=
      if pollout = true ∧ b.writeBuffer ≠ [] then
        { b with
          size := b.size + bytesWritten.toNat,
          writeBuffer := b.writeBuffer.drop bytesWritten.toNat }
      else b
    if pollin = true ∧ b1.toRead > 0 then
      if seekOk = false then (false, b1)
      else
        let b2 : SmartBuffer := { b1 with toRead := min b1.toRead 60000 }
        let bytes := available.take b2.toRead
        if bytes.length ≤ 0 then (true, { b2 with fd := -1 })
        else
          (false, { b2 with
            readBuffer := b2.readBuffer ++ bytes,
            readPos := b2.readPos + bytes.length,
            toRead := b2.toRead - bytes.length })
    else (false, b1)

/-- The function `SmartBuffer::switchToFile`; `opened` is what `open` returns. -/
def SmartBuffer.switchToFile (b : SmartBuffer) (opened : Int) : SmartBuffer :=
  if b.isFile = true then b
  else
    let b1 : SmartBuffer := { b with size := 0, tmpFileCount := b.tmpFileCount + 1, fd := opened }
    if opened < 0 then b1
    else
      { b1 with
        writeBuffer := b1.writeBuffer ++ b1.buffer, buffer := [], isFile := true,
        fdCallbackRegistered := true }

/-- The function `SmartBuffer::append`; `opened` is what `open` returns if the call
switches to file mode. -/
def SmartBuffer.append (b : SmartBuffer) (data : Str) (opened : Int) : SmartBuffer :=
  if data.length = 0 then b
  else
    let b1 : SmartBuffer :=
      if b.isFile = true ∧ b.fd ≥ 0 then { b with writeBuffer := b.writeBuffer ++ data }
      else { b with buffer := b.buffer ++ data, size := b.size + data.length }
    if b1.size > b1.maxMemorySize then b1.switchToFile opened else b1

/-- The function `SmartBuffer::read`.  `none` stands for the exception that
`buffer.substr(readPos, toRead)` throws when `readPos` is beyond the end of `buffer`. -/
def SmartBuffer.read (b : SmartBuffer) (length : Nat) : Option SmartBuffer :=
  if length = 0 ∨ b.size = 0 then some b
  else if b.isFile = true ∧ b.fd ≥ 0 then some { b with toRead := b.toRead + length }
  else if b.readPos ≥ b.size then some b
  else
    let available := b.size - b.readPos
    let toRead := min length available
    if b.readPos > b.buffer.length then none
    else
      some { b with
        readBuffer := b.readBuffer ++ (b.buffer.drop b.readPos).take toRead,
        readPos := min (b.readPos + toRead) b.size }

/-- The function `SmartBuffer::cleanReadBuffer`. -/
def SmartBuffer.cleanReadBuffer (b : SmartBuffer) (length : Nat) : SmartBuffer :=
  let length1 := if length > b.readBuffer.length then b.readBuffer.length else length
  { b with readBuffer := b.readBuffer.drop length1 }

/-- A call of an operation of a `SmartBuffer`, or a readiness event for its descriptor,
with what the system calls made in it answer. -/
inductive BufferCall
  | append (data : Str) (opened : Int)
  | read (length : Nat)
  | cleanReadBuffer (length : Nat)
  | event (pollout pollin : Bool) (written : Int) (seekOk : Bool) (available : Str)

/-- The buffer after one call; a `read` that throws leaves the buffer as it was. -/
def SmartBuffer.step (b : SmartBuffer) : BufferCall → SmartBuffer
  | BufferCall.append data opened => b.append data opened
  | BufferCall.read length => (b.read length).getD b
  | BufferCall.cleanReadBuffer length => b.cleanReadBuffer length
  | BufferCall.event pollout pollin written seekOk available =>
    (b.onFileEvent pollout pollin written seekOk available).2

/-- The buffer after the given calls, made in order. -/
def SmartBuffer.run (b : SmartBuffer) (calls : List BufferCall) : SmartBuffer :=
  calls.foldl SmartBuffer.step b

/-- The bytes that the appends of a list of calls pass to the buffer, in order. -/
def appendedBytes : List BufferCall → Str
  | [] => []
  | BufferCall.append data _ :: rest => data ++ appendedBytes rest
  | _ :: rest => appendedBytes rest

/-- A call of the kind the spill accounting is about: an append whose temporary file,
if one is created, is opened with success, or an event whose `write`, if one is made,
writes at least one byte. -/
def callSucceeds : BufferCall → Bool
  | BufferCall.append _ opened => decide (0 ≤ opened)
  | BufferCall.event _ _ written _ _ => decide (0 < written)
  | _ => false

/-- The state of a buffer that has received the bytes `all` through appends and
successful writable events only. -/
def Accounted (maxMemorySize : Nat) (all : Str) (b : SmartBuffer) : Prop :=
  b.maxMemorySize = maxMemorySize ∧ b.toRead = 0 ∧
  ((b.isFile = false ∧ all.length ≤ maxMemorySize ∧ b.size = all.length ∧
      b.buffer = all ∧ b.writeBuffer = []) ∨
    (b.isFile = true ∧ 0 ≤ b.fd ∧ maxMemorySize < all.length ∧ b.buffer = [] ∧
      b.size ≤ all.length ∧ b.writeBuffer = all.drop b.size))

/-! ## The response (`src/server/response/HttpResponse.cpp`) -/

/-- The removal `headers.erase(name)`. -/
def headersErase (headers : List (Str × Str)) (name : Str) : List (Str × Str) :=
  headers.filter (fun entry => decide (entry.1 ≠ name))

/-- The class `HttpResponse`.  `headers` is the `std::unordered_map`, as a list with one
entry for each key; `body` is the buffer that the shared pointer refers to. -/
structure HttpResponse where
  statusCode : Int
  statusMessage : Str
  headers : List (Str × Str)
  setCookies : List Str
  chunkedEncoding : Bool
  body : SmartBuffer
  deriving DecidableEq

/-- The function `HttpResponse::getStatusMessage`.  Modelled from the spec: the numbers
of the members of `StatusCode`, which a header outside the sources declares, are the
HTTP status numbers of their names. -/
def getStatusMessage (code : Int) : Str :=
  if code = 200 then "OK".toList
  else if code = 201 then "Created".toList
  else if code = 204 then "No Content".toList
  else if code = 301 then "Moved Permanently".toList
  else if code = 302 then "Found".toList
  else if code = 400 then "Bad Request".toList
  else if code = 404 then "Not Found".toList
  else if code = 408 then "Request Timeout".toList
  else if code = 413 then "Content Too Large".toList
  else if code = 405 then "Method Not Allowed".toList
  else if code = 500 then "Internal Server Error".toList
  else if code = 414 then "Request URI Too Long".toList
  else if code = 501 then "Not Implemented".toList
  else if code = 403 then "Forbidden".toList
  else if code = 409 then "Conflict".toList
  else if code = 415 then "Unsupported Media Type".toList
  else if code = 504 then "Gateway Timeout".toList
  else if code = 505 then "HTTP Version Not Supported".toList
  else "Unknown".toList

/-- The constructor `HttpResponse(statusCode)`; `bodyLimit` is the memory limit of the
buffer that `std::make_shared<SmartBuffer>()` creates, a default that the header of
`SmartBuffer` declares. -/
def HttpResponse.create (statusCode : Int) (bodyLimit : Nat) : HttpResponse :=
  { statusCode := statusCode
    statusMessage := getStatusMessage statusCode
    headers := headersSet [] "Transfer-Encoding".toList "chunked".toList
    setCookies := []
    chunkedEncoding := true
    body := SmartBuffer.create bodyLimit }

/-- The function `HttpResponse::setStatus`. -/
def HttpResponse.setStatus (r : HttpResponse) (code : Int) (message : Str) : HttpResponse :=
  { r with
    statusCode := code
    statusMessage := if message = [] then getStatusMessage code else message }

/-- The function `HttpResponse::setHeader`. -/
def HttpResponse.setHeader (r : HttpResponse) (name value : Str) : HttpResponse :=
  { r with headers := headersSet r.headers name value }

/-- The function `HttpResponse::setBody`; `opened` is what `open` returns if the append
switches the body to file mode. -/
def HttpResponse.setBody (r : HttpResponse) (body : Str) (opened : Int) : HttpResponse :=
  let r1 := { r with body := r.body.append body opened }
  if r1.chunkedEncoding = false then
    { r1 with
      headers := headersSet r1.headers "Content-Length".toList (Nat.toDigits 10 body.length) }
  else r1

/-- The function `HttpResponse::enableChunkedEncoding`. -/
def HttpResponse.enableChunkedEncoding (r : HttpResponse) (body : SmartBuffer) :
    HttpResponse :=
  { r with
    body := body
    chunkedEncoding := true
    headers := headersErase r.headers "Content-Length".toList }

/-- The function `HttpResponse::addSetCookie`. -/
def HttpResponse.addSetCookie (r : HttpResponse) (cookie : Str) : HttpResponse :=
  { r with setCookies := r.setCookies ++ [cookie] }

/-- The text that `operator<<` writes for an `int`. -/
def decimal (n : Int) : Str :=
  if n < 0 then '-' :: Nat.toDigits 10 n.natAbs else Nat.toDigits 10 n.toNat

/-- The function `HttpResponse::toHeaderString`; the entries of the map are written in
the order of the list. -/
def HttpResponse.toHeaderString (r : HttpResponse) : Str :=
  "HTTP/1.1 ".toList ++ decimal r.statusCode ++ " ".toList ++ r.statusMessage ++ CRLF ++
    (r.headers.map (fun entry => entry.1 ++ ": ".toList ++ entry.2 ++ CRLF)).flatten ++
    (r.setCookies.map (fun cookie => "Set-Cookie: ".toList ++ cookie ++ CRLF)).flatten ++
    CRLF

/-- A call of one of the functions that change an `HttpResponse`. -/
inductive ResponseCall
  | setStatus (code : Int) (message : Str)
  | setHeader (name value : Str)
  | setBody (body : Str) (opened : Int)
  | enableChunkedEncoding (body : SmartBuffer)
  | addSetCookie (cookie : Str)
  deriving DecidableEq

/-- The effect of one call on a response. -/
def HttpResponse.step (r : HttpResponse) : ResponseCall → HttpResponse
  | ResponseCall.setStatus code message => r.setStatus code message
  | ResponseCall.setHeader name value => r.setHeader name value
  | ResponseCall.setBody body opened => r.setBody body opened
  | ResponseCall.enableChunkedEncoding body => r.enableChunkedEncoding body
  | ResponseCall.addSetCookie cookie => r.addSetCookie cookie

/-- The effect of a sequence of calls on a response. -/
def HttpResponse.run (r : HttpResponse) (calls : List ResponseCall) : HttpResponse :=
  calls.foldl HttpResponse.step r

/-- A call that does not name one of the two framing headers in `setHeader`. -/
def keepsFraming : ResponseCall → Bool
  | ResponseCall.setHeader name _ =>
    decide (name ≠ "Transfer-Encoding".toList ∧ name ≠ "Content-Length".toList)
  | _ => true

/-- A call whose strings can stand in a line of the header text: no line feed in a
status message, a header name, a header value or a cookie, and no colon in a header
name. -/
def textSafe : ResponseCall → Bool
  | ResponseCall.setStatus _ message => decide ('\n' ∉ message)
  | ResponseCall.setHeader name value =>
    decide ('\n' ∉ name ∧ ':' ∉ name ∧ '\n' ∉ value)
  | ResponseCall.addSetCookie cookie => decide ('\n' ∉ cookie)
  | _ => true

/-- The lines of a text, cut at each CRLF; `current` is the part of the line read so
far. -/
def linesFrom (current : Str) : Str → List Str
  | [] => [current]
  | c :: rest =>
    if c = '\n' ∧ current.getLast? = some '\r' then current.dropLast :: linesFrom [] rest
    else linesFrom (current ++ [c]) rest

/-- The lines of a text, cut at each CRLF. -/
def textLines (text : Str) : List Str :=
  linesFrom [] text

/-- A line of the header field `Content-Length`. -/
def IsContentLengthLine (line : Str) : Prop :=
  "Content-Length:".toList <+: line

/-- The framing of a response with chunked encoding, in the header map. -/
def Framed (r : HttpResponse) : Prop :=
  r.chunkedEncoding = true ∧
  headersFind r.headers "Transfer-Encoding".toList = some "chunked".toList ∧
  headersFind r.headers "Content-Length".toList = none

/-- The lines that `toHeaderString` writes, without the CRLF at their ends: the status
line, one line for each header, one line for each cookie. -/
def responseLines (r : HttpResponse) : List Str :=
  ("HTTP/1.1 ".toList ++ decimal r.statusCode ++ " ".toList ++ r.statusMessage) ::
    (r.headers.map (fun entry => entry.1 ++ ": ".toList ++ entry.2) ++
      r.setCookies.map (fun cookie => "Set-Cookie: ".toList ++ cookie))

/-- The strings of a response can stand in lines of the header text. -/
def TextSafe (r : HttpResponse) : Prop :=
  '\n' ∉ r.statusMessage ∧
  (∀ entry ∈ r.headers, '\n' ∉ entry.1 ∧ ':' ∉ entry.1 ∧ '\n' ∉ entry.2) ∧
  ∀ cookie ∈ r.setCookies, '\n' ∉ cookie

/-- An example of a sequence of calls on a response. -/
def exampleCalls : List ResponseCall :=
  [ResponseCall.setStatus 404 [], ResponseCall.setHeader "Content-Type".toList "text/html".toList,
    ResponseCall.setBody "hi".toList 5, ResponseCall.addSetCookie "a=b".toList,
    ResponseCall.enableChunkedEncoding (SmartBuffer.create 10)]

/-! ## Results of the state functions -/

theorem acceptRequestLine_shape (now : Nat) (p : HttpParser) (m u v r : Str) :
    StepShape p (acceptRequestLine now p m u v r) (· = ParseState.HEADERS) := by
  unfold acceptRequestLine StepShape
  repeat' split
  all_goals simp [HttpParser.fail, HttpParser.latch]

theorem parseRequestLine_shape (pool : ServerPool) (now : Nat) (p : HttpParser) :
    StepShape p (parseRequestLine pool now p) (· = ParseState.HEADERS) := by
  unfold parseRequestLine
  dsimp only
  repeat' split
  all_goals first
    | exact acceptRequestLine_shape _ _ _ _ _ _
    | simp [StepShape, HttpParser.fail, HttpParser.latch]

theorem storeHeader_state (pool : ServerPool) (p : HttpParser) (line : Str) :
    ((storeHeader pool p line).1 = true ∧ (storeHeader pool p line).2.state = p.state) ∨
    ((storeHeader pool p line).1 = false ∧
      (storeHeader pool p line).2.state = ParseState.ERROR) := by
  unfold storeHeader
  dsimp only
  repeat' split
  all_goals simp [HttpParser.fail, HttpParser.latch]

theorem headerLine_state (pool : ServerPool) (p : HttpParser) (endPos : Nat) :
    ((headerLine pool p endPos).1 = true ∧ (headerLine pool p endPos).2.state = p.state) ∨
    ((headerLine pool p endPos).1 = false ∧
      (headerLine pool p endPos).2.state = ParseState.ERROR) := by
  unfold headerLine
  dsimp only
  repeat' split
  all_goals first
    | exact storeHeader_state _ _ _
    | simp [HttpParser.fail, HttpParser.latch]

theorem headersDone_shape (now : Nat) (p : HttpParser) (s : Str) :
    StepShape p (headersDone now p s)
      (fun st => st = ParseState.BODY ∨ st = ParseState.COMPLETE) := by
  unfold headersDone StepShape
  repeat' split
  all_goals simp [HttpParser.fail, HttpParser.latch]

theorem blankLine_shape (now : Nat) (p : HttpParser) :
    StepShape p (blankLine now p)
      (fun st => st = ParseState.BODY ∨ st = ParseState.COMPLETE) := by
  unfold blankLine
  dsimp only
  repeat' split
  all_goals first
    | exact headersDone_shape _ _ _
    | simp [StepShape, HttpParser.fail, HttpParser.latch]

theorem parseHeadersLoop_shape (pool : ServerPool) (now : Nat) (fuel : Nat) :
    ∀ p : HttpParser, StepShape p (parseHeadersLoop pool now fuel p)
      (fun st => st = ParseState.BODY ∨ st = ParseState.COMPLETE) := by
  induction fuel with
  | zero => intro p; simp [parseHeadersLoop, StepShape]
  | succ n ih =>
    intro p
    unfold parseHeadersLoop
    cases hf : find p.buffer CRLF with
    | none => simp [StepShape]
    | some endPos =>
      dsimp only
      by_cases h0 : endPos = 0
      · simp only [h0, if_true]; exact blankLine_shape now p
      · simp only [h0, if_false]
        have hl := headerLine_state pool p endPos
        rcases hx : headerLine pool p endPos with ⟨b, p1⟩
        rw [hx] at hl
        cases b with
        | true =>
          simp only at hl ⊢
          have := ih p1
          unfold StepShape at this ⊢
          rcases hl with ⟨-, hs⟩ | ⟨h, -⟩
          · rw [← hs]; exact this
          · cases h
        | false =>
          simp only at hl ⊢
          rcases hl with ⟨h, -⟩ | ⟨-, hs⟩
          · cases h
          · simp [StepShape, hs]

theorem appendToBody_state (p : HttpParser) (data : Str) :
    (appendToBody p data).2.state = p.state ∨
      (appendToBody p data).2.state = ParseState.ERROR := by
  unfold appendToBody
  dsimp only
  split <;> simp [HttpParser.latch]

theorem chunkSizeLine_state (p : HttpParser) (n : Nat) :
    ((chunkSizeLine p n).1 = true ∧ (chunkSizeLine p n).2.state = p.state) ∨
    ((chunkSizeLine p n).1 = false ∧ (chunkSizeLine p n).2.state = ParseState.ERROR) := by
  unfold chunkSizeLine
  dsimp only
  repeat' split
  all_goals simp [HttpParser.fail]

theorem lastChunk_shape (p : HttpParser) (line : Str) :
    StepShape p (lastChunk p line) (· = ParseState.COMPLETE) := by
  unfold lastChunk StepShape
  dsimp only
  repeat' split
  all_goals simp [HttpParser.fail]

theorem chunkData_state (p : HttpParser) :
    (∃ p1, chunkData p = Turn.goOn p1 ∧
      (p1.state = p.state ∨ p1.state = ParseState.ERROR)) ∨
    (∃ p1, chunkData p = Turn.done false p1 ∧
      (p1.state = p.state ∨ p1.state = ParseState.ERROR)) := by
  unfold chunkData
  dsimp only
  split
  · right; exact ⟨_, rfl, Or.inl rfl⟩
  · split
    · right; exact ⟨_, rfl, Or.inr rfl⟩
    · left; exact ⟨_, rfl, appendToBody_state p _⟩

theorem StepShape.weaken {p q : HttpParser} {r : Bool × HttpParser} {next : ParseState → Prop}
    (h : StepShape q r next) (hq : q.state = p.state ∨ q.state = ParseState.ERROR) :
    StepShape p r next := by
  unfold StepShape at h ⊢
  rcases h with h | ⟨h1, h2⟩
  · exact Or.inl h
  · right
    refine ⟨h1, ?_⟩
    rcases h2 with h2 | h2
    · rcases hq with hq | hq
      · exact Or.inl (h2.trans hq)
      · exact Or.inr (h2.trans hq)
    · exact Or.inr h2

theorem parseChunkedBodyLoop_shape (fuel : Nat) :
    ∀ p : HttpParser, StepShape p (parseChunkedBodyLoop fuel p) (· = ParseState.COMPLETE) := by
  induction fuel with
  | zero => intro p; simp [parseChunkedBodyLoop, StepShape]
  | succ n ih =>
    intro p
    unfold parseChunkedBodyLoop
    cases hf : find p.buffer CRLF with
    | none => simp [StepShape]
    | some sizeEndPos =>
      dsimp only
      cases hc : p.hasChunkSize with
      | false =>
        simp only [↓reduceIte]
        have hl := chunkSizeLine_state p sizeEndPos
        rcases hx : chunkSizeLine p sizeEndPos with ⟨b, p1⟩
        rw [hx] at hl
        cases b with
        | true =>
          simp only at hl ⊢
          rcases hl with ⟨-, hs⟩ | ⟨h, -⟩
          · exact (ih p1).weaken (Or.inl hs)
          · cases h
        | false =>
          simp only at hl ⊢
          rcases hl with ⟨h, -⟩ | ⟨-, hs⟩
          · cases h
          · simp [StepShape, hs]
      | true =>
        simp only [Bool.true_eq_false, ↓reduceIte]
        by_cases hz : p.chunkSize = 0
        · simp only [hz, if_true]; exact lastChunk_shape p _
        · simp only [hz, if_false]
          rcases chunkData_state p with ⟨p1, h1, hs⟩ | ⟨p1, h1, hs⟩
          · rw [h1]; exact (ih p1).weaken hs
          · rw [h1]; simp only [StepShape]; right; exact ⟨trivial, hs⟩

theorem parseBody_shape (p : HttpParser) :
    StepShape p (parseBody p) (· = ParseState.COMPLETE) := by
  unfold parseBody
  dsimp only
  split
  · simp [StepShape, HttpParser.latch]
  · split
    · exact parseChunkedBodyLoop_shape _ p
    · split
      · simp [StepShape, HttpParser.fail]
      · have := appendToBody_state p p.buffer
        rcases hx : appendToBody p p.buffer with ⟨b, p1⟩
        rw [hx] at this
        cases b
        · simp [StepShape]; exact this
        · simp [StepShape]

theorem parseHeaders_shape (pool : ServerPool) (now : Nat) (p : HttpParser) :
    StepShape p (parseHeaders pool now p)
      (fun st => st = ParseState.BODY ∨ st = ParseState.COMPLETE) :=
  parseHeadersLoop_shape pool now _ p

theorem parseLoop_complete (pool : ServerPool) (now : Nat) (fuel : Nat) :
    ∀ p : HttpParser, p.state.rank < fuel →
      ((parseLoop pool now fuel p).1 = true ↔
        (parseLoop pool now fuel p).2.state = ParseState.COMPLETE) := by
  induction fuel with
  | zero => intro p h; cases h
  | succ n ih =>
    intro p hr
    unfold parseLoop
    cases hs : p.state with
    | REQUEST_LINE =>
      dsimp only
      have hl := parseRequestLine_shape pool now p
      rcases hx : parseRequestLine pool now p with ⟨b, p1⟩
      rw [hx] at hl
      unfold StepShape at hl
      cases b with
      | true =>
        simp only at hl ⊢
        rcases hl with ⟨-, h1⟩ | ⟨h, -⟩
        · apply ih; rw [h1]; rw [hs] at hr; simp [ParseState.rank] at hr ⊢; omega
        · cases h
      | false =>
        simp only at hl ⊢
        rcases hl with ⟨h, -⟩ | ⟨-, h1⟩
        · cases h
        · rw [hs] at h1; rcases h1 with h1 | h1 <;> simp [h1]
    | HEADERS =>
      dsimp only
      have hl := parseHeaders_shape pool now p
      rcases hx : parseHeaders pool now p with ⟨b, p1⟩
      rw [hx] at hl
      unfold StepShape at hl
      cases b with
      | true =>
        simp only at hl ⊢
        rcases hl with ⟨-, h1⟩ | ⟨h, -⟩
        · apply ih; rw [hs] at hr
          rcases h1 with h1 | h1 <;> rw [h1] <;> simp [ParseState.rank] at hr ⊢ <;> omega
        · cases h
      | false =>
        simp only at hl ⊢
        rcases hl with ⟨h, -⟩ | ⟨-, h1⟩
        · cases h
        · rw [hs] at h1; rcases h1 with h1 | h1 <;> simp [h1]
    | BODY =>
      dsimp only
      have hl := parseBody_shape p
      rcases hx : parseBody p with ⟨b, p1⟩
      rw [hx] at hl
      unfold StepShape at hl
      cases b with
      | true =>
        simp only at hl ⊢
        rcases hl with ⟨-, h1⟩ | ⟨h, -⟩
        · apply ih; rw [hs] at hr; rw [h1]; simp [ParseState.rank] at hr ⊢; omega
        · cases h
      | false =>
        simp only at hl ⊢
        rcases hl with ⟨h, -⟩ | ⟨-, h1⟩
        · cases h
        · rw [hs] at h1; rcases h1 with h1 | h1 <;> simp [h1]
    | COMPLETE => simp [hs]
    | ERROR => simp [hs]

theorem ParseState.rank_le (s : ParseState) : s.rank < 4 := by
  cases s <;> simp [ParseState.rank]

/-- C1: `parse` returns true exactly when the parser was in neither COMPLETE nor ERROR
before the call and is in COMPLETE after it. -/
theorem parse_true_iff_completes (pool : ServerPool) (now : Nat) (p : HttpParser)
    (data : Str) :
    (parse pool now p data).1 = true ↔
      (p.state ≠ ParseState.COMPLETE ∧ p.state ≠ ParseState.ERROR ∧
        (parse pool now p data).2.state = ParseState.COMPLETE) := by
  unfold parse
  by_cases h : p.state = ParseState.COMPLETE ∨ p.state = ParseState.ERROR
  · simp only [h, if_true]
    constructor
    · intro hf; cases hf
    · rintro ⟨h1, h2, -⟩; rcases h with h | h <;> contradiction
  · simp only [h, if_false]
    rw [parseLoop_complete pool now 4 _ (ParseState.rank_le _)]
    push_neg at h
    exact ⟨fun hc => ⟨h.1, h.2, hc⟩, fun hc => hc.2.2⟩

/-! ## The function `find` -/

theorem isPrefixOf_length {pat s : Str} (h : pat.isPrefixOf s = true) :
    pat.length ≤ s.length := by
  induction pat generalizing s with
  | nil => simp
  | cons a pat ih =>
    cases s with
    | nil => simp [List.isPrefixOf] at h
    | cons b s =>
      simp only [List.isPrefixOf, Bool.and_eq_true] at h
      have := ih h.2
      simp; omega

theorem isPrefixOf_append_right {pat s : Str} (y : Str) (h : pat.length ≤ s.length) :
    pat.isPrefixOf (s ++ y) = pat.isPrefixOf s := by
  induction pat generalizing s with
  | nil => simp
  | cons a pat ih =>
    cases s with
    | nil => simp at h
    | cons b s =>
      simp only [List.cons_append, List.isPrefixOf]
      have := ih (s := s) (by simpa using h)
      simp only [List.append_eq] at this ⊢
      rw [this]

theorem isPrefixOf_eq_take {pat s : Str} (h : pat.isPrefixOf s = true) :
    s = pat ++ s.drop pat.length := by
  induction pat generalizing s with
  | nil => simp
  | cons a pat ih =>
    cases s with
    | nil => simp [List.isPrefixOf] at h
    | cons b s =>
      simp only [List.isPrefixOf, Bool.and_eq_true, beq_iff_eq] at h
      simp only [List.length_cons, List.drop_succ_cons, List.cons_append, List.cons.injEq]
      exact ⟨h.1.symm, ih h.2⟩

theorem isPrefixOf_self_append (pat s : Str) : pat.isPrefixOf (pat ++ s) = true := by
  induction pat with
  | nil => simp
  | cons a pat ih => simp [List.isPrefixOf, ih]

theorem find_some_le {pat : Str} : ∀ {s : Str} {n : Nat},
    find s pat = some n → n + pat.length ≤ s.length := by
  intro s
  induction s with
  | nil =>
    intro n h
    unfold find at h
    split at h
    · next hp => cases h; simp [hp]
    · cases h
  | cons c t ih =>
    intro n h
    unfold find at h
    split at h
    · next hp => cases h; simpa using isPrefixOf_length hp
    · cases hf : find t pat with
      | none => simp [hf] at h
      | some m =>
        simp [hf] at h
        have := ih hf
        subst h
        simp; omega

theorem find_append_some {pat : Str} (y : Str) : ∀ {s : Str} {n : Nat},
    find s pat = some n → find (s ++ y) pat = some n := by
  intro s
  induction s with
  | nil =>
    intro n h
    unfold find at h
    split at h
    · next hp =>
      cases h; subst hp
      cases y <;> simp [find]
    · cases h
  | cons c t ih =>
    intro n h
    have hle := find_some_le h
    unfold find at h
    rw [List.cons_append]
    unfold find
    rw [← List.cons_append, isPrefixOf_append_right y (by omega)]
    split at h
    · next hp => simp [hp, h]
    · next hp =>
      cases hf : find t pat with
      | none => simp [hf] at h
      | some m =>
        simp only [hf, Option.map_some'] at h
        simp [hp, ih hf, h]

theorem find_some_split {pat : Str} : ∀ {s : Str} {n : Nat},
    find s pat = some n → s = s.take n ++ pat ++ s.drop (n + pat.length) := by
  intro s
  induction s with
  | nil =>
    intro n h
    unfold find at h
    split at h
    · next hp => cases h; simp [hp]
    · cases h
  | cons c t ih =>
    intro n h
    unfold find at h
    split at h
    · next hp =>
      cases h
      simpa using isPrefixOf_eq_take hp
    · cases hf : find t pat with
      | none => simp [hf] at h
      | some m =>
        simp only [hf, Option.map_some', Option.some.injEq] at h
        subst h
        have := ih hf
        simp only [List.take_succ_cons, List.cons_append, List.cons.injEq, true_and]
        rw [show m + 1 + pat.length = (m + pat.length) + 1 by omega, List.drop_succ_cons]
        exact this

/-- The first occurrence: a string that starts with `a ++ pat`, where `pat` occurs in
`a ++ pat` only at the end, has its first `pat` at `a.length`. -/
theorem find_take {pat : Str} : ∀ {s : Str} {n : Nat},
    find s pat = some n → find (s.take (n + pat.length)) pat = some n := by
  intro s
  induction s with
  | nil =>
    intro n h
    unfold find at h
    split at h
    · next hp => cases h; simp [hp, find]
    · cases h
  | cons c t ih =>
    intro n h
    have hle := find_some_le h
    unfold find at h
    split at h
    · next hp =>
      cases h
      have h1 := isPrefixOf_eq_take hp
      have : (c :: t).take (0 + pat.length) = pat := by
        conv_lhs => rw [h1]
        simp
      rw [this]
      cases pat with
      | nil => simp [find]
      | cons a pat => unfold find; simp [List.isPrefixOf, isPrefixOf_self_append pat []]
    · next hp =>
      cases hf : find t pat with
      | none => simp [hf] at h
      | some m =>
        simp only [hf, Option.map_some', Option.some.injEq] at h
        subst h
        have h2 := ih hf
        have hm := find_some_le hf
        rw [show m + 1 + pat.length = (m + pat.length) + 1 by omega, List.take_succ_cons]
        unfold find
        have hp' : pat.isPrefixOf (c :: List.take (m + pat.length) t) = false := by
          have e : c :: t = (c :: List.take (m + pat.length) t) ++ List.drop (m + pat.length) t := by
            simp
          have hl : pat.length ≤ (c :: List.take (m + pat.length) t).length := by
            simp; omega
          have := isPrefixOf_append_right (List.drop (m + pat.length) t) hl
          rw [← e] at this
          rw [← this]
          exact Bool.eq_false_iff.mpr hp
        simp [hp', h2]

/-! ## Fuel of the loops -/

theorem storeHeader_buffer (pool : ServerPool) (p : HttpParser) (line : Str) :
    (storeHeader pool p line).2.buffer = p.buffer := by
  unfold storeHeader
  dsimp only
  repeat' split
  all_goals simp [HttpParser.fail, HttpParser.latch]

theorem headerLine_buffer (pool : ServerPool) (p : HttpParser) (endPos : Nat)
    (h : (headerLine pool p endPos).1 = true) :
    (headerLine pool p endPos).2.buffer = p.buffer.drop (endPos + 2) := by
  unfold headerLine at h ⊢
  dsimp only at h ⊢
  split
  · next hc => simp [hc] at h
  · split
    · next hc hd => simp [hc, hd] at h
    · split
      · next hc hd he => simp [hc, hd, he] at h
      · rw [storeHeader_buffer]

theorem parseHeadersLoop_fuel (pool : ServerPool) (now : Nat) :
    ∀ (n m : Nat) (p : HttpParser), p.buffer.length < n → p.buffer.length < m →
      parseHeadersLoop pool now n p = parseHeadersLoop pool now m p := by
  intro n
  induction n with
  | zero => intro m p h; cases h
  | succ n ih =>
    intro m p hn hm
    cases m with
    | zero => cases hm
    | succ m =>
      unfold parseHeadersLoop
      cases hf : find p.buffer CRLF with
      | none => rfl
      | some endPos =>
        dsimp only
        by_cases h0 : endPos = 0
        · simp [h0]
        · simp only [h0, if_false]
          have hb := headerLine_buffer pool p endPos
          rcases hx : headerLine pool p endPos with ⟨b, p1⟩
          rw [hx] at hb
          cases b with
          | false => rfl
          | true =>
            simp only
            have hle := find_some_le hf
            have hb1 := hb rfl
            simp only at hb1
            have hlen : p1.buffer.length < p.buffer.length := by
              rw [hb1, List.length_drop]
              simp [CRLF] at hle
              omega
            exact ih m p1 (by omega) (by omega)

/-- The loop of `parseHeaders`, one turn unfolded. -/
theorem parseHeaders_eq (pool : ServerPool) (now : Nat) (p : HttpParser) :
    parseHeaders pool now p =
      match find p.buffer CRLF with
      | none => (false, p)
      | some endPos =>
        if endPos = 0 then blankLine now p
        else
          match headerLine pool p endPos with
          | (true, p1) => parseHeaders pool now p1
          | (false, p1) => (false, p1) := by
  unfold parseHeaders
  unfold parseHeadersLoop
  cases hf : find p.buffer CRLF with
  | none => rfl
  | some endPos =>
    dsimp only
    by_cases h0 : endPos = 0
    · simp [h0]
    · simp only [h0, if_false]
      have hb := headerLine_buffer pool p endPos
      rcases hx : headerLine pool p endPos with ⟨b, p1⟩
      rw [hx] at hb
      cases b with
      | false => rfl
      | true =>
        simp only
        have hle := find_some_le hf
        have hb1 := hb rfl
        simp only at hb1
        have hlen : p1.buffer.length < p.buffer.length := by
          rw [hb1, List.length_drop]
          simp [CRLF] at hle
          omega
        exact parseHeadersLoop_fuel pool now p.buffer.length (p1.buffer.length + 1) p1 hlen (by omega)

theorem chunkSizeLine_goOn (p : HttpParser) (n : Nat)
    (h : (chunkSizeLine p n).1 = true) :
    (chunkSizeLine p n).2.buffer = p.buffer.drop (n + 2) ∧
      (chunkSizeLine p n).2.hasChunkSize = true := by
  unfold chunkSizeLine at h ⊢
  dsimp only at h ⊢
  repeat' split
  all_goals simp_all [HttpParser.fail]

theorem appendToBody_frame (p : HttpParser) (data : Str) :
    (appendToBody p data).2.buffer = p.buffer ∧
    (appendToBody p data).2.chunkSize = p.chunkSize ∧
    (appendToBody p data).2.hasChunkSize = p.hasChunkSize ∧
    (appendToBody p data).2.config = p.config ∧
    (appendToBody p data).2.contentLength = p.contentLength ∧
    (appendToBody p data).2.chunkedTransfer = p.chunkedTransfer := by
  unfold appendToBody
  dsimp only
  split <;> simp [HttpParser.latch]

theorem chunkData_goOn (p p1 : HttpParser) (h : chunkData p = Turn.goOn p1) :
    p1.buffer = p.buffer.drop ((p.chunkSize + 2) % ULONG_RANGE) ∧ p1.hasChunkSize = false := by
  unfold chunkData at h
  dsimp only at h
  split at h
  · cases h
  · split at h
    · cases h
    · cases h
      have := appendToBody_frame p (List.take p.chunkSize p.buffer)
      simp [this.1, this.2.1]

theorem parseChunkedBodyLoop_fuel :
    ∀ (n m : Nat) (p : HttpParser), chunkMeasure p < n → chunkMeasure p < m →
      parseChunkedBodyLoop n p = parseChunkedBodyLoop m p := by
  intro n
  induction n with
  | zero => intro m p h; cases h
  | succ n ih =>
    intro m p hn hm
    cases m with
    | zero => cases hm
    | succ m =>
      unfold parseChunkedBodyLoop
      cases hf : find p.buffer CRLF with
      | none => rfl
      | some e =>
        dsimp only
        have hle := find_some_le hf
        simp only [CRLF, List.length_cons, List.length_nil] at hle
        cases hc : p.hasChunkSize with
        | false =>
          simp only [↓reduceIte]
          have hb := chunkSizeLine_goOn p e
          rcases hx : chunkSizeLine p e with ⟨b, p1⟩
          rw [hx] at hb
          cases b with
          | false => rfl
          | true =>
            simp only
            have hb1 := hb rfl
            simp only at hb1
            have hlen : chunkMeasure p1 < chunkMeasure p := by
              unfold chunkMeasure
              rw [hb1.1, hb1.2, hc, List.length_drop]
              simp
              omega
            exact ih m p1 (by omega) (by omega)
        | true =>
          simp only [Bool.true_eq_false, ↓reduceIte]
          by_cases hz : p.chunkSize = 0
          · simp [hz]
          · simp only [hz, if_false]
            cases hx : chunkData p with
            | done r p1 => rfl
            | goOn p1 =>
              simp only
              have hb1 := chunkData_goOn p p1 hx
              have hlen : chunkMeasure p1 < chunkMeasure p := by
                unfold chunkMeasure
                rw [hb1.1, hb1.2, hc, List.length_drop]
                simp
                omega
              exact ih m p1 (by omega) (by omega)

theorem chunkMeasure_lt (p : HttpParser) : chunkMeasure p < p.buffer.length + 2 := by
  unfold chunkMeasure; split <;> omega

/-- The loop of `parseChunkedBody`, one turn unfolded. -/
theorem parseChunkedBody_eq (p : HttpParser) :
    parseChunkedBody p =
      match find p.buffer CRLF with
      | none => (false, p)
      | some sizeEndPos =>
        if p.hasChunkSize = false then
          match chunkSizeLine p sizeEndPos with
          | (true, p1) => parseChunkedBody p1
          | (false, p1) => (false, p1)
        else if p.chunkSize = 0 then lastChunk p (p.buffer.take sizeEndPos)
        else
          match chunkData p with
          | Turn.goOn p1 => parseChunkedBody p1
          | Turn.done result p1 => (result, p1) := by
  unfold parseChunkedBody
  unfold parseChunkedBodyLoop
  cases hf : find p.buffer CRLF with
  | none => rfl
  | some e =>
    dsimp only
    have hle := find_some_le hf
    simp only [CRLF, List.length_cons, List.length_nil] at hle
    cases hc : p.hasChunkSize with
    | false =>
      simp only [↓reduceIte]
      have hb := chunkSizeLine_goOn p e
      rcases hx : chunkSizeLine p e with ⟨b, p1⟩
      rw [hx] at hb
      cases b with
      | false => rfl
      | true =>
        simp only
        have hb1 := hb rfl
        simp only at hb1
        have hlen : chunkMeasure p1 < chunkMeasure p := by
          unfold chunkMeasure
          rw [hb1.1, hb1.2, hc, List.length_drop]
          simp
          omega
        have h2 := chunkMeasure_lt p1
        have h3 : chunkMeasure p < p.buffer.length + 1 := by
          unfold chunkMeasure; simp [hc]
        exact parseChunkedBodyLoop_fuel (p.buffer.length + 1) (p1.buffer.length + 2) p1
          (by omega) h2
    | true =>
      simp only [Bool.true_eq_false, ↓reduceIte]
      by_cases hz : p.chunkSize = 0
      · simp [hz]
      · simp only [hz, if_false]
        cases hx : chunkData p with
        | done r p1 => rfl
        | goOn p1 =>
          simp only
          have hb1 := chunkData_goOn p p1 hx
          have hlen : chunkMeasure p1 < chunkMeasure p := by
            unfold chunkMeasure
            rw [hb1.1, hb1.2, hc, List.length_drop]
            simp
            omega
          have h2 := chunkMeasure_lt p1
          have h3 : chunkMeasure p = p.buffer.length + 1 := by
            unfold chunkMeasure; simp [hc]
          exact parseChunkedBodyLoop_fuel (p.buffer.length + 1) (p1.buffer.length + 2) p1
            (by omega) h2

/-! ## The terminal state ERROR -/

theorem feed_of_error (pool : ServerPool) (fragments : List Str) :
    ∀ (clock : Nat → Nat) (p : HttpParser), p.state = ParseState.ERROR →
      (feed pool clock p fragments).2 = p ∧
        ∀ b ∈ (feed pool clock p fragments).1, b = false := by
  induction fragments with
  | nil => intro clock p _; simp [feed]
  | cons data more ih =>
    intro clock p h
    have hp : parse pool (clock 0) p data = (false, p) := by simp [parse, h]
    simp only [feed, hp]
    have := ih (fun i => clock (i + 1)) p h
    refine ⟨this.1, ?_⟩
    intro b hb
    simp only [List.mem_cons] at hb
    rcases hb with hb | hb
    · exact hb
    · exact this.2 b hb

/-- C2: on a parser in ERROR every `parse` call returns false and leaves the whole parser
(state, status code, buffer, request) as it was, and so does every sequence of calls. -/
theorem parse_in_error_is_inert (pool : ServerPool) (p : HttpParser)
    (h : p.state = ParseState.ERROR) :
    (∀ (now : Nat) (data : Str), parse pool now p data = (false, p)) ∧
    (∀ (clock : Nat → Nat) (fragments : List Str),
      (feed pool clock p fragments).2 = p ∧
        ∀ b ∈ (feed pool clock p fragments).1, b = false) :=
  ⟨fun now data => by simp [parse, h], fun clock fragments => feed_of_error pool fragments clock p h⟩

/-- C2 at a parser latched with status 505: a further request is refused. -/
theorem parse_in_error_is_inert_witness :
    ((HttpParser.create exampleConfig).latch HTTP_VERSION_NOT_SUPPORTED).state
        = ParseState.ERROR ∧
      parse examplePool 0 ((HttpParser.create exampleConfig).latch HTTP_VERSION_NOT_SUPPORTED)
          "GET / HTTP/1.1\r\nHost: x\r\n\r\n".toList
        = (false, (HttpParser.create exampleConfig).latch HTTP_VERSION_NOT_SUPPORTED) :=
  ⟨rfl, (parse_in_error_is_inert examplePool _ rfl).1 0 _⟩

/-! ## The time stamps are written and never read -/

theorem acceptRequestLine_untimed (now : Nat) (p : HttpParser) (m u v r : Str) :
    untimedResult (acceptRequestLine now p m u v r) = acceptRequestLine 0 p.untimed m u v r := by
  unfold acceptRequestLine untimedResult
  repeat' split
  all_goals simp_all [HttpParser.fail, HttpParser.latch, HttpParser.untimed]

theorem parseRequestLine_untimed (pool : ServerPool) (now : Nat) (p : HttpParser) :
    untimedResult (parseRequestLine pool now p) = parseRequestLine pool 0 p.untimed := by
  unfold parseRequestLine
  simp only [HttpParser.untimed]
  repeat' split
  all_goals first
    | exact acceptRequestLine_untimed _ _ _ _ _ _
    | simp_all [untimedResult, HttpParser.fail, HttpParser.latch, HttpParser.untimed]

theorem storeHeader_untimed (pool : ServerPool) (p : HttpParser) (line : Str) :
    untimedResult (storeHeader pool p line) = storeHeader pool p.untimed line := by
  unfold storeHeader untimedResult
  simp only [HttpParser.untimed]
  repeat' split
  all_goals simp_all [HttpParser.fail, HttpParser.latch, HttpParser.untimed]

theorem headerLine_untimed (pool : ServerPool) (p : HttpParser) (endPos : Nat) :
    untimedResult (headerLine pool p endPos) = headerLine pool p.untimed endPos := by
  unfold headerLine
  simp only [HttpParser.untimed]
  repeat' split
  all_goals first
    | exact storeHeader_untimed _ _ _
    | simp_all [untimedResult, HttpParser.fail, HttpParser.latch, HttpParser.untimed]

theorem headersDone_untimed (now : Nat) (p : HttpParser) (s : Str) :
    untimedResult (headersDone now p s) = headersDone 0 p.untimed s := by
  unfold headersDone untimedResult
  simp only [HttpParser.untimed]
  repeat' split
  all_goals simp_all [HttpParser.fail, HttpParser.latch, HttpParser.untimed]

theorem blankLine_untimed (now : Nat) (p : HttpParser) :
    untimedResult (blankLine now p) = blankLine 0 p.untimed := by
  unfold blankLine
  simp only [HttpParser.untimed, HttpRequest.getHeader]
  repeat' split
  all_goals first
    | exact headersDone_untimed _ _ _
    | simp_all [untimedResult, HttpParser.fail, HttpParser.latch, HttpParser.untimed]

theorem parseHeadersLoop_untimed (pool : ServerPool) (now : Nat) (fuel : Nat) :
    ∀ p : HttpParser, untimedResult (parseHeadersLoop pool now fuel p) =
      parseHeadersLoop pool 0 fuel p.untimed := by
  induction fuel with
  | zero => intro p; rfl
  | succ n ih =>
    intro p
    unfold parseHeadersLoop
    have hb : p.untimed.buffer = p.buffer := rfl
    rw [hb]
    cases hf : find p.buffer CRLF with
    | none => rfl
    | some endPos =>
      dsimp only
      by_cases h0 : endPos = 0
      · simp only [h0, if_true]; exact blankLine_untimed now p
      · simp only [h0, if_false]
        rw [← headerLine_untimed]
        rcases hx : headerLine pool p endPos with ⟨b, p1⟩
        cases b with
        | true => exact ih p1
        | false => rfl

theorem parseHeaders_untimed (pool : ServerPool) (now : Nat) (p : HttpParser) :
    untimedResult (parseHeaders pool now p) = parseHeaders pool 0 p.untimed :=
  parseHeadersLoop_untimed pool now _ p

theorem appendToBody_untimed (p : HttpParser) (data : Str) :
    untimedResult (appendToBody p data) = appendToBody p.untimed data := by
  unfold appendToBody untimedResult
  simp only [HttpParser.untimed]
  split <;> simp_all [HttpParser.latch, HttpParser.untimed]

theorem chunkSizeLine_untimed (p : HttpParser) (n : Nat) :
    untimedResult (chunkSizeLine p n) = chunkSizeLine p.untimed n := by
  unfold chunkSizeLine untimedResult
  simp only [HttpParser.untimed]
  repeat' split
  all_goals simp_all [HttpParser.fail, HttpParser.untimed]

theorem lastChunk_untimed (p : HttpParser) (line : Str) :
    untimedResult (lastChunk p line) = lastChunk p.untimed line := by
  unfold lastChunk untimedResult
  simp only [HttpParser.untimed]
  repeat' split
  all_goals simp_all [HttpParser.fail, HttpParser.untimed]

theorem chunkData_untimed (p : HttpParser) :
    untimedTurn (chunkData p) = chunkData p.untimed := by
  have h := appendToBody_untimed p (List.take p.chunkSize p.buffer)
  unfold chunkData
  dsimp only
  have hb : p.untimed.buffer = p.buffer := rfl
  have hc : p.untimed.chunkSize = p.chunkSize := rfl
  rw [hb, hc]
  split
  · rfl
  · split
    · rfl
    · rw [← h]; rfl

theorem parseChunkedBodyLoop_untimed (fuel : Nat) :
    ∀ p : HttpParser, untimedResult (parseChunkedBodyLoop fuel p) =
      parseChunkedBodyLoop fuel p.untimed := by
  induction fuel with
  | zero => intro p; rfl
  | succ n ih =>
    intro p
    unfold parseChunkedBodyLoop
    have hb : p.untimed.buffer = p.buffer := rfl
    have hc : p.untimed.chunkSize = p.chunkSize := rfl
    have hh : p.untimed.hasChunkSize = p.hasChunkSize := rfl
    rw [hb, hc, hh]
    cases hf : find p.buffer CRLF with
    | none => rfl
    | some e =>
      dsimp only
      cases hcs : p.hasChunkSize with
      | false =>
        simp only [↓reduceIte]
        rw [← chunkSizeLine_untimed]
        rcases hx : chunkSizeLine p e with ⟨b, p1⟩
        cases b with
        | true => exact ih p1
        | false => rfl
      | true =>
        simp only [Bool.true_eq_false, ↓reduceIte]
        by_cases hz : p.chunkSize = 0
        · simp only [hz, if_true]; exact lastChunk_untimed p _
        · simp only [hz, if_false]
          rw [← chunkData_untimed]
          cases hx : chunkData p with
          | goOn p1 => exact ih p1
          | done r p1 => rfl

theorem parseBody_untimed (p : HttpParser) :
    untimedResult (parseBody p) = parseBody p.untimed := by
  unfold parseBody
  have ha := appendToBody_untimed p p.buffer
  have hb : p.untimed.buffer = p.buffer := rfl
  rw [hb, ← ha]
  have hl := parseChunkedBodyLoop_untimed (p.buffer.length + 2) p
  unfold parseChunkedBody
  rw [hb, ← hl]
  rcases hx : appendToBody p p.buffer with ⟨b, p1⟩
  simp only [HttpParser.untimed, untimedResult]
  repeat' split
  all_goals simp_all [untimedResult, HttpParser.fail, HttpParser.latch, HttpParser.untimed]

theorem parseLoop_untimed (pool : ServerPool) (now : Nat) (fuel : Nat) :
    ∀ p : HttpParser, untimedResult (parseLoop pool now fuel p) =
      parseLoop pool 0 fuel p.untimed := by
  induction fuel with
  | zero => intro p; rfl
  | succ n ih =>
    intro p
    unfold parseLoop
    have hs : p.untimed.state = p.state := rfl
    rw [hs]
    cases p.state with
    | REQUEST_LINE =>
      dsimp only
      rw [← parseRequestLine_untimed pool now]
      rcases hx : parseRequestLine pool now p with ⟨b, p1⟩
      cases b with
      | true => exact ih p1
      | false => rfl
    | HEADERS =>
      dsimp only
      rw [← parseHeaders_untimed pool now]
      rcases hx : parseHeaders pool now p with ⟨b, p1⟩
      cases b with
      | true => exact ih p1
      | false => rfl
    | BODY =>
      dsimp only
      rw [← parseBody_untimed]
      rcases hx : parseBody p with ⟨b, p1⟩
      cases b with
      | true => exact ih p1
      | false => rfl
    | COMPLETE => rfl
    | ERROR => rfl

theorem parse_untimed (pool : ServerPool) (now : Nat) (p : HttpParser) (data : Str) :
    untimedResult (parse pool now p data) = parse pool 0 p.untimed data := by
  unfold parse
  have hs : p.untimed.state = p.state := rfl
  rw [hs]
  split
  · rfl
  · exact parseLoop_untimed pool now 4 _

/-! ## State functions on a longer buffer -/

theorem take_append_of_find {s : Str} {n : Nat} (y : Str) (h : find s CRLF = some n) :
    (s ++ y).take n = s.take n ∧ (s ++ y).drop (n + 2) = s.drop (n + 2) ++ y := by
  have hle := find_some_le h
  simp only [CRLF, List.length_cons, List.length_nil] at hle
  constructor
  · rw [List.take_append_of_le_length (by omega)]
  · rw [List.drop_append_of_le_length (by omega)]

theorem acceptRequestLine_extend (now : Nat) (p : HttpParser) (y m u v r : Str) :
    acceptRequestLine now (p.extend y) m u v r =
      extendResult (acceptRequestLine now p m u v r) y := by
  unfold acceptRequestLine extendResult
  simp only [HttpParser.extend]
  repeat' split
  all_goals simp_all [HttpParser.fail, HttpParser.latch, HttpParser.extend]

theorem parseRequestLine_extend (pool : ServerPool) (now : Nat) (p : HttpParser) (y : Str)
    {n : Nat} (h : find p.buffer CRLF = some n) :
    parseRequestLine pool now (p.extend y) = extendResult (parseRequestLine pool now p) y := by
  have h1 := find_append_some y h
  have h2 := take_append_of_find y h
  unfold parseRequestLine
  have hb : (p.extend y).buffer = p.buffer ++ y := rfl
  rw [hb, h1, h]
  dsimp only
  rw [h2.1, h2.2]
  repeat' split
  all_goals first
    | exact acceptRequestLine_extend now { p with buffer := List.drop (n + 2) p.buffer } y _ _ _ _
    | simp_all [extendResult, HttpParser.fail, HttpParser.latch, HttpParser.extend]

theorem parseRequestLine_stuck (pool : ServerPool) (now : Nat) (p : HttpParser)
    (h : find p.buffer CRLF = none) : parseRequestLine pool now p = (false, p) := by
  unfold parseRequestLine
  rw [h]

theorem storeHeader_extend (pool : ServerPool) (p : HttpParser) (y line : Str) :
    storeHeader pool (p.extend y) line = extendResult (storeHeader pool p line) y := by
  unfold storeHeader extendResult
  simp only [HttpParser.extend]
  repeat' split
  all_goals simp_all [HttpParser.fail, HttpParser.latch, HttpParser.extend]

theorem headerLine_extend (pool : ServerPool) (p : HttpParser) (y : Str)
    {n : Nat} (h : find p.buffer CRLF = some n) :
    headerLine pool (p.extend y) n = extendResult (headerLine pool p n) y := by
  have h2 := take_append_of_find y h
  unfold headerLine
  have hb : (p.extend y).buffer = p.buffer ++ y := rfl
  dsimp only
  rw [hb, h2.1, h2.2]
  repeat' split
  all_goals first
    | exact storeHeader_extend pool
        { p with
          request := { p.request with headerCount := p.request.headerCount + 1 },
          buffer := List.drop (n + 2) p.buffer } y _
    | simp_all [extendResult, HttpParser.fail, HttpParser.latch, HttpParser.extend]

theorem headersDone_extend (now : Nat) (p : HttpParser) (y s : Str) :
    headersDone now (p.extend y) s = extendResult (headersDone now p s) y := by
  unfold headersDone extendResult
  simp only [HttpParser.extend]
  repeat' split
  all_goals simp_all [HttpParser.fail, HttpParser.latch, HttpParser.extend]

theorem blankLine_extend (now : Nat) (p : HttpParser) (y : Str)
    (h : find p.buffer CRLF = some 0) :
    blankLine now (p.extend y) = extendResult (blankLine now p) y := by
  have h2 := take_append_of_find y h
  unfold blankLine
  have hb : (p.extend y).buffer = p.buffer ++ y := rfl
  have hr : (p.extend y).request = p.request := rfl
  simp only [HttpRequest.getHeader]
  rw [hb, h2.2, hr]
  repeat' split
  all_goals first
    | exact headersDone_extend now
        { p with headerStart := 0, buffer := List.drop 2 p.buffer } y _
    | exact headersDone_extend now
        { p with headerStart := 0, buffer := List.drop 2 p.buffer, contentLength := _ } y _
    | simp_all [extendResult, HttpParser.fail, HttpParser.latch, HttpParser.extend]

theorem headersDone_false (now : Nat) (p : HttpParser) (s : Str)
    (h : (headersDone now p s).1 = false) :
    (headersDone now p s).2.state = ParseState.ERROR := by
  unfold headersDone at h ⊢
  repeat' split
  all_goals simp_all [HttpParser.latch]

theorem blankLine_false (now : Nat) (p : HttpParser) (h : (blankLine now p).1 = false) :
    (blankLine now p).2.state = ParseState.ERROR := by
  unfold blankLine at h ⊢
  dsimp only at h ⊢
  repeat' split
  all_goals first
    | rfl
    | (apply headersDone_false; simp_all)

theorem headerLine_false (pool : ServerPool) (p : HttpParser) (n : Nat)
    (h : (headerLine pool p n).1 = false) :
    (headerLine pool p n).2.state = ParseState.ERROR := by
  rcases headerLine_state pool p n with ⟨h1, -⟩ | ⟨-, h2⟩
  · rw [h] at h1; cases h1
  · exact h2

/-- The function `parseHeaders` on a longer buffer: either the call on the shorter buffer
stopped for want of a complete line, and the call on the longer one does what a new call
does after the bytes have arrived; or it ended (true, or false with ERROR), and the call on
the longer buffer ends the same way with the new bytes left in the buffer. -/
theorem parseHeaders_extend (pool : ServerPool) (now : Nat) (y : Str) :
    ∀ (k : Nat) (p : HttpParser), p.buffer.length = k →
      ((parseHeaders pool now p).1 = false ∧
        find (parseHeaders pool now p).2.buffer CRLF = none ∧
        (parseHeaders pool now p).2.state = p.state ∧
        parseHeaders pool now (p.extend y) =
          parseHeaders pool now ((parseHeaders pool now p).2.extend y)) ∨
      (parseHeaders pool now (p.extend y) = extendResult (parseHeaders pool now p) y ∧
        ((parseHeaders pool now p).1 = true ∨
          (parseHeaders pool now p).2.state = ParseState.ERROR)) := by
  intro k
  induction k using Nat.strong_induction_on with
  | _ k ih =>
    intro p hk
    rw [parseHeaders_eq pool now p]
    cases hf : find p.buffer CRLF with
    | none =>
      left
      exact ⟨rfl, hf, rfl, rfl⟩
    | some n =>
      dsimp only
      have hfe : find (p.extend y).buffer CRLF = some n := find_append_some y hf
      have hle := find_some_le hf
      simp only [CRLF, List.length_cons, List.length_nil] at hle
      by_cases h0 : n = 0
      · subst h0
        simp only [if_true]
        right
        constructor
        · rw [parseHeaders_eq pool now (p.extend y), hfe]
          simp only [if_true]
          exact blankLine_extend now p y hf
        · cases hb : (blankLine now p).1 with
          | true => exact Or.inl rfl
          | false => exact Or.inr (blankLine_false now p hb)
      · simp only [h0, if_false]
        have hext := headerLine_extend pool p y hf
        have hbuf := headerLine_buffer pool p n
        have hfal := headerLine_false pool p n
        have hsta := headerLine_state pool p n
        have hstep : parseHeaders pool now (p.extend y) =
            match headerLine pool (p.extend y) n with
            | (true, p1) => parseHeaders pool now p1
            | (false, p1) => (false, p1) := by
          rw [parseHeaders_eq pool now (p.extend y), hfe]
          simp only [h0, if_false]
        rw [hstep, hext]
        rcases hx : headerLine pool p n with ⟨b, p1⟩
        rw [hx] at hbuf hfal hsta
        cases b with
        | false =>
          right
          simp only [extendResult]
          exact ⟨trivial, Or.inr (hfal rfl)⟩
        | true =>
          simp only [extendResult]
          have hlen : p1.buffer.length < k := by
            have := hbuf rfl
            simp only at this
            rw [this, List.length_drop]
            omega
          have hst : p1.state = p.state := by
            rcases hsta with ⟨-, h⟩ | ⟨h, -⟩
            · exact h
            · cases h
          rcases ih p1.buffer.length hlen p1 rfl with ⟨a1, a2, a3, a4⟩ | a
          · left; exact ⟨a1, a2, a3.trans hst, a4⟩
          · right; exact a

theorem appendToBody_extend (p : HttpParser) (y data : Str) :
    appendToBody (p.extend y) data = extendResult (appendToBody p data) y := by
  unfold appendToBody extendResult
  simp only [HttpParser.extend]
  split <;> simp_all [HttpParser.latch, HttpParser.extend]

theorem chunkSizeLine_extend (p : HttpParser) (y : Str) {n : Nat}
    (h : find p.buffer CRLF = some n) :
    chunkSizeLine (p.extend y) n = extendResult (chunkSizeLine p n) y := by
  have h2 := take_append_of_find y h
  unfold chunkSizeLine
  have hb : (p.extend y).buffer = p.buffer ++ y := rfl
  dsimp only
  rw [hb, h2.1, h2.2]
  repeat' split
  all_goals simp_all [extendResult, HttpParser.fail, HttpParser.extend]

theorem getD_append_of_lt (b y : Str) (i : Nat) (h : i < b.length) :
    (b ++ y).getD i '\x00' = b.getD i '\x00' := by
  simp [List.getD, List.getElem?_append_left h]

theorem getD_of_le (b : Str) (i : Nat) (h : b.length ≤ i) : b.getD i '\x00' = '\x00' := by
  simp [List.getD, List.getElem?_eq_none h]

theorem chunkData_extend (p : HttpParser) (y : Str)
    (hK : p.buffer.length + y.length + 2 ≤ ULONG_RANGE)
    (hlen : ¬ p.buffer.length < (p.chunkSize + 2) % ULONG_RANGE) :
    chunkData (p.extend y) = extendTurn (chunkData p) y := by
  have hR : ULONG_RANGE = 18446744073709551616 := by simp [ULONG_RANGE]
  unfold chunkData
  dsimp only
  have hb : (p.extend y).buffer = p.buffer ++ y := rfl
  have hc : (p.extend y).chunkSize = p.chunkSize := rfl
  rw [hb, hc]
  have hlen2 : ¬ (p.buffer ++ y).length < (p.chunkSize + 2) % ULONG_RANGE := by
    simp only [List.length_append]; omega
  rw [if_neg hlen, if_neg hlen2]
  by_cases hw : p.chunkSize + 2 < ULONG_RANGE
  · have hm : (p.chunkSize + 2) % ULONG_RANGE = p.chunkSize + 2 := Nat.mod_eq_of_lt hw
    have hm1 : (p.chunkSize + 1) % ULONG_RANGE = p.chunkSize + 1 :=
      Nat.mod_eq_of_lt (by omega)
    rw [hm] at hlen
    rw [hm1, getD_append_of_lt _ _ _ (by omega), getD_append_of_lt _ _ _ (by omega)]
    split
    · rfl
    · have ha := appendToBody_extend p y (List.take p.chunkSize p.buffer)
      have hf := appendToBody_frame p (List.take p.chunkSize p.buffer)
      rw [List.take_append_of_le_length (by omega), ha]
      simp only [extendResult, extendTurn, HttpParser.extend, hf.1, hf.2.1, hm]
      rw [List.drop_append_of_le_length (by omega)]
  · have h1 : (p.buffer ++ y).getD p.chunkSize '\x00' = '\x00' :=
      getD_of_le _ _ (by simp only [List.length_append]; omega)
    have h2 : p.buffer.getD p.chunkSize '\x00' = '\x00' := getD_of_le _ _ (by omega)
    rw [h1, h2]
    simp [extendTurn, HttpParser.fail, HttpParser.extend]

/-! ## The body phase keeps what the header phase has fixed -/

theorem appendToBody_head (p : HttpParser) (data : Str) :
    (appendToBody p data).2.head = p.head := by
  unfold appendToBody
  dsimp only
  split <;> simp [HttpParser.latch, HttpParser.head]

theorem chunkSizeLine_head (p : HttpParser) (n : Nat) :
    (chunkSizeLine p n).2.head = p.head := by
  unfold chunkSizeLine
  dsimp only
  repeat' split
  all_goals simp [HttpParser.fail, HttpParser.head]

theorem lastChunk_head (p : HttpParser) (line : Str) :
    (lastChunk p line).2.head = p.head := by
  unfold lastChunk
  dsimp only
  repeat' split
  all_goals simp [HttpParser.fail, HttpParser.head]

theorem chunkData_head (p : HttpParser) :
    (∀ p1, chunkData p = Turn.goOn p1 → p1.head = p.head) ∧
    (∀ r p1, chunkData p = Turn.done r p1 → p1.head = p.head) := by
  unfold chunkData
  dsimp only
  have ha := appendToBody_head p (List.take p.chunkSize p.buffer)
  constructor
  · intro p1 h
    split at h
    · cases h
    · split at h
      · cases h
      · cases h
        rw [← ha]; rfl
  · intro r p1 h
    split at h
    · cases h; rfl
    · split at h
      · cases h; rfl
      · cases h

theorem parseChunkedBodyLoop_head (fuel : Nat) :
    ∀ p : HttpParser, (parseChunkedBodyLoop fuel p).2.head = p.head := by
  induction fuel with
  | zero => intro p; rfl
  | succ n ih =>
    intro p
    unfold parseChunkedBodyLoop
    cases hf : find p.buffer CRLF with
    | none => rfl
    | some e =>
      dsimp only
      cases hcs : p.hasChunkSize with
      | false =>
        simp only [↓reduceIte]
        have h1 := chunkSizeLine_head p e
        rcases hx : chunkSizeLine p e with ⟨b, p1⟩
        rw [hx] at h1
        cases b with
        | true => exact (ih p1).trans h1
        | false => exact h1
      | true =>
        simp only [Bool.true_eq_false, ↓reduceIte]
        by_cases hz : p.chunkSize = 0
        · simp only [hz, if_true]; exact lastChunk_head p _
        · simp only [hz, if_false]
          have h1 := chunkData_head p
          cases hx : chunkData p with
          | goOn p1 => exact (ih p1).trans (h1.1 p1 hx)
          | done r p1 => exact h1.2 r p1 hx

theorem parseBody_head (p : HttpParser) : (parseBody p).2.head = p.head := by
  unfold parseBody
  dsimp only
  split
  · rfl
  · split
    · exact parseChunkedBodyLoop_head _ p
    · split
      · rfl
      · have h1 := appendToBody_head p p.buffer
        rcases hx : appendToBody p p.buffer with ⟨b, p1⟩
        rw [hx] at h1
        cases b <;> exact h1

/-! ## The chunk loop on a longer buffer -/

theorem chunkSizeLine_true (p : HttpParser) (n : Nat) (h : (chunkSizeLine p n).1 = true) :
    (chunkSizeLine p n).2.state = p.state ∧
    (chunkSizeLine p n).2.request = p.request ∧
    (chunkSizeLine p n).2.errorCode = p.errorCode ∧
    (chunkSizeLine p n).2.hasChunkSize = true ∧
    (chunkSizeLine p n).2.buffer = p.buffer.drop (n + 2) ∧
    (p.config.client_max_body_size > 0 →
      (p.request.totalBodySize + (chunkSizeLine p n).2.chunkSize) % ULONG_RANGE ≤
        p.config.client_max_body_size) := by
  unfold chunkSizeLine at h ⊢
  dsimp only at h ⊢
  repeat' split
  all_goals simp_all [HttpParser.fail]

theorem chunkData_goOn_of_bound (p p1 : HttpParser) (h : chunkData p = Turn.goOn p1)
    (hJ : ChunkBound p) (hc : p.hasChunkSize = true)
    (hK : p.request.totalBodySize + p.buffer.length + 2 ≤ ULONG_RANGE) :
    p1.state = p.state ∧ p1.errorCode = p.errorCode ∧
    p1.request.totalBodySize = p.request.totalBodySize + p.chunkSize ∧
    p1.buffer = p.buffer.drop (p.chunkSize + 2) ∧ p.chunkSize + 2 ≤ p.buffer.length ∧
    p1.hasChunkSize = false ∧ ChunkBound p1 := by
  have hR : ULONG_RANGE = 18446744073709551616 := by simp [ULONG_RANGE]
  have hhead := (chunkData_head p).1 p1 h
  unfold chunkData at h
  dsimp only at h
  split at h
  · cases h
  · next hlen =>
    split at h
    · cases h
    · next hch =>
      push_neg at hch
      have hlt : p.chunkSize < p.buffer.length := by
        by_contra hge
        have := getD_of_le p.buffer p.chunkSize (by omega)
        rw [this] at hch
        exact absurd hch.1 (by decide)
      have hm : (p.chunkSize + 2) % ULONG_RANGE = p.chunkSize + 2 :=
        Nat.mod_eq_of_lt (by omega)
      rw [hm] at hlen
      have hcfg : p1.config = p.config := by
        simp only [HttpParser.head, Prod.mk.injEq] at hhead
        exact hhead.2.2.2.2.2.2.2
      have hguard : ¬ (p.config.client_max_body_size > 0 ∧
          p.request.totalBodySize > p.config.client_max_body_size) := by
        rintro ⟨h1, h2⟩
        have := (hJ h1).1
        omega
      have hfr := appendToBody_frame p (List.take p.chunkSize p.buffer)
      have happ : (appendToBody p (List.take p.chunkSize p.buffer)).2 =
          { p with request := { p.request with
              totalBodySize := p.request.totalBodySize + p.chunkSize,
              body := p.request.body ++ List.take p.chunkSize p.buffer } } := by
        unfold appendToBody
        dsimp only
        rw [if_neg hguard]
        simp only [List.length_take]
        rw [Nat.min_eq_left (by omega)]
      rw [happ] at h
      cases h
      refine ⟨rfl, rfl, rfl, ?_, by omega, rfl, ?_⟩
      · simp only [hm]
      · intro hmax
        have hJ' := hJ hmax
        have hmod : (p.request.totalBodySize + p.chunkSize) % ULONG_RANGE =
            p.request.totalBodySize + p.chunkSize := Nat.mod_eq_of_lt (by omega)
        have := hJ'.2 hc
        rw [hmod] at this
        exact ⟨this, by intro hne; cases hne⟩

theorem extend_nil (p : HttpParser) : p.extend [] = p := by
  simp [HttpParser.extend]

theorem lastChunk_extend (p : HttpParser) (y : Str) {n : Nat}
    (hf : find p.buffer CRLF = some n) :
    ((lastChunk p (p.buffer.take n)).1 = false ∧
      (lastChunk p (p.buffer.take n)).2.state = ParseState.ERROR ∧
      lastChunk (p.extend y) ((p.extend y).buffer.take n) =
        (false, (lastChunk p (p.buffer.take n)).2.extend y)) ∨
    ((lastChunk p (p.buffer.take n)).1 = true ∧
      (lastChunk p (p.buffer.take n)).2.state = ParseState.COMPLETE ∧
      (y = [] ∨
        ((lastChunk (p.extend y) ((p.extend y).buffer.take n)).1 = false ∧
          (lastChunk (p.extend y) ((p.extend y).buffer.take n)).2.state =
            ParseState.ERROR))) := by
  have h2 := take_append_of_find y hf
  have hle := find_some_le hf
  simp only [CRLF, List.length_cons, List.length_nil] at hle
  have hd : (p.buffer ++ y).drop 2 = p.buffer.drop 2 ++ y :=
    List.drop_append_of_le_length (by omega)
  have hb : (p.extend y).buffer = p.buffer ++ y := rfl
  rw [hb, h2.1]
  unfold lastChunk
  dsimp only
  rw [hb, hd]
  by_cases hl : List.take n p.buffer ≠ []
  · left
    simp [hl, HttpParser.fail, HttpParser.extend]
  · rw [if_neg hl, if_neg hl]
    by_cases he : List.drop 2 p.buffer ≠ []
    · left
      have he2 : List.drop 2 p.buffer ++ y ≠ [] := by simp [he]
      rw [if_pos he, if_pos he2]
      simp [HttpParser.fail, HttpParser.extend]
    · right
      rw [if_neg he]
      push_neg at he
      rw [he]
      refine ⟨rfl, rfl, ?_⟩
      by_cases hy : y = []
      · exact Or.inl hy
      · right
        simp [hy, HttpParser.fail]

/-- The function `parseChunkedBody` on a longer buffer.  Either the call on the shorter
buffer stopped for want of bytes, and the call on the longer one does what a new call does
after the bytes have arrived; or it ended in ERROR, and so does the call on the longer
buffer, with the same parser but for the buffer; or it completed the body, and the call on
the longer buffer ends in ERROR as bytes follow the last chunk. -/
theorem parseChunkedBody_extend (y : Str) :
    ∀ (k : Nat) (p : HttpParser), chunkMeasure p = k → ChunkBound p →
      p.request.totalBodySize + p.buffer.length + y.length + 2 ≤ ULONG_RANGE →
      ((parseChunkedBody p).1 = false ∧ (parseChunkedBody p).2.state = p.state ∧
        (parseChunkedBody p).2.errorCode = p.errorCode ∧
        ChunkBound (parseChunkedBody p).2 ∧ (parseChunkedBody p).2.mass ≤ p.mass ∧
        parseChunkedBody (p.extend y) = parseChunkedBody ((parseChunkedBody p).2.extend y)) ∨
      ((parseChunkedBody p).1 = false ∧ (parseChunkedBody p).2.state = ParseState.ERROR ∧
        parseChunkedBody (p.extend y) = (false, (parseChunkedBody p).2.extend y)) ∨
      ((parseChunkedBody p).1 = true ∧ (parseChunkedBody p).2.state = ParseState.COMPLETE ∧
        (y = [] ∨ ((parseChunkedBody (p.extend y)).1 = false ∧
          (parseChunkedBody (p.extend y)).2.state = ParseState.ERROR))) := by
  intro k
  induction k using Nat.strong_induction_on with
  | _ k ih =>
    intro p hk hJ hK
    have hR : ULONG_RANGE = 18446744073709551616 := by simp [ULONG_RANGE]
    rw [parseChunkedBody_eq p]
    cases hf : find p.buffer CRLF with
    | none =>
      left
      exact ⟨rfl, rfl, rfl, hJ, le_refl _, rfl⟩
    | some n =>
      dsimp only
      have hfe : find (p.extend y).buffer CRLF = some n := find_append_some y hf
      have hle := find_some_le hf
      simp only [CRLF, List.length_cons, List.length_nil] at hle
      have hce : (p.extend y).hasChunkSize = p.hasChunkSize := rfl
      have hse : (p.extend y).chunkSize = p.chunkSize := rfl
      cases hcs : p.hasChunkSize with
      | false =>
        simp only [↓reduceIte]
        have hstep : parseChunkedBody (p.extend y) =
            match chunkSizeLine (p.extend y) n with
            | (true, p1) => parseChunkedBody p1
            | (false, p1) => (false, p1) := by
          rw [parseChunkedBody_eq (p.extend y), hfe]
          simp only [hce, hcs, ↓reduceIte]
        rw [hstep, chunkSizeLine_extend p y hf]
        have hst := chunkSizeLine_state p n
        have htr := chunkSizeLine_true p n
        have hhd := chunkSizeLine_head p n
        rcases hx : chunkSizeLine p n with ⟨b, p1⟩
        rw [hx] at hst htr hhd
        cases b with
        | false =>
          right; left
          simp only [extendResult]
          rcases hst with ⟨h, -⟩ | ⟨-, h⟩
          · cases h
          · exact ⟨trivial, h, trivial⟩
        | true =>
          simp only [extendResult]
          obtain ⟨h1, h2, h3, h4, h5, h6⟩ := htr rfl
          simp only at h1 h2 h3 h4 h5 h6
          have hcfg : p1.config = p.config := by
            simp only [HttpParser.head, Prod.mk.injEq] at hhd
            exact hhd.2.2.2.2.2.2.2
          have hlen : p1.buffer.length + 2 ≤ p.buffer.length := by
            rw [h5, List.length_drop]; omega
          have hm : chunkMeasure p1 < k := by
            rw [← hk]; unfold chunkMeasure
            rw [h4, hcs]; simp; omega
          have hJ1 : ChunkBound p1 := by
            intro hmax
            rw [hcfg] at hmax ⊢
            rw [h2]
            exact ⟨(hJ hmax).1, fun _ => h6 hmax⟩
          have hK1 : p1.request.totalBodySize + p1.buffer.length + y.length + 2 ≤
              ULONG_RANGE := by rw [h2]; omega
          rcases ih _ hm p1 rfl hJ1 hK1 with ⟨a1, a2, a3, a4, a5, a6⟩ | ⟨a1, a2, a3⟩ | a
          · left
            refine ⟨a1, a2.trans h1, a3.trans h3, a4, ?_, a6⟩
            have : p1.mass ≤ p.mass := by
              unfold HttpParser.mass; rw [h2]; omega
            omega
          · right; left; exact ⟨a1, a2, a3⟩
          · right; right; exact a
      | true =>
        simp only [Bool.true_eq_false, ↓reduceIte]
        by_cases hz : p.chunkSize = 0
        · simp only [hz, if_true]
          have hstep : parseChunkedBody (p.extend y) =
              lastChunk (p.extend y) ((p.extend y).buffer.take n) := by
            rw [parseChunkedBody_eq (p.extend y), hfe]
            simp only [hce, hse, hcs, hz, Bool.true_eq_false, ↓reduceIte]
          rw [hstep]
          rcases lastChunk_extend p y hf with h | h
          · right; left; exact h
          · right; right; exact h
        · simp only [hz, if_false]
          by_cases hlen : p.buffer.length < (p.chunkSize + 2) % ULONG_RANGE
          · have hcd : chunkData p = Turn.done false p := by
              unfold chunkData; rw [if_pos hlen]
            rw [hcd]
            left
            exact ⟨rfl, rfl, rfl, hJ, le_refl _, rfl⟩
          · have hstep : parseChunkedBody (p.extend y) =
                match chunkData (p.extend y) with
                | Turn.goOn p1 => parseChunkedBody p1
                | Turn.done result p1 => (result, p1) := by
              rw [parseChunkedBody_eq (p.extend y), hfe]
              simp only [hce, hse, hcs, hz, Bool.true_eq_false, ↓reduceIte]
            rw [hstep, chunkData_extend p y (by omega) hlen]
            have hst := chunkData_state p
            have hgo := chunkData_goOn_of_bound p
            cases hx : chunkData p with
            | done r p1 =>
              rw [hx] at hst
              simp only [extendTurn]
              rcases hst with ⟨q, h, -⟩ | ⟨q, h, hs⟩
              · cases h
              · cases h
                have hfail : p1.state = ParseState.ERROR := by
                  unfold chunkData at hx
                  dsimp only at hx
                  rw [if_neg hlen] at hx
                  split at hx
                  · cases hx; rfl
                  · cases hx
                right; left
                exact ⟨rfl, hfail, rfl⟩
            | goOn p1 =>
              simp only [extendTurn]
              obtain ⟨h1, h2, h3, h4, h5, h6, h7⟩ := hgo p1 hx hJ hcs (by omega)
              have hm : chunkMeasure p1 < k := by
                rw [← hk]; unfold chunkMeasure
                rw [h6, hcs, h4, List.length_drop]; simp; omega
              have hK1 : p1.request.totalBodySize + p1.buffer.length + y.length + 2 ≤
                  ULONG_RANGE := by
                rw [h3, h4, List.length_drop]; omega
              rcases ih _ hm p1 rfl h7 hK1 with ⟨a1, a2, a3, a4, a5, a6⟩ | ⟨a1, a2, a3⟩ | a
              · left
                refine ⟨a1, a2.trans h1, a3.trans h2, a4, ?_, a6⟩
                have : p1.mass ≤ p.mass := by
                  unfold HttpParser.mass; rw [h3, h4, List.length_drop]; omega
                omega
              · right; left; exact ⟨a1, a2, a3⟩
              · right; right; exact a

/-- The identity body on a longer buffer. -/
theorem parseBody_identity_extend (p : HttpParser) (y : Str)
    (hc : p.chunkedTransfer = false) :
    ((parseBody p).1 = false ∧ (parseBody p).2.state = p.state ∧
      (parseBody p).2.errorCode = p.errorCode ∧ (parseBody p).2.mass ≤ p.mass ∧
      (parseBody (p.extend y) = parseBody ((parseBody p).2.extend y) ∨
        ((parseBody (p.extend y)).1 = false ∧
          (parseBody (p.extend y)).2.state = ParseState.ERROR ∧
          (parseBody ((parseBody p).2.extend y)).1 = false ∧
          (parseBody ((parseBody p).2.extend y)).2.state = ParseState.ERROR ∧
          (parseBody (p.extend y)).2.errorCode =
            (parseBody ((parseBody p).2.extend y)).2.errorCode))) ∨
    ((parseBody p).1 = false ∧ (parseBody p).2.state = ParseState.ERROR ∧
      parseBody (p.extend y) = (false, (parseBody p).2.extend y)) ∨
    ((parseBody p).1 = true ∧ (parseBody p).2.state = ParseState.COMPLETE ∧
      (y = [] ∨ ((parseBody (p.extend y)).1 = false ∧
        (parseBody (p.extend y)).2.state = ParseState.ERROR))) := by
  by_cases c1 : p.config.client_max_body_size > 0 ∧
      p.contentLength > p.config.client_max_body_size
  · right; left
    simp [parseBody, HttpParser.extend, HttpParser.latch, hc, c1]
  · by_cases c2 : p.request.totalBodySize + p.buffer.length > p.contentLength
    · right; left
      have c2' : p.contentLength < p.request.totalBodySize + (p.buffer.length + y.length) := by
        omega
      simp [parseBody, HttpParser.extend, HttpParser.fail, hc, c1, c2, c2']
    · have hg : ¬ (p.config.client_max_body_size > 0 ∧
          p.request.totalBodySize > p.config.client_max_body_size) := by
        rintro ⟨h1, h2⟩
        apply c1
        refine ⟨h1, ?_⟩
        omega
      by_cases c3 : p.request.totalBodySize + p.buffer.length ≥ p.contentLength
      · right; right
        have hr : parseBody p = (true,
            { p with
              request := { p.request with
                totalBodySize := p.request.totalBodySize + p.buffer.length,
                body := p.request.body ++ p.buffer },
              buffer := [], state := ParseState.COMPLETE }) := by
          simp [parseBody, appendToBody, hc, c1, c2, c3, hg]
        rw [hr]
        refine ⟨rfl, rfl, ?_⟩
        by_cases hy : y = []
        · exact Or.inl hy
        · right
          have hylen : 0 < y.length := List.length_pos.mpr hy
          have c2' : p.contentLength <
              p.request.totalBodySize + (p.buffer.length + y.length) := by omega
          simp [parseBody, HttpParser.extend, HttpParser.fail, hc, c1, c2']
      · left
        have hr : parseBody p = (false,
            { p with
              request := { p.request with
                totalBodySize := p.request.totalBodySize + p.buffer.length,
                body := p.request.body ++ p.buffer },
              buffer := [] }) := by
          simp [parseBody, appendToBody, hc, c1, c2, c3, hg]
        rw [hr]
        refine ⟨rfl, rfl, rfl, ?_, ?_⟩
        · simp [HttpParser.mass]
        · by_cases c4 : p.request.totalBodySize + p.buffer.length + y.length > p.contentLength
          · right
            have c4' : p.contentLength <
                p.request.totalBodySize + (p.buffer.length + y.length) := by omega
            simp [parseBody, HttpParser.extend, HttpParser.fail, hc, c1, c4, c4']
          · left
            have c4' : ¬ p.contentLength <
                p.request.totalBodySize + (p.buffer.length + y.length) := by omega
            have hg2 : ¬ (p.config.client_max_body_size > 0 ∧
                p.request.totalBodySize + p.buffer.length >
                  p.config.client_max_body_size) := by
              rintro ⟨h1, h2⟩
              apply c1
              refine ⟨h1, ?_⟩
              omega
            simp only [parseBody, appendToBody, HttpParser.extend, hc, c1, c4, c4', hg, hg2,
              List.length_append, List.nil_append, List.append_assoc, Nat.add_assoc,
              Bool.false_eq_true, false_and, and_false, if_false, ↓reduceIte, gt_iff_lt,
              ge_iff_le, not_false_eq_true]

/-- The function `parseBody` on a longer buffer: the cases of `parseChunkedBody_extend`,
with one more for the identity body, where the bytes that arrive later can exceed the
declared length: then both calls end in ERROR, with the same status code. -/
theorem parseBody_extend (p : HttpParser) (y : Str)
    (hJ : p.chunkedTransfer = true → ChunkBound p)
    (hK : p.mass + y.length + 2 ≤ ULONG_RANGE) :
    ((parseBody p).1 = false ∧ (parseBody p).2.state = p.state ∧
      (parseBody p).2.errorCode = p.errorCode ∧ (parseBody p).2.mass ≤ p.mass ∧
      (p.chunkedTransfer = true → ChunkBound (parseBody p).2) ∧
      (parseBody (p.extend y) = parseBody ((parseBody p).2.extend y) ∨
        ((parseBody (p.extend y)).1 = false ∧
          (parseBody (p.extend y)).2.state = ParseState.ERROR ∧
          (parseBody ((parseBody p).2.extend y)).1 = false ∧
          (parseBody ((parseBody p).2.extend y)).2.state = ParseState.ERROR ∧
          (parseBody (p.extend y)).2.errorCode =
            (parseBody ((parseBody p).2.extend y)).2.errorCode))) ∨
    ((parseBody p).1 = false ∧ (parseBody p).2.state = ParseState.ERROR ∧
      parseBody (p.extend y) = (false, (parseBody p).2.extend y)) ∨
    ((parseBody p).1 = true ∧ (parseBody p).2.state = ParseState.COMPLETE ∧
      (y = [] ∨ ((parseBody (p.extend y)).1 = false ∧
        (parseBody (p.extend y)).2.state = ParseState.ERROR))) := by
  cases hc : p.chunkedTransfer with
  | false =>
    rcases parseBody_identity_extend p y hc with ⟨a1, a2, a3, a4, a5⟩ | a | a
    · left; exact ⟨a1, a2, a3, a4, fun h => Bool.noConfusion h, a5⟩
    · right; left; exact a
    · right; right; exact a
  | true =>
    have e1 : ∀ q : HttpParser, q.chunkedTransfer = true → parseBody q = parseChunkedBody q := by
      intro q hq
      simp [parseBody, hq]
    have hhd := parseChunkedBodyLoop_head (p.buffer.length + 2) p
    have hct : (parseChunkedBody p).2.chunkedTransfer = true := by
      have : (parseChunkedBody p).2.head = p.head := hhd
      simp only [HttpParser.head, Prod.mk.injEq] at this
      rw [this.2.2.2.2.2.2.1, hc]
    rw [e1 p hc, e1 (p.extend y) hc, e1 ((parseChunkedBody p).2.extend y) hct]
    unfold HttpParser.mass at hK
    rcases parseChunkedBody_extend y _ p rfl (hJ hc) hK with
      ⟨a1, a2, a3, a4, a5, a6⟩ | a | a
    · left; exact ⟨a1, a2, a3, a5, fun _ => a4, Or.inl a6⟩
    · right; left; exact a
    · right; right; exact a

theorem parseLoop_fuel (pool : ServerPool) (now : Nat) :
    ∀ (n m : Nat) (p : HttpParser), p.state.rank < n → p.state.rank < m →
      parseLoop pool now n p = parseLoop pool now m p := by
  intro n
  induction n with
  | zero => intro m p h; cases h
  | succ n ih =>
    intro m p hn hm
    cases m with
    | zero => cases hm
    | succ m =>
      unfold parseLoop
      cases hs : p.state with
      | REQUEST_LINE =>
        dsimp only
        have hl := parseRequestLine_shape pool now p
        rcases hx : parseRequestLine pool now p with ⟨b, p1⟩
        rw [hx] at hl
        cases b with
        | false => rfl
        | true =>
          rcases hl with ⟨-, h1⟩ | ⟨h, -⟩
          · simp only at h1 ⊢
            rw [hs] at hn hm
            simp only [ParseState.rank] at hn hm
            apply ih <;> rw [h1] <;> simp only [ParseState.rank] <;> omega
          · cases h
      | HEADERS =>
        dsimp only
        have hl := parseHeaders_shape pool now p
        rcases hx : parseHeaders pool now p with ⟨b, p1⟩
        rw [hx] at hl
        cases b with
        | false => rfl
        | true =>
          rcases hl with ⟨-, h1⟩ | ⟨h, -⟩
          · simp only at h1 ⊢
            rw [hs] at hn hm
            simp only [ParseState.rank] at hn hm
            rcases h1 with h1 | h1 <;>
              apply ih <;> rw [h1] <;> simp only [ParseState.rank] <;> omega
          · cases h
      | BODY =>
        dsimp only
        have hl := parseBody_shape p
        rcases hx : parseBody p with ⟨b, p1⟩
        rw [hx] at hl
        cases b with
        | false => rfl
        | true =>
          rcases hl with ⟨-, h1⟩ | ⟨h, -⟩
          · simp only at h1 ⊢
            rw [hs] at hn hm
            simp only [ParseState.rank] at hn hm
            apply ih <;> rw [h1] <;> simp only [ParseState.rank] <;> omega
          · cases h
      | COMPLETE => rfl
      | ERROR => rfl

theorem run_of_terminal (pool : ServerPool) (now : Nat) (p : HttpParser) :
    (p.state = ParseState.COMPLETE → run pool now p = (true, p)) ∧
    (p.state = ParseState.ERROR → run pool now p = (false, p)) := by
  constructor <;> intro h <;> simp [run, parseLoop, h]

theorem run_of_body (pool : ServerPool) (now : Nat) (p : HttpParser)
    (h : p.state = ParseState.BODY) : run pool now p = parseBody p := by
  unfold run parseLoop
  simp only [h]
  have hl := parseBody_shape p
  rcases hx : parseBody p with ⟨b, p1⟩
  rw [hx] at hl
  cases b with
  | false => rfl
  | true =>
    rcases hl with ⟨-, h1⟩ | ⟨h, -⟩
    · simp only at h1 ⊢
      simp [parseLoop, h1]
    · cases h

theorem run_of_headers (pool : ServerPool) (now : Nat) (p : HttpParser)
    (h : p.state = ParseState.HEADERS) :
    run pool now p =
      if (parseHeaders pool now p).1 = true then run pool now (parseHeaders pool now p).2
      else (false, (parseHeaders pool now p).2) := by
  unfold run
  rw [parseLoop]
  simp only [h]
  have hl := parseHeaders_shape pool now p
  rcases hx : parseHeaders pool now p with ⟨b, p1⟩
  rw [hx] at hl
  cases b with
  | false => rfl
  | true =>
    simp only [if_true]
    rcases hl with ⟨-, h1⟩ | ⟨h, -⟩
    · simp only at h1
      apply parseLoop_fuel <;>
        rcases h1 with h1 | h1 <;> rw [h1] <;> simp only [ParseState.rank] <;> omega
    · cases h

theorem run_of_requestLine (pool : ServerPool) (now : Nat) (p : HttpParser)
    (h : p.state = ParseState.REQUEST_LINE) :
    run pool now p =
      if (parseRequestLine pool now p).1 = true then
        run pool now (parseRequestLine pool now p).2
      else (false, (parseRequestLine pool now p).2) := by
  unfold run
  rw [parseLoop]
  simp only [h]
  have hl := parseRequestLine_shape pool now p
  rcases hx : parseRequestLine pool now p with ⟨b, p1⟩
  rw [hx] at hl
  cases b with
  | false => rfl
  | true =>
    simp only [if_true]
    rcases hl with ⟨-, h1⟩ | ⟨h, -⟩
    · simp only at h1
      apply parseLoop_fuel <;> rw [h1] <;> simp only [ParseState.rank] <;> omega
    · cases h

/-! ## The header phase leaves the body alone -/

theorem acceptRequestLine_bodyPart (now : Nat) (p : HttpParser) (m u v r : Str) :
    (acceptRequestLine now p m u v r).2.bodyPart = p.bodyPart ∧
      (acceptRequestLine now p m u v r).2.buffer = p.buffer := by
  unfold acceptRequestLine
  repeat' split
  all_goals simp [HttpParser.fail, HttpParser.latch, HttpParser.bodyPart]

theorem parseRequestLine_bodyPart (pool : ServerPool) (now : Nat) (p : HttpParser) :
    (parseRequestLine pool now p).2.bodyPart = p.bodyPart ∧
      (parseRequestLine pool now p).2.buffer.length ≤ p.buffer.length := by
  unfold parseRequestLine
  dsimp only
  repeat' split
  all_goals first
    | (rw [(acceptRequestLine_bodyPart _ _ _ _ _ _).1, (acceptRequestLine_bodyPart _ _ _ _ _ _).2]
       simp [HttpParser.bodyPart])
    | simp [HttpParser.fail, HttpParser.latch, HttpParser.bodyPart]

theorem storeHeader_bodyPart (pool : ServerPool) (p : HttpParser) (line : Str) :
    (storeHeader pool p line).2.bodyPart = p.bodyPart := by
  unfold storeHeader
  dsimp only
  repeat' split
  all_goals simp [HttpParser.fail, HttpParser.latch, HttpParser.bodyPart]

theorem headerLine_bodyPart (pool : ServerPool) (p : HttpParser) (n : Nat) :
    (headerLine pool p n).2.bodyPart = p.bodyPart := by
  unfold headerLine
  dsimp only
  repeat' split
  all_goals first
    | (rw [storeHeader_bodyPart]; simp [HttpParser.bodyPart])
    | simp [HttpParser.fail, HttpParser.latch, HttpParser.bodyPart]

theorem headerLine_length (pool : ServerPool) (p : HttpParser) (n : Nat) :
    (headerLine pool p n).2.buffer.length ≤ p.buffer.length := by
  unfold headerLine
  dsimp only
  repeat' split
  all_goals first
    | (rw [storeHeader_buffer]; simp)
    | simp [HttpParser.fail, HttpParser.latch]

theorem headersDone_bodyPart (now : Nat) (p : HttpParser) (s : Str) :
    (headersDone now p s).2.bodyPart = p.bodyPart ∧
      (headersDone now p s).2.buffer = p.buffer := by
  unfold headersDone
  repeat' split
  all_goals simp [HttpParser.fail, HttpParser.latch, HttpParser.bodyPart]

theorem blankLine_bodyPart (now : Nat) (p : HttpParser) :
    (blankLine now p).2.bodyPart = p.bodyPart ∧
      (blankLine now p).2.buffer.length ≤ p.buffer.length := by
  unfold blankLine
  dsimp only
  repeat' split
  all_goals first
    | (rw [(headersDone_bodyPart _ _ _).1, (headersDone_bodyPart _ _ _).2]
       simp [HttpParser.bodyPart])
    | simp [HttpParser.fail, HttpParser.latch, HttpParser.bodyPart]

theorem parseHeadersLoop_bodyPart (pool : ServerPool) (now : Nat) (fuel : Nat) :
    ∀ p : HttpParser, (parseHeadersLoop pool now fuel p).2.bodyPart = p.bodyPart ∧
      (parseHeadersLoop pool now fuel p).2.buffer.length ≤ p.buffer.length := by
  induction fuel with
  | zero => intro p; exact ⟨rfl, le_refl _⟩
  | succ n ih =>
    intro p
    unfold parseHeadersLoop
    cases hf : find p.buffer CRLF with
    | none => exact ⟨rfl, le_refl _⟩
    | some e =>
      dsimp only
      by_cases h0 : e = 0
      · simp only [h0, if_true]; exact blankLine_bodyPart now p
      · simp only [h0, if_false]
        have h1 := headerLine_bodyPart pool p e
        have h2 := headerLine_length pool p e
        rcases hx : headerLine pool p e with ⟨b, p1⟩
        rw [hx] at h1 h2
        cases b with
        | true =>
          have := ih p1
          exact ⟨this.1.trans h1, le_trans this.2 h2⟩
        | false => exact ⟨h1, h2⟩

theorem parseHeaders_bodyPart (pool : ServerPool) (now : Nat) (p : HttpParser) :
    (parseHeaders pool now p).2.bodyPart = p.bodyPart ∧
      (parseHeaders pool now p).2.buffer.length ≤ p.buffer.length :=
  parseHeadersLoop_bodyPart pool now _ p

theorem mass_le_of_bodyPart {q p : HttpParser} (h : q.bodyPart = p.bodyPart)
    (hl : q.buffer.length ≤ p.buffer.length) : q.mass ≤ p.mass := by
  simp only [HttpParser.bodyPart, Prod.mk.injEq] at h
  unfold HttpParser.mass
  rw [h.2.1]
  omega

theorem wellFormed_of_bodyPart {q p : HttpParser} (h : q.bodyPart = p.bodyPart)
    (hp : p.request.totalBodySize = 0 ∧ p.hasChunkSize = false) : WellFormed q := by
  simp only [HttpParser.bodyPart, Prod.mk.injEq] at h
  constructor
  · intro _
    rw [h.2.1, h.2.2.2]
    exact hp
  · intro _ _ hmax
    rw [h.2.1, h.2.2.2, hp.1, hp.2]
    exact ⟨Nat.zero_le _, fun hne => Bool.noConfusion hne⟩

/-! ## The loop of `parse` on a longer buffer -/

theorem head_extend (p : HttpParser) (y : Str) : (p.extend y).head = p.head := rfl

theorem Outcome.mono {pool : ServerPool} {now : Nat} {y : Str} {a b : Nat}
    {r r1 : Bool × HttpParser} (h : Outcome pool now y a r r1) (hab : a ≤ b) :
    Outcome pool now y b r r1 := by
  rcases h with ⟨a1, a2, a3, a4, a5, a6⟩ | h | h
  · exact Or.inl ⟨a1, a2, a3, a4, le_trans a5 hab, a6⟩
  · exact Or.inr (Or.inl h)
  · exact Or.inr (Or.inr h)

theorem run_extend_body (pool : ServerPool) (now : Nat) (p : HttpParser) (y : Str)
    (hs : p.state = ParseState.BODY) (hW : WellFormed p)
    (hK : p.mass + y.length + 2 ≤ ULONG_RANGE) :
    Outcome pool now y p.mass (run pool now p) (run pool now (p.extend y)) := by
  have hse : (p.extend y).state = ParseState.BODY := hs
  rw [run_of_body pool now p hs, run_of_body pool now _ hse]
  have hhd := parseBody_head p
  have hhe := parseBody_head (p.extend y)
  rcases parseBody_extend p y (hW.2 hs) hK with ⟨a1, a2, a3, a4, a5, a6⟩ | a | ⟨a1, a2, a3⟩
  · left
    have hq : ((parseBody p).2.extend y).state = ParseState.BODY := a2.trans hs
    have hqs : (parseBody p).2.state = ParseState.BODY := a2.trans hs
    have hct : (parseBody p).2.chunkedTransfer = p.chunkedTransfer := by
      simp only [HttpParser.head, Prod.mk.injEq] at hhd
      exact hhd.2.2.2.2.2.2.1
    refine ⟨a1, by rw [hqs]; decide, by rw [hqs]; decide, ?_, a4, ?_⟩
    · constructor
      · intro h; rw [hqs] at h; rcases h with h | h <;> cases h
      · intro _ hc; rw [hct] at hc; exact a5 hc
    · rw [run_of_body pool now _ hq]
      rcases a6 with a6 | ⟨b1, b2, b3, b4, b5⟩
      · exact Or.inl a6
      · right
        refine ⟨b1, b2, b3, b4, b5, ?_⟩
        rw [hhe, parseBody_head, head_extend, head_extend, hhd]
  · right; left; exact a
  · right; right
    refine ⟨a1, a2, ?_⟩
    rcases a3 with a3 | a3
    · exact Or.inl a3
    · exact Or.inr (Or.inr a3)

theorem run_extend_headers (pool : ServerPool) (now : Nat) (p : HttpParser) (y : Str)
    (hs : p.state = ParseState.HEADERS) (hW : WellFormed p)
    (hK : p.mass + y.length + 2 ≤ ULONG_RANGE) :
    Outcome pool now y p.mass (run pool now p) (run pool now (p.extend y)) := by
  have hse : (p.extend y).state = ParseState.HEADERS := hs
  rw [run_of_headers pool now p hs, run_of_headers pool now _ hse]
  have hbp := parseHeaders_bodyPart pool now p
  have hmass := mass_le_of_bodyPart hbp.1 hbp.2
  have hwf := wellFormed_of_bodyPart hbp.1 (hW.1 (Or.inr hs))
  have hsh := parseHeaders_shape pool now p
  rcases parseHeaders_extend pool now y _ p rfl with ⟨a1, a2, a3, a4⟩ | ⟨a1, a2⟩
  · left
    have hqs : (parseHeaders pool now p).2.state = ParseState.HEADERS := a3.trans hs
    have hq : ((parseHeaders pool now p).2.extend y).state = ParseState.HEADERS := hqs
    rw [a1, a4]
    simp only [Bool.false_eq_true, if_false]
    refine ⟨trivial, by rw [hqs]; decide, by rw [hqs]; decide, hwf, hmass, Or.inl ?_⟩
    rw [run_of_headers pool now _ hq]
  · rw [a1]
    cases hb : (parseHeaders pool now p).1 with
    | false =>
      right; left
      simp only [extendResult, hb, Bool.false_eq_true, if_false]
      rcases a2 with a2 | a2
      · rw [hb] at a2; cases a2
      · exact ⟨trivial, a2, trivial⟩
    | true =>
      simp only [extendResult, hb, if_true]
      rcases hsh with ⟨-, h1⟩ | ⟨h, -⟩
      · rcases h1 with h1 | h1
        · exact (run_extend_body pool now _ y h1 hwf (by omega)).mono hmass
        · right; right
          have h1e : ((parseHeaders pool now p).2.extend y).state = ParseState.COMPLETE := h1
          rw [(run_of_terminal pool now _).1 h1, (run_of_terminal pool now _).1 h1e]
          exact ⟨rfl, h1, Or.inr (Or.inl rfl)⟩
      · rw [hb] at h; cases h

theorem acceptRequestLine_false (now : Nat) (p : HttpParser) (m u v r : Str)
    (h : (acceptRequestLine now p m u v r).1 = false) :
    (acceptRequestLine now p m u v r).2.state = ParseState.ERROR := by
  unfold acceptRequestLine at h ⊢
  by_cases c1 : r.length > 0
  · simp [c1, HttpParser.fail]
  · rw [if_neg c1] at h ⊢
    cases hm : stringToMethod m with
    | none => simp [HttpParser.fail]
    | some method =>
      rw [hm] at h
      dsimp only at h ⊢
      by_cases c2 : (u = [] ∨ u.head? ≠ some '/') ∧ find u "://".toList = none
      · rw [if_pos c2]; rfl
      · rw [if_neg c2] at h ⊢
        by_cases c3 : versionRefused v = true
        · rw [if_pos c3]; rfl
        · rw [if_neg c3] at h
          cases h

theorem parseRequestLine_false (pool : ServerPool) (now : Nat) (p : HttpParser) {n : Nat}
    (hf : find p.buffer CRLF = some n) (h : (parseRequestLine pool now p).1 = false) :
    (parseRequestLine pool now p).2.state = ParseState.ERROR := by
  unfold parseRequestLine at h ⊢
  rw [hf] at h ⊢
  dsimp only at h ⊢
  repeat' split
  all_goals first
    | rfl
    | (apply acceptRequestLine_false; simp_all)

theorem run_extend_requestLine (pool : ServerPool) (now : Nat) (p : HttpParser) (y : Str)
    (hs : p.state = ParseState.REQUEST_LINE) (hW : WellFormed p)
    (hK : p.mass + y.length + 2 ≤ ULONG_RANGE) :
    Outcome pool now y p.mass (run pool now p) (run pool now (p.extend y)) := by
  have hse : (p.extend y).state = ParseState.REQUEST_LINE := hs
  have hbp := parseRequestLine_bodyPart pool now p
  have hmass := mass_le_of_bodyPart hbp.1 hbp.2
  have hwf := wellFormed_of_bodyPart hbp.1 (hW.1 (Or.inl hs))
  have hsh := parseRequestLine_shape pool now p
  cases hf : find p.buffer CRLF with
  | none =>
    have hst := parseRequestLine_stuck pool now p hf
    rw [run_of_requestLine pool now p hs, hst]
    simp only [Bool.false_eq_true, if_false]
    left
    refine ⟨rfl, by rw [hs]; decide, by rw [hs]; decide, hW, le_refl _, Or.inl ?_⟩
    rw [run_of_requestLine pool now _ hse]
  | some n =>
    rw [run_of_requestLine pool now p hs, run_of_requestLine pool now _ hse,
      parseRequestLine_extend pool now p y hf]
    cases hb : (parseRequestLine pool now p).1 with
    | false =>
      right; left
      simp only [extendResult, hb, Bool.false_eq_true, if_false]
      rcases hsh with ⟨h, -⟩ | ⟨-, h1⟩
      · rw [hb] at h; cases h
      · rcases h1 with h1 | h1
        · exact ⟨trivial, parseRequestLine_false pool now p hf hb, trivial⟩
        · exact ⟨trivial, h1, trivial⟩
    | true =>
      simp only [extendResult, hb, if_true]
      rcases hsh with ⟨-, h1⟩ | ⟨h, -⟩
      · exact (run_extend_headers pool now _ y h1 hwf (by omega)).mono hmass
      · rw [hb] at h; cases h

theorem run_extend (pool : ServerPool) (now : Nat) (p : HttpParser) (y : Str)
    (hW : WellFormed p) (hK : p.mass + y.length + 2 ≤ ULONG_RANGE) :
    Outcome pool now y p.mass (run pool now p) (run pool now (p.extend y)) := by
  cases hs : p.state with
  | REQUEST_LINE => exact run_extend_requestLine pool now p y hs hW hK
  | HEADERS => exact run_extend_headers pool now p y hs hW hK
  | BODY => exact run_extend_body pool now p y hs hW hK
  | COMPLETE =>
    have hse : (p.extend y).state = ParseState.COMPLETE := hs
    rw [(run_of_terminal pool now p).1 hs, (run_of_terminal pool now _).1 hse]
    exact Or.inr (Or.inr ⟨rfl, hs, Or.inr (Or.inl rfl)⟩)
  | ERROR =>
    have hse : (p.extend y).state = ParseState.ERROR := hs
    rw [(run_of_terminal pool now p).2 hs, (run_of_terminal pool now _).2 hse]
    exact Or.inr (Or.inl ⟨rfl, hs, rfl⟩)

theorem parse_eq_run (pool : ServerPool) (now : Nat) (p : HttpParser) (data : Str)
    (h1 : p.state ≠ ParseState.COMPLETE) (h2 : p.state ≠ ParseState.ERROR) :
    parse pool now p data = run pool now (p.extend data) := by
  unfold parse run
  rw [if_neg (by push_neg; exact ⟨h1, h2⟩)]
  rfl

theorem run_clock (pool : ServerPool) (now now1 : Nat) (p : HttpParser) :
    untimedResult (run pool now p) = untimedResult (run pool now1 p) := by
  unfold run
  rw [parseLoop_untimed, parseLoop_untimed pool now1]

theorem untimed_fields {a b : HttpParser} (h : a.untimed = b.untimed) :
    a.state = b.state ∧ a.errorCode = b.errorCode ∧ a.head = b.head ∧
      a.request = b.request ∧ a.buffer = b.buffer := by
  simp only [HttpParser.untimed, HttpParser.mk.injEq] at h
  obtain ⟨h1, h2, h3, h4, h5, h6, h7, h8, -, -, h11⟩ := h
  simp [HttpParser.head, h1, h2, h3, h4, h5, h6, h11]

theorem SameResult.of_untimed {a b : Bool × HttpParser}
    (h : untimedResult a = untimedResult b) : SameResult a b := by
  simp only [untimedResult, Prod.mk.injEq] at h
  have := untimed_fields h.2
  exact ⟨h.1, this.1, this.2.1, this.2.2.1, fun _ => h.2⟩

theorem SameResult.trans {a b c : Bool × HttpParser} (h1 : SameResult a b)
    (h2 : SameResult b c) : SameResult a c := by
  obtain ⟨a1, a2, a3, a4, a5⟩ := h1
  obtain ⟨b1, b2, b3, b4, b5⟩ := h2
  refine ⟨a1.trans b1, a2.trans b2, a3.trans b3, a4.trans b4, ?_⟩
  intro hne
  exact (a5 hne).trans (b5 (by rw [← a2]; exact hne))

theorem wellFormed_extend {p : HttpParser} (y : Str) (h : WellFormed p) :
    WellFormed (p.extend y) := h

theorem wellFormed_of_terminal {p : HttpParser}
    (h : p.state = ParseState.COMPLETE ∨ p.state = ParseState.ERROR) : WellFormed p := by
  constructor
  · intro h1; rcases h with h | h <;> rw [h] at h1 <;> rcases h1 with h1 | h1 <;> cases h1
  · intro h1; rcases h with h | h <;> rw [h] at h1 <;> cases h1

/-- Two `parse` calls against one: when the first call does not end in COMPLETE, a second
call with `y` gives the result of a single call with `x ++ y`. -/
theorem parse_parse (pool : ServerPool) (now0 now1 now2 : Nat) (p : HttpParser) (x y : Str)
    (hW : WellFormed p) (hK : p.mass + x.length + y.length + 2 ≤ ULONG_RANGE)
    (hq : (parse pool now0 p x).2.state ≠ ParseState.COMPLETE) :
    SameResult (parse pool now1 (parse pool now0 p x).2 y) (parse pool now2 p (x ++ y)) ∧
      WellFormed (parse pool now0 p x).2 ∧
      ((parse pool now0 p x).2.state ≠ ParseState.ERROR →
        (parse pool now0 p x).1 = false ∧
        (parse pool now0 p x).2.mass ≤ p.mass + x.length) := by
  by_cases ht : p.state = ParseState.COMPLETE ∨ p.state = ParseState.ERROR
  · have e : ∀ now d, parse pool now p d = (false, p) := by
      intro now d; simp [parse, ht]
    rw [e now0 x] at hq ⊢
    rw [e now1 y, e now2]
    refine ⟨SameResult.of_untimed rfl, hW, fun _ => ⟨rfl, ?_⟩⟩
    simp only; omega
  · push_neg at ht
    have hpx : parse pool now0 p x = run pool now0 (p.extend x) :=
      parse_eq_run pool now0 p x ht.1 ht.2
    have hpxy : parse pool now2 p (x ++ y) = run pool now2 ((p.extend x).extend y) := by
      rw [parse_eq_run pool now2 p (x ++ y) ht.1 ht.2]
      simp [HttpParser.extend]
    have hmx : (p.extend x).mass = p.mass + x.length := by
      simp [HttpParser.mass, HttpParser.extend]; omega
    have hout := run_extend pool now0 (p.extend x) y (wellFormed_extend x hW)
      (by rw [hmx]; omega)
    rw [hpx] at hq ⊢
    rw [hpxy]
    have hc2 := run_clock pool now0 now2 ((p.extend x).extend y)
    rcases hout with ⟨a1, a2, a3, a4, a5, a6⟩ | ⟨a1, a2, a3⟩ | ⟨a1, a2, a3⟩
    · refine ⟨?_, a4, fun _ => ⟨a1, by rw [← hmx]; exact a5⟩⟩
      rw [parse_eq_run pool now1 _ y a2 a3]
      have hc1 := run_clock pool now1 now0 ((run pool now0 (p.extend x)).2.extend y)
      rcases a6 with a6 | ⟨b1, b2, b3, b4, b5, b6⟩
      · rw [← a6] at hc1
        exact SameResult.of_untimed (hc1.trans hc2)
      · have s1 := SameResult.of_untimed hc1
        have s2 := SameResult.of_untimed hc2
        have mid : SameResult (run pool now0 ((run pool now0 (p.extend x)).2.extend y))
            (run pool now0 ((p.extend x).extend y)) :=
          ⟨b3.trans b1.symm, b4.trans b2.symm, b5.symm, b6.symm,
            fun hne => absurd b4 hne⟩
        exact (s1.trans mid).trans s2
    · refine ⟨?_, wellFormed_of_terminal (Or.inr a2), fun hne => absurd a2 hne⟩
      have e : parse pool now1 (run pool now0 (p.extend x)).2 y =
          (false, (run pool now0 (p.extend x)).2) := by simp [parse, a2]
      rw [e]
      have s2 := SameResult.of_untimed hc2
      rw [a3] at s2
      exact SameResult.trans (b := (false, (run pool now0 (p.extend x)).2.extend y))
        ⟨rfl, rfl, rfl, rfl, fun hne => absurd a2 hne⟩ s2
    · exact absurd a2 hq

/-! ## Fragments against the whole input -/

theorem parse_clock (pool : ServerPool) (now now1 : Nat) (p : HttpParser) (data : Str) :
    untimedResult (parse pool now p data) = untimedResult (parse pool now1 p data) := by
  rw [parse_untimed, parse_untimed pool now1]

theorem parse_of_error (pool : ServerPool) (now : Nat) (p : HttpParser) (data : Str)
    (h : p.state = ParseState.ERROR) : parse pool now p data = (false, p) := by
  simp [parse, h]

theorem parse_true_nonterminal (pool : ServerPool) (now : Nat) (p : HttpParser) (data : Str)
    (h : (parse pool now p data).1 = true) :
    p.state ≠ ParseState.COMPLETE ∧ p.state ≠ ParseState.ERROR := by
  unfold parse at h
  split at h
  · cases h
  · next hn => push_neg at hn; exact hn

theorem feed_cons (pool : ServerPool) (clock : Nat → Nat) (p : HttpParser) (f : Str)
    (fs : List Str) :
    feed pool clock p (f :: fs) =
      ((parse pool (clock 0) p f).1 ::
          (feed pool (fun i => clock (i + 1)) (parse pool (clock 0) p f).2 fs).1,
        (feed pool (fun i => clock (i + 1)) (parse pool (clock 0) p f).2 fs).2) := rfl

/-- Fragments fed one after the other against the whole input in one call, from any
parser that `parse` can have produced: when no call before the last ends in COMPLETE, the
last call gives the result of the single call. -/
theorem feed_sameResult (pool : ServerPool) :
    ∀ (fs : List Str) (f : Str) (clock : Nat → Nat) (now : Nat) (p : HttpParser),
      WellFormed p → p.mass + (f ++ fs.flatten).length + 2 ≤ ULONG_RANGE →
      (∀ k < fs.length,
        (feed pool clock p (f :: fs.take k)).2.state ≠ ParseState.COMPLETE) →
      SameResult (false, (feed pool clock p (f :: fs)).2)
        (false, (parse pool now p (f ++ fs.flatten)).2) := by
  intro fs
  induction fs with
  | nil =>
    intro f clock now p _ _ _
    simp only [List.flatten_nil, List.append_nil, feed_cons, feed]
    have := SameResult.of_untimed (parse_clock pool (clock 0) now p f)
    exact ⟨rfl, this.2⟩
  | cons g gs ih =>
    intro f clock now p hW hK hinc
    have hq : (parse pool (clock 0) p f).2.state ≠ ParseState.COMPLETE := by
      have := hinc 0 (by simp)
      simpa only [List.take_zero, feed_cons, feed] using this
    have hK' : p.mass + f.length + (g ++ gs.flatten).length + 2 ≤ ULONG_RANGE := by
      simp only [List.flatten_cons, List.length_append] at hK ⊢
      omega
    obtain ⟨hsame, hWq, hmass⟩ :=
      parse_parse pool (clock 0) now now p f (g ++ gs.flatten) hW hK' hq
    rw [feed_cons]
    simp only [List.flatten_cons]
    by_cases he : (parse pool (clock 0) p f).2.state = ParseState.ERROR
    · have hfe := (feed_of_error pool (g :: gs) (fun i => clock (i + 1)) _ he).1
      rw [hfe]
      have e : parse pool now (parse pool (clock 0) p f).2 (g ++ gs.flatten) =
          (false, (parse pool (clock 0) p f).2) := parse_of_error pool now _ _ he
      rw [e] at hsame
      exact ⟨rfl, hsame.2⟩
    · have hm := (hmass he).2
      have hinc' : ∀ k < gs.length,
          (feed pool (fun i => clock (i + 1)) (parse pool (clock 0) p f).2
            (g :: gs.take k)).2.state ≠ ParseState.COMPLETE := by
        intro k hk
        have := hinc (k + 1) (by simp; omega)
        rw [List.take_succ_cons, feed_cons] at this
        exact this
      have hih := ih g (fun i => clock (i + 1)) now (parse pool (clock 0) p f).2 hWq
        (by simp only [List.length_append] at hK' ⊢; omega) hinc'
      exact SameResult.trans hih ⟨rfl, hsame.2⟩

/-- Fragments that are all non-empty against a single call that returns true and empties
the buffer: every call returns false but the last, which returns true, and the parser at
the end is the one of the single call but for the time stamps. -/
theorem feed_complete (pool : ServerPool) :
    ∀ (fs : List Str) (f : Str) (clock : Nat → Nat) (now : Nat) (p : HttpParser),
      WellFormed p → p.mass + (f ++ fs.flatten).length + 2 ≤ ULONG_RANGE →
      (∀ g ∈ fs, g ≠ []) →
      (parse pool now p (f ++ fs.flatten)).1 = true →
      (parse pool now p (f ++ fs.flatten)).2.buffer = [] →
      (feed pool clock p (f :: fs)).1 = List.replicate fs.length false ++ [true] ∧
      (feed pool clock p (f :: fs)).2.untimed = (parse pool now p (f ++ fs.flatten)).2.untimed := by
  intro fs
  induction fs with
  | nil =>
    intro f clock now p _ _ _ h1 _
    simp only [List.flatten_nil, List.append_nil, feed_cons, feed] at h1 ⊢
    have := parse_clock pool (clock 0) now p f
    simp only [untimedResult, Prod.mk.injEq] at this
    simp [this.1, this.2, h1]
  | cons g gs ih =>
    intro f clock now p hW hK hne h1 h2
    have hg : g ≠ [] := hne g (by simp)
    have hy : g ++ gs.flatten ≠ [] := by simp [hg]
    simp only [List.flatten_cons] at hK h1 h2 ⊢
    have ht := parse_true_nonterminal pool now p _ h1
    have hpf : parse pool (clock 0) p f = run pool (clock 0) (p.extend f) :=
      parse_eq_run pool (clock 0) p f ht.1 ht.2
    have hwhole : parse pool now p (f ++ (g ++ gs.flatten)) =
        run pool now ((p.extend f).extend (g ++ gs.flatten)) := by
      rw [parse_eq_run pool now p _ ht.1 ht.2]
      simp [HttpParser.extend]
    have hmx : (p.extend f).mass = p.mass + f.length := by
      simp [HttpParser.mass, HttpParser.extend]; omega
    have hlen : p.mass + f.length + (g ++ gs.flatten).length + 2 ≤ ULONG_RANGE := by
      simp only [List.length_append] at hK ⊢
      omega
    have hout := run_extend pool (clock 0) (p.extend f) (g ++ gs.flatten)
      (wellFormed_extend f hW) (by rw [hmx]; exact hlen)
    have hc := run_clock pool (clock 0) now ((p.extend f).extend (g ++ gs.flatten))
    rw [← hwhole] at hc
    have hc' := hc
    simp only [untimedResult, Prod.mk.injEq] at hc'
    have hr1 : (run pool (clock 0) ((p.extend f).extend (g ++ gs.flatten))).1 = true := by
      rw [hc'.1]; exact h1
    have hr2 : (run pool (clock 0) ((p.extend f).extend (g ++ gs.flatten))).2.buffer = [] := by
      rw [(untimed_fields hc'.2).2.2.2.2]; exact h2
    rw [feed_cons, hpf]
    rcases hout with ⟨a1, a2, a3, a4, a5, a6⟩ | ⟨a1, a2, a3⟩ | ⟨a1, a2, a3⟩
    · rcases a6 with a6 | ⟨b1, -⟩
      · have hnext : untimedResult
            (parse pool now (run pool (clock 0) (p.extend f)).2 (g ++ gs.flatten)) =
            untimedResult (parse pool now p (f ++ (g ++ gs.flatten))) := by
          rw [parse_eq_run pool now _ _ a2 a3, ← hc, a6]
          exact run_clock pool now (clock 0) _
        have hn := hnext
        simp only [untimedResult, Prod.mk.injEq] at hn
        have hih := ih g (fun i => clock (i + 1)) now (run pool (clock 0) (p.extend f)).2 a4
          (by rw [hmx] at a5; simp only [List.length_append] at hlen ⊢; omega)
          (fun g' hg' => hne g' (by simp [hg']))
          (by rw [hn.1]; exact h1)
          (by rw [(untimed_fields hn.2).2.2.2.2]; exact h2)
        refine ⟨?_, hih.2.trans hn.2⟩
        rw [hih.1, a1]
        simp [List.replicate_succ]
      · rw [b1] at hr1; cases hr1
    · rw [a3] at hr1; cases hr1
    · rcases a3 with a3 | a3 | a3
      · exact absurd a3 hy
      · rw [a3] at hr2
        simp only [HttpParser.extend] at hr2
        have := List.append_eq_nil.mp hr2
        exact absurd this.2 hy
      · rw [a3.1] at hr1; cases hr1

/-! ## Claims on fragmentation -/

theorem wellFormed_create (config : ClientConfig) : WellFormed (HttpParser.create config) := by
  constructor
  · intro _; exact ⟨rfl, rfl⟩
  · intro h; cases h

theorem parse_create_nil (pool : ServerPool) (now : Nat) (config : ClientConfig) :
    parse pool now (HttpParser.create config) [] = (false, HttpParser.create config) := rfl

theorem parse_true_state (pool : ServerPool) (now : Nat) (p : HttpParser) (data : Str)
    (h : (parse pool now p data).1 = true) :
    (parse pool now p data).2.state = ParseState.COMPLETE := by
  have hn := parse_true_nonterminal pool now p data h
  unfold parse at h ⊢
  rw [if_neg (by push_neg; exact hn)] at h ⊢
  exact (parseLoop_complete pool now 4 _ (ParseState.rank_le _)).mp h

/-- C3, counterexamples: with `Content-Length: 5`, the body `ABCDE` and a further byte `F`
in a second fragment end in COMPLETE, while the same bytes in one call end in ERROR; and
the body `ABC` followed by `DEF` ends in ERROR with three body bytes stored, while the
same bytes in one call end in ERROR with none. -/
theorem fragments_differ_from_whole :
    ((feed examplePool (fun _ => 0) (HttpParser.create exampleConfig)
          [fiveByteHead ++ "ABCDE".toList, "F".toList]).2.state = ParseState.COMPLETE ∧
      (parse examplePool 0 (HttpParser.create exampleConfig)
          (fiveByteHead ++ "ABCDE".toList ++ "F".toList)).2.state = ParseState.ERROR) ∧
    ((feed examplePool (fun _ => 0) (HttpParser.create exampleConfig)
          [fiveByteHead ++ "ABC".toList, "DEF".toList]).2.request.body = "ABC".toList ∧
      (parse examplePool 0 (HttpParser.create exampleConfig)
          (fiveByteHead ++ "ABC".toList ++ "DEF".toList)).2.request.body = []) := by
  decide

/-- C3, amended: for fragments of fewer than `2 ^ 64 - 2` bytes in all, fed to a new parser
so that no call before the last ends in COMPLETE, the parser ends in the same state, with
the same status code, method, URI, version, headers and header count as after a single
call with the whole input, and, unless that state is ERROR, with the same body bytes and
`totalBodySize`. -/
theorem fragments_agree_with_whole (pool : ServerPool) (config : ClientConfig)
    (clock : Nat → Nat) (now : Nat) (fragments : List Str)
    (hlen : fragments.flatten.length + 2 ≤ ULONG_RANGE)
    (hinc : ∀ k < fragments.length,
      (feed pool clock (HttpParser.create config) (fragments.take k)).2.state ≠
        ParseState.COMPLETE) :
    (feed pool clock (HttpParser.create config) fragments).2.state =
      (parse pool now (HttpParser.create config) fragments.flatten).2.state ∧
    (feed pool clock (HttpParser.create config) fragments).2.errorCode =
      (parse pool now (HttpParser.create config) fragments.flatten).2.errorCode ∧
    (feed pool clock (HttpParser.create config) fragments).2.request.method =
      (parse pool now (HttpParser.create config) fragments.flatten).2.request.method ∧
    (feed pool clock (HttpParser.create config) fragments).2.request.uri =
      (parse pool now (HttpParser.create config) fragments.flatten).2.request.uri ∧
    (feed pool clock (HttpParser.create config) fragments).2.request.version =
      (parse pool now (HttpParser.create config) fragments.flatten).2.request.version ∧
    (feed pool clock (HttpParser.create config) fragments).2.request.headers =
      (parse pool now (HttpParser.create config) fragments.flatten).2.request.headers ∧
    (feed pool clock (HttpParser.create config) fragments).2.request.headerCount =
      (parse pool now (HttpParser.create config) fragments.flatten).2.request.headerCount ∧
    ((feed pool clock (HttpParser.create config) fragments).2.state ≠ ParseState.ERROR →
      (feed pool clock (HttpParser.create config) fragments).2.request.body =
        (parse pool now (HttpParser.create config) fragments.flatten).2.request.body ∧
      (feed pool clock (HttpParser.create config) fragments).2.request.totalBodySize =
        (parse pool now (HttpParser.create config) fragments.flatten).2.request.totalBodySize) := by
  cases fragments with
  | nil =>
    rw [List.flatten_nil, parse_create_nil]
    exact ⟨rfl, rfl, rfl, rfl, rfl, rfl, rfl, fun _ => ⟨rfl, rfl⟩⟩
  | cons f fs =>
    have hinc' : ∀ k < fs.length,
        (feed pool clock (HttpParser.create config) (f :: fs.take k)).2.state ≠
          ParseState.COMPLETE := by
      intro k hk
      have := hinc (k + 1) (by simp; omega)
      rw [List.take_succ_cons] at this
      exact this
    have hK : (HttpParser.create config).mass + (f ++ fs.flatten).length + 2 ≤
        ULONG_RANGE := by
      simp only [List.flatten_cons] at hlen
      simp only [HttpParser.mass, HttpParser.create]
      simpa using hlen
    obtain ⟨-, h2, h3, h4, h5⟩ := feed_sameResult pool fs f clock now
      (HttpParser.create config) (wellFormed_create config) hK hinc'
    simp only [List.flatten_cons]
    simp only [HttpParser.head, Prod.mk.injEq] at h4
    refine ⟨h2, h3, h4.1, h4.2.1, h4.2.2.1, h4.2.2.2.1, h4.2.2.2.2.1, ?_⟩
    intro hne
    have := (untimed_fields (h5 hne)).2.2.2.1
    simp only at this
    rw [this]
    exact ⟨rfl, rfl⟩

/-- C3, amended, on a request cut in the middle of its `Host` line. -/
theorem fragments_agree_with_whole_witness :
    (["GET /hello HTTP/1.1\r\nHo".toList, "st: x\r\n\r\n".toList] : List Str).flatten.length
        + 2 ≤ ULONG_RANGE ∧
    (feed examplePool (fun _ => 0) (HttpParser.create exampleConfig)
        ["GET /hello HTTP/1.1\r\nHo".toList, "st: x\r\n\r\n".toList]).2.state =
      (parse examplePool 0 (HttpParser.create exampleConfig)
        (["GET /hello HTTP/1.1\r\nHo".toList, "st: x\r\n\r\n".toList] : List Str).flatten).2.state :=
  ⟨by decide,
    (fragments_agree_with_whole examplePool exampleConfig (fun _ => 0) 0
      ["GET /hello HTTP/1.1\r\nHo".toList, "st: x\r\n\r\n".toList] (by decide)
      (by decide)).1⟩

/-- C4: when a single `parse` call on a new parser returns true for `bytes` and leaves the
buffer empty, then feeding `bytes` in any split into non-empty fragments (one byte per
call, for instance: `bytes.map fun c => [c]`), for `bytes` shorter than `2 ^ 64 - 2`,
returns false on every call but the last and true on the last, and ends in COMPLETE with
the same request: method, URI, version, headers, header count, body and
`totalBodySize`. -/
theorem fragments_complete_like_whole (pool : ServerPool) (config : ClientConfig)
    (clock : Nat → Nat) (now : Nat) (bytes : Str) (fragments : List Str)
    (hsplit : fragments.flatten = bytes) (hne : ∀ f ∈ fragments, f ≠ [])
    (hlen : bytes.length + 2 ≤ ULONG_RANGE)
    (htrue : (parse pool now (HttpParser.create config) bytes).1 = true)
    (hbuf : (parse pool now (HttpParser.create config) bytes).2.buffer = []) :
    (feed pool clock (HttpParser.create config) fragments).1 =
      List.replicate (fragments.length - 1) false ++ [true] ∧
    (feed pool clock (HttpParser.create config) fragments).2.state = ParseState.COMPLETE ∧
    (feed pool clock (HttpParser.create config) fragments).2.request =
      (parse pool now (HttpParser.create config) bytes).2.request := by
  subst hsplit
  cases fragments with
  | nil =>
    rw [List.flatten_nil, parse_create_nil] at htrue
    cases htrue
  | cons f fs =>
    have hK : (HttpParser.create config).mass + (f ++ fs.flatten).length + 2 ≤
        ULONG_RANGE := by
      simp only [List.flatten_cons] at hlen
      simp only [HttpParser.mass, HttpParser.create]
      simpa using hlen
    simp only [List.flatten_cons] at htrue hbuf ⊢
    obtain ⟨h1, h2⟩ := feed_complete pool fs f clock now (HttpParser.create config)
      (wellFormed_create config) hK (fun g hg => hne g (by simp [hg])) htrue hbuf
    have hf := untimed_fields h2
    refine ⟨by simpa using h1, ?_, hf.2.2.2.1⟩
    rw [hf.1]
    exact parse_true_state pool now _ _ htrue

/-- C4 on the request `GET /hello` fed one byte per call. -/
theorem fragments_complete_like_whole_witness :
    (feed examplePool (fun _ => 0) (HttpParser.create exampleConfig)
        ("GET /hello HTTP/1.1\r\nHost: x\r\n\r\n".toList.map fun c => [c])).2.state =
      ParseState.COMPLETE ∧
    (feed examplePool (fun _ => 0) (HttpParser.create exampleConfig)
        ("GET /hello HTTP/1.1\r\nHost: x\r\n\r\n".toList.map fun c => [c])).2.request =
      (parse examplePool 0 (HttpParser.create exampleConfig)
        "GET /hello HTTP/1.1\r\nHost: x\r\n\r\n".toList).2.request :=
  (fragments_complete_like_whole examplePool exampleConfig (fun _ => 0) 0
    "GET /hello HTTP/1.1\r\nHost: x\r\n\r\n".toList
    ("GET /hello HTTP/1.1\r\nHost: x\r\n\r\n".toList.map fun c => [c])
    (by decide) (by decide) (by decide) (by decide) (by decide)).2

theorem headersFind_headersSet (headers : List (Str × Str)) (k v k1 : Str) :
    headersFind (headersSet headers k v) k1 =
      if k = k1 then some v else headersFind headers k1 := by
  induction headers with
  | nil => simp [headersSet, headersFind]
  | cons e rest ih =>
    obtain ⟨a, b⟩ := e
    unfold headersSet
    by_cases h : a = k
    · subst h
      simp only [if_true, headersFind]
      by_cases h1 : a = k1 <;> simp [h1]
    · simp only [h, if_false, headersFind, ih]
      by_cases h1 : a = k1
      · have : ¬ k = k1 := by rintro rfl; exact h h1
        simp [h1, this]
      · simp [h1]

theorem headersSet_keys (headers : List (Str × Str)) (k v : Str) :
    ∀ e ∈ headersSet headers k v, e.1 = k ∨ ∃ e0 ∈ headers, e0.1 = e.1 := by
  induction headers with
  | nil => intro e he; simp [headersSet] at he; left; rw [he]
  | cons e0 rest ih =>
    obtain ⟨a, b⟩ := e0
    intro e he
    unfold headersSet at he
    by_cases h : a = k
    · simp only [h, if_true, List.mem_cons] at he
      rcases he with he | he
      · left; rw [he]
      · right; exact ⟨e, by simp [he], rfl⟩
    · simp only [h, if_false, List.mem_cons] at he
      rcases he with he | he
      · right; exact ⟨(a, b), by simp, by rw [he]⟩
      · rcases ih e he with h1 | ⟨e1, h1, h2⟩
        · exact Or.inl h1
        · right; exact ⟨e1, by simp [h1], h2⟩

theorem headersOfLines_snoc (lines : List Str) (line : Str) :
    headersOfLines (lines ++ [line]) =
      headersSet (headersOfLines lines) (lineKey line) (lineValue line) := by
  simp [headersOfLines, List.foldl_append]

theorem headersFind_headersOfLines (k : Str) (lines : List Str) :
    (headersFind (headersOfLines lines) k).isSome = true ↔ ∃ l ∈ lines, lineKey l = k := by
  induction lines using List.reverseRecOn with
  | nil => simp [headersOfLines, headersFind]
  | append_singleton lines line ih =>
    rw [headersOfLines_snoc, headersFind_headersSet]
    by_cases h : lineKey line = k
    · simp only [h, if_true, Option.isSome_some, true_iff]
      exact ⟨line, by simp, h⟩
    · simp only [h, if_false, ih]
      constructor
      · rintro ⟨l, hl, hk⟩; exact ⟨l, by simp [hl], hk⟩
      · rintro ⟨l, hl, hk⟩
        simp only [List.mem_append, List.mem_singleton] at hl
        rcases hl with hl | hl
        · exact ⟨l, hl, hk⟩
        · subst hl; exact absurd hk h

theorem headersOfLines_keys (lines : List Str) :
    ∀ e ∈ headersOfLines lines, ∃ l ∈ lines, lineKey l = e.1 := by
  induction lines using List.reverseRecOn with
  | nil => intro e he; simp [headersOfLines] at he
  | append_singleton lines line ih =>
    intro e he
    rw [headersOfLines_snoc] at he
    rcases headersSet_keys _ _ _ e he with h | ⟨e0, h0, h1⟩
    · exact ⟨line, by simp, h.symm⟩
    · obtain ⟨l, hl, hk⟩ := ih e0 h0
      exact ⟨l, by simp [hl], hk.trans h1⟩

theorem joinLines_snoc (lines : List Str) (line : Str) :
    joinLines (lines ++ [line]) = joinLines lines ++ line ++ CRLF := by
  simp [joinLines]

theorem find_crlf_split {s : Str} {n : Nat} (h : find s CRLF = some n) :
    s = s.take n ++ CRLF ++ s.drop (n + 2) ∧ IsLine (s.take n) ∧ (s.take n).length = n := by
  have h1 := find_some_split h
  have h2 := find_take h
  have hle := find_some_le h
  simp only [CRLF, List.length_cons, List.length_nil] at hle h1 h2
  have hlen : (s.take n).length = n := by simp; omega
  refine ⟨h1, ?_, hlen⟩
  unfold IsLine
  rw [hlen]
  have : List.take (n + 2) s = List.take n s ++ CRLF := by
    conv_lhs => rw [h1]
    rw [List.append_assoc, List.take_append_eq_append_take]
    simp [hlen, CRLF]
  rw [← this]
  exact h2

theorem find_colon_takeWhile (line : Str) (rest : Str)
    (h : line.dropWhile isTokenChar = ':' :: rest) :
    find line [':'] = some (line.takeWhile isTokenChar).length := by
  induction line with
  | nil => simp at h
  | cons c t ih =>
    by_cases hc : isTokenChar c = true
    · have hne : c ≠ ':' := by
        rintro rfl
        exact absurd hc (by decide)
      simp only [List.dropWhile_cons, hc, if_true] at h
      simp only [List.takeWhile_cons, hc, if_true, List.length_cons]
      unfold find
      have : List.isPrefixOf [':'] (c :: t) = false := by
        simp [List.isPrefixOf, Ne.symm hne]
      rw [this, ih h]
      rfl
    · simp only [List.dropWhile_cons, hc] at h
      simp only [Bool.false_eq_true, if_false, List.cons.injEq] at h
      simp only [List.takeWhile_cons, hc, Bool.false_eq_true, if_false, List.length_nil]
      unfold find
      simp [List.isPrefixOf, h.1]

theorem canonicalName_length (raw : Str) : (canonicalName raw).length = raw.length := by
  have aux : ∀ (s : Str) (c : Char), (upperAfterDash c s).length = s.length := by
    intro s
    induction s with
    | nil => intro c; rfl
    | cons a s ih => intro c; simp [upperAfterDash, ih]
  cases raw with
  | nil => rfl
  | cons c t => simp [canonicalName, aux]

theorem headerRegexMatch_name {line : Str} (h : headerRegexMatch line = true) :
    lineName line = line.takeWhile isTokenChar ∧ lineKey line ≠ [] ∧
      ∃ rest, line = line.takeWhile isTokenChar ++ ':' :: rest ∧ lineRawValue line = rest := by
  unfold headerRegexMatch at h
  dsimp only at h
  split at h
  · next rest hd =>
    simp only [Bool.and_eq_true, decide_eq_true_eq] at h
    have hf := find_colon_takeWhile line rest hd
    have hsplit : line = line.takeWhile isTokenChar ++ ':' :: rest := by
      conv_lhs => rw [← List.takeWhile_append_dropWhile isTokenChar line, hd]
    have hcut : ∀ name : Str, line = name ++ ':' :: rest →
        line.take name.length = name ∧ line.drop (name.length + 1) = rest := by
      intro name hn
      subst hn
      simp
    have hname : lineName line = line.takeWhile isTokenChar := by
      unfold lineName
      rw [hf]
      exact (hcut _ hsplit).1
    refine ⟨hname, ?_, rest, hsplit, ?_⟩
    · intro hk
      have := canonicalName_length (lineName line)
      unfold lineKey at hk
      rw [hk, hname] at this
      simp only [List.length_nil] at this
      exact h.1 (List.length_eq_zero.mp this.symm)
    · unfold lineRawValue
      rw [hf]
      exact (hcut _ hsplit).2
  · cases h

theorem storeHeader_eq (pool : ServerPool) (p : HttpParser) (line : Str) :
    storeHeader pool p line =
      if (lineRawValue line).any (fun c => iscntrl c && c != '\r' && c != '\n') then
        (false, p.fail)
      else if lineKey line = hostName ∧ (headersFind p.request.headers hostName).isSome then
        (false, p.fail)
      else if lineKey line = hostName ∧ lineValue line = [] then (false, p.fail)
      else if lineKey line = transferEncodingName ∧ lineValue line ≠ chunkedValue then
        (false,
          (if lineKey line = hostName then
            { p with config := pool.matchVirtualServer p.config (lineValue line) }
          else p).latch NOT_IMPLEMENTED)
      else if lineKey line ≠ [] then
        (true,
          { (if lineKey line = transferEncodingName then
              { (if lineKey line = hostName then
                  { p with config := pool.matchVirtualServer p.config (lineValue line) }
                else p) with chunkedTransfer := true }
            else
              (if lineKey line = hostName then
                { p with config := pool.matchVirtualServer p.config (lineValue line) }
              else p)) with
            request := { p.request with
              headers := headersSet p.request.headers (lineKey line) (lineValue line) } })
      else
        (true,
          (if lineKey line = transferEncodingName then
            { (if lineKey line = hostName then
                { p with config := pool.matchVirtualServer p.config (lineValue line) }
              else p) with chunkedTransfer := true }
          else
            (if lineKey line = hostName then
              { p with config := pool.matchVirtualServer p.config (lineValue line) }
            else p))) := by
  unfold storeHeader lineKey lineValue lineName lineRawValue
  dsimp only
  split_ifs <;> rfl

/-- What a header line that is stored changes. -/
theorem storeHeader_true (pool : ServerPool) (p : HttpParser) (line : Str)
    (h : (storeHeader pool p line).1 = true) (hk : lineKey line ≠ []) :
    (storeHeader pool p line).2.request =
      { p.request with
        headers := headersSet p.request.headers (lineKey line) (lineValue line) } ∧
    (storeHeader pool p line).2.state = p.state ∧
    (storeHeader pool p line).2.errorCode = p.errorCode ∧
    (storeHeader pool p line).2.contentLength = p.contentLength ∧
    ((storeHeader pool p line).2.chunkedTransfer = true ↔
      (p.chunkedTransfer = true ∨ lineKey line = transferEncodingName)) ∧
    (lineKey line = transferEncodingName → lineValue line = chunkedValue) ∧
    (lineKey line = hostName →
      headersFind p.request.headers hostName = none ∧ lineValue line ≠ []) ∧
    (lineRawValue line).any (fun c => iscntrl c && c != '\r' && c != '\n') = false := by
  rw [storeHeader_eq] at h ⊢
  by_cases c1 : (lineRawValue line).any (fun c => iscntrl c && c != '\r' && c != '\n') = true
  · rw [if_pos c1] at h; cases h
  · rw [if_neg c1] at h ⊢
    by_cases c2 : lineKey line = hostName ∧ (headersFind p.request.headers hostName).isSome
    · rw [if_pos c2] at h; cases h
    · rw [if_neg c2] at h ⊢
      by_cases c3 : lineKey line = hostName ∧ lineValue line = []
      · rw [if_pos c3] at h; cases h
      · rw [if_neg c3] at h ⊢
        by_cases c4 : lineKey line = transferEncodingName ∧ lineValue line ≠ chunkedValue
        · rw [if_pos c4] at h; cases h
        · rw [if_neg c4, if_pos hk] at h ⊢
          dsimp only
          have hne : hostName ≠ transferEncodingName := by decide
          refine ⟨?_, ?_, ?_, ?_, ?_, ?_, ?_, by simpa using c1⟩
          · by_cases hh : lineKey line = hostName <;>
              by_cases ht : lineKey line = transferEncodingName <;>
                simp [hh, ht, hne, hne.symm]
          · by_cases hh : lineKey line = hostName <;>
              by_cases ht : lineKey line = transferEncodingName <;>
                simp [hh, ht, hne, hne.symm]
          · by_cases hh : lineKey line = hostName <;>
              by_cases ht : lineKey line = transferEncodingName <;>
                simp [hh, ht, hne, hne.symm]
          · by_cases hh : lineKey line = hostName <;>
              by_cases ht : lineKey line = transferEncodingName <;>
                simp [hh, ht, hne, hne.symm]
          · by_cases hh : lineKey line = hostName <;>
              by_cases ht : lineKey line = transferEncodingName <;>
                simp [hh, ht, hne, hne.symm]
          · intro ht
            by_contra hv
            exact c4 ⟨ht, hv⟩
          · intro hh
            constructor
            · by_contra hf
              apply c2
              refine ⟨hh, ?_⟩
              cases hx : headersFind p.request.headers hostName with
              | none => exact absurd hx hf
              | some v => rfl
            · intro hv
              exact c3 ⟨hh, hv⟩

/-! ## The parser and the lines of its input -/

theorem headerLine_true (pool : ServerPool) (p : HttpParser) (n : Nat)
    (h : (headerLine pool p n).1 = true) :
    headerRegexMatch (p.buffer.take n) = true ∧
    headerLine pool p n = storeHeader pool
      { p with
        request := { p.request with headerCount := p.request.headerCount + 1 },
        buffer := p.buffer.drop (n + 2) } (p.buffer.take n) := by
  unfold headerLine at h ⊢
  dsimp only at h ⊢
  by_cases c1 : p.config.client_max_header_size > 0 ∧ n > p.config.client_max_header_size
  · rw [if_pos c1] at h; cases h
  · rw [if_neg c1] at h ⊢
    by_cases c2 : p.request.headerCount + 1 > p.config.client_max_header_count
    · rw [if_pos c2] at h; cases h
    · rw [if_neg c2] at h ⊢
      by_cases c3 : headerRegexMatch (List.take n p.buffer) = false
      · rw [if_pos c3] at h; cases h
      · rw [if_neg c3]
        exact ⟨by simpa using c3, rfl⟩

theorem headersDone_true (now : Nat) (p : HttpParser) (s : Str)
    (h : (headersDone now p s).1 = true) :
    headersFind p.request.headers hostName ≠ none ∧
    ¬ (s ≠ [] ∧ p.chunkedTransfer = true) ∧
    (headersDone now p s).2.request = p.request ∧
    (headersDone now p s).2.buffer = p.buffer ∧
    (headersDone now p s).2.chunkedTransfer = p.chunkedTransfer ∧
    (headersDone now p s).2.contentLength = p.contentLength ∧
    (((headersDone now p s).2.state = ParseState.BODY ∧
        (p.contentLength > 0 ∨ p.chunkedTransfer = true)) ∨
      ((headersDone now p s).2.state = ParseState.COMPLETE ∧
        p.contentLength = 0 ∧ p.chunkedTransfer = false)) := by
  unfold headersDone at h ⊢
  by_cases c1 : headersFind p.request.headers hostName = none
  · rw [if_pos c1] at h; cases h
  · rw [if_neg c1] at h ⊢
    by_cases c2 : s ≠ [] ∧ p.chunkedTransfer = true
    · rw [if_pos c2] at h; cases h
    · rw [if_neg c2] at h ⊢
      by_cases c3 : p.contentLength > 0 ∨ p.chunkedTransfer = true
      · rw [if_pos c3]
        exact ⟨c1, c2, rfl, rfl, rfl, rfl, Or.inl ⟨rfl, c3⟩⟩
      · rw [if_neg c3]
        push_neg at c3
        refine ⟨c1, c2, rfl, rfl, rfl, rfl, Or.inr ⟨rfl, by omega, ?_⟩⟩
        cases hc : p.chunkedTransfer with
        | false => rfl
        | true => exact absurd hc c3.2

theorem blankLine_true (now : Nat) (p : HttpParser) (h : (blankLine now p).1 = true)
    (h0 : p.contentLength = 0) :
    headersFind p.request.headers hostName ≠ none ∧
    ¬ (p.request.getHeader contentLengthName ≠ [] ∧ p.chunkedTransfer = true) ∧
    (blankLine now p).2.request = p.request ∧
    (blankLine now p).2.buffer = p.buffer.drop 2 ∧
    (blankLine now p).2.chunkedTransfer = p.chunkedTransfer ∧
    LengthFact (blankLine now p).2 ∧
    (((blankLine now p).2.state = ParseState.BODY ∧
        ((blankLine now p).2.contentLength > 0 ∨ p.chunkedTransfer = true)) ∨
      ((blankLine now p).2.state = ParseState.COMPLETE ∧
        (blankLine now p).2.contentLength = 0 ∧ p.chunkedTransfer = false)) := by
  unfold blankLine at h ⊢
  dsimp only at h ⊢
  by_cases c1 : p.request.getHeader contentLengthName ≠ []
  · rw [if_pos c1] at h ⊢
    by_cases c2 : (p.request.getHeader contentLengthName).head? = some '-'
    · rw [if_pos c2] at h; cases h
    · rw [if_neg c2] at h ⊢
      cases hs : stoul (p.request.getHeader contentLengthName) 10 with
      | none => rw [hs] at h; cases h
      | some n =>
        rw [hs] at h
        dsimp only at h ⊢
        obtain ⟨a1, a2, a3, a4, a5, a6, a7⟩ := headersDone_true now _ _ h
        refine ⟨a1, a2, a3, a4, a5, ?_, ?_⟩
        · unfold LengthFact
          rw [a3, a6]
          exact ⟨fun he => absurd he c1, fun _ => hs⟩
        · rw [a6]; exact a7
  · rw [if_neg c1] at h ⊢
    obtain ⟨a1, a2, a3, a4, a5, a6, a7⟩ := headersDone_true now _ _ h
    refine ⟨a1, a2, a3, a4, a5, ?_, ?_⟩
    · unfold LengthFact
      rw [a3, a6]
      exact ⟨fun _ => h0, fun he => absurd he c1⟩
    · rw [a6]; exact a7

theorem HeadFacts.of_eq {p q : HttpParser} {lines : List Str} (h : HeadFacts p lines)
    (hr : q.request.headers = p.request.headers)
    (hn : q.request.headerCount = p.request.headerCount)
    (hc : q.chunkedTransfer = p.chunkedTransfer) : HeadFacts q lines :=
  { headers := hr.trans h.headers
    count := hn.trans h.count
    lines_ok := h.lines_ok
    host_once := h.host_once
    host_value := h.host_value
    chunked := by rw [hc]; exact h.chunked
    encoding := h.encoding }

theorem headerLine_inHeaders (pool : ServerPool) (input : Str) (p : HttpParser) (n : Nat)
    (hf : find p.buffer CRLF = some n) (h0 : n ≠ 0) (hT : InHeaders input p)
    (ht : (headerLine pool p n).1 = true) : InHeaders input (headerLine pool p n).2 := by
  obtain ⟨requestLine, lines, hin, h1, h2, hF, he, hb, htot, hcl, hh⟩ := hT
  obtain ⟨hre, heq⟩ := headerLine_true pool p n ht
  obtain ⟨hsplit, hline, hlen⟩ := find_crlf_split hf
  have hne : p.buffer.take n ≠ [] := by
    intro hnil
    rw [hnil] at hlen
    exact h0 hlen.symm
  obtain ⟨-, hkey, -⟩ := headerRegexMatch_name hre
  have hbp := headerLine_bodyPart pool p n
  simp only [HttpParser.bodyPart, Prod.mk.injEq] at hbp
  rw [heq] at ht hbp ⊢
  obtain ⟨s1, s2, s3, s4, s5, s6, s7, -⟩ := storeHeader_true pool _ _ ht hkey
  have sb := storeHeader_buffer pool
    { p with
      request := { p.request with headerCount := p.request.headerCount + 1 },
      buffer := p.buffer.drop (n + 2) } (p.buffer.take n)
  simp only at s1 s2 s3 s4 s5 s7 sb
  refine ⟨requestLine, lines ++ [p.buffer.take n], ?_, h1, h2, ?_, ?_, ?_, ?_, ?_, ?_⟩
  · rw [sb, joinLines_snoc, hin]
    conv_lhs => rw [hsplit]
    simp only [List.append_assoc]
  · constructor
    · rw [s1, headersOfLines_snoc, ← hF.headers]
    · rw [s1]; simp [hF.count]
    · intro l hl
      simp only [List.mem_append, List.mem_singleton] at hl
      rcases hl with hl | hl
      · exact hF.lines_ok l hl
      · subst hl; exact ⟨hline, hne, hre⟩
    · rw [List.filter_append]
      by_cases hk : lineKey (p.buffer.take n) = hostName
      · have hnone := (s7 hk).1
        have hno : ∀ l ∈ lines, ¬ lineKey l = hostName := by
          intro l hl hkl
          have := (headersFind_headersOfLines hostName lines).mpr ⟨l, hl, hkl⟩
          rw [← hF.headers, hnone] at this
          cases this
        have : lines.filter (fun l => decide (lineKey l = hostName)) = [] := by
          rw [List.filter_eq_nil_iff]
          intro l hl
          simpa using hno l hl
        rw [this]
        simp [hk]
      · have := hF.host_once
        simp [hk, this]
    · intro l hl hk
      simp only [List.mem_append, List.mem_singleton] at hl
      rcases hl with hl | hl
      · exact hF.host_value l hl hk
      · subst hl; exact (s7 hk).2
    · rw [s5]
      constructor
      · rintro (hc | hc)
        · obtain ⟨l, hl, hk⟩ := hF.chunked.mp hc
          exact ⟨l, by simp [hl], hk⟩
        · exact ⟨_, by simp, hc⟩
      · rintro ⟨l, hl, hk⟩
        simp only [List.mem_append, List.mem_singleton] at hl
        rcases hl with hl | hl
        · exact Or.inl (hF.chunked.mpr ⟨l, hl, hk⟩)
        · subst hl; exact Or.inr hk
    · intro l hl hk
      simp only [List.mem_append, List.mem_singleton] at hl
      rcases hl with hl | hl
      · exact hF.encoding l hl hk
      · subst hl; exact s6 hk
  · rw [s3]; exact he
  · rw [hbp.1]; exact hb
  · rw [hbp.2.1]; exact htot
  · rw [s4]; exact hcl
  · rw [hbp.2.2.2]; exact hh

theorem blankLine_pastHeaders (now : Nat) (input : Str) (p : HttpParser)
    (hf : find p.buffer CRLF = some 0) (hT : InHeaders input p)
    (ht : (blankLine now p).1 = true) :
    PastHeaders input (blankLine now p).2 ∧
      ((blankLine now p).2.state = ParseState.BODY ∨
        (blankLine now p).2.state = ParseState.COMPLETE) := by
  obtain ⟨requestLine, lines, hin, h1, h2, hF, he, hb, htot, hcl, hh⟩ := hT
  obtain ⟨a1, a2, a3, a4, a5, a6, a7⟩ := blankLine_true now p ht hcl
  obtain ⟨hsplit, -, -⟩ := find_crlf_split hf
  simp only [List.take_zero, List.nil_append, Nat.zero_add] at hsplit
  have hF' : HeadFacts (blankLine now p).2 lines :=
    hF.of_eq (by rw [a3]) (by rw [a3]) a5
  have hhost : (lines.filter (fun l => decide (lineKey l = hostName))).length = 1 := by
    have hsome : (headersFind (headersOfLines lines) hostName).isSome = true := by
      rw [← hF.headers]
      cases hx : headersFind p.request.headers hostName with
      | none => exact absurd hx a1
      | some v => rfl
    obtain ⟨l, hl, hk⟩ := (headersFind_headersOfLines hostName lines).mp hsome
    have hmem : l ∈ lines.filter (fun l => decide (lineKey l = hostName)) := by
      simp [List.mem_filter, hl, hk]
    have hpos := List.length_pos_of_mem hmem
    have := hF.host_once
    omega
  refine ⟨⟨requestLine, lines, p.buffer.drop 2, ?_, h1, h2, hF', hhost, a6, ?_, ?_⟩, ?_⟩
  · rw [hin]
    conv_lhs => rw [hsplit]
    simp only [List.append_assoc]
  · rw [a3, a5]; exact a2
  · intro hc
    rw [a5] at hc
    rw [a3, a4, hb, htot]
    constructor
    · intro hs
      rcases a7 with ⟨-, h7⟩ | ⟨h7, -⟩
      · rcases h7 with h7 | h7
        · exact ⟨by simp, rfl, h7⟩
        · rw [hc] at h7; cases h7
      · rw [hs] at h7; cases h7
    · intro hs
      rcases a7 with ⟨h7, -⟩ | ⟨-, h7, -⟩
      · rw [hs] at h7; cases h7
      · rw [h7]; simp
  · rcases a7 with ⟨h7, -⟩ | ⟨h7, -⟩
    · exact Or.inl h7
    · exact Or.inr h7

theorem trace_of_error {input : Str} {p : HttpParser} (h : p.state = ParseState.ERROR) :
    Trace input p := by
  simp [Trace, h]

theorem parseHeaders_trace (pool : ServerPool) (now : Nat) (input : Str) :
    ∀ (k : Nat) (p : HttpParser), p.buffer.length = k → p.state = ParseState.HEADERS →
      InHeaders input p → Trace input (parseHeaders pool now p).2 := by
  intro k
  induction k using Nat.strong_induction_on with
  | _ k ih =>
    intro p hk hs hT
    rw [parseHeaders_eq pool now p]
    cases hf : find p.buffer CRLF with
    | none => simp only [Trace, hs]; exact hT
    | some n =>
      dsimp only
      by_cases h0 : n = 0
      · subst h0
        simp only [if_true]
        cases hb : (blankLine now p).1 with
        | false => exact trace_of_error (blankLine_false now p hb)
        | true =>
          obtain ⟨hP, hst⟩ := blankLine_pastHeaders now input p hf hT hb
          rcases hst with hst | hst <;> simp only [Trace, hst] <;> exact hP
      · simp only [h0, if_false]
        have hin := headerLine_inHeaders pool input p n hf h0 hT
        have hfal := headerLine_false pool p n
        have hsta := headerLine_state pool p n
        have hbuf := headerLine_buffer pool p n
        rcases hx : headerLine pool p n with ⟨b, p1⟩
        rw [hx] at hin hfal hsta hbuf
        cases b with
        | false => exact trace_of_error (hfal rfl)
        | true =>
          simp only
          have hst : p1.state = ParseState.HEADERS := by
            rcases hsta with ⟨-, h⟩ | ⟨h, -⟩
            · exact h.trans hs
            · cases h
          have hle := find_some_le hf
          simp only [CRLF, List.length_cons, List.length_nil] at hle
          have hlen : p1.buffer.length < k := by
            have := hbuf rfl
            simp only at this
            rw [this, List.length_drop]
            omega
          exact ih _ hlen p1 rfl hst (hin rfl)

theorem acceptRequestLine_true (now : Nat) (p : HttpParser) (m u v r : Str)
    (h : (acceptRequestLine now p m u v r).1 = true) :
    (acceptRequestLine now p m u v r).2.state = ParseState.HEADERS ∧
    (acceptRequestLine now p m u v r).2.request.headers = p.request.headers ∧
    (acceptRequestLine now p m u v r).2.request.headerCount = p.request.headerCount ∧
    (acceptRequestLine now p m u v r).2.errorCode = p.errorCode ∧
    (acceptRequestLine now p m u v r).2.contentLength = p.contentLength ∧
    (acceptRequestLine now p m u v r).2.chunkedTransfer = p.chunkedTransfer ∧
    (acceptRequestLine now p m u v r).2.buffer = p.buffer := by
  unfold acceptRequestLine at h ⊢
  by_cases c1 : r.length > 0
  · rw [if_pos c1] at h; cases h
  · rw [if_neg c1] at h ⊢
    cases hm : stringToMethod m with
    | none => rw [hm] at h; cases h
    | some method =>
      rw [hm] at h
      dsimp only at h ⊢
      by_cases c2 : (u = [] ∨ u.head? ≠ some '/') ∧ find u "://".toList = none
      · rw [if_pos c2] at h; cases h
      · rw [if_neg c2] at h ⊢
        by_cases c3 : versionRefused v = true
        · rw [if_pos c3] at h; cases h
        · rw [if_neg c3]
          exact ⟨rfl, rfl, rfl, rfl, rfl, rfl, rfl⟩

theorem parseRequestLine_true (pool : ServerPool) (now : Nat) (p : HttpParser) {n : Nat}
    (hf : find p.buffer CRLF = some n) (h : (parseRequestLine pool now p).1 = true) :
    p.buffer.take n ≠ [] ∧
    (parseRequestLine pool now p).2.state = ParseState.HEADERS ∧
    (parseRequestLine pool now p).2.request.headers = p.request.headers ∧
    (parseRequestLine pool now p).2.request.headerCount = p.request.headerCount ∧
    (parseRequestLine pool now p).2.errorCode = p.errorCode ∧
    (parseRequestLine pool now p).2.contentLength = p.contentLength ∧
    (parseRequestLine pool now p).2.chunkedTransfer = p.chunkedTransfer ∧
    (parseRequestLine pool now p).2.buffer = p.buffer.drop (n + 2) := by
  unfold parseRequestLine at h ⊢
  rw [hf] at h ⊢
  dsimp only at h ⊢
  by_cases c1 : n > pool.max_request_line_size
  · rw [if_pos c1] at h; cases h
  · rw [if_neg c1] at h ⊢
    by_cases c2 : List.take n p.buffer = [] ∨ isspace ((List.take n p.buffer).headD ' ') = true
    · rw [if_pos c2] at h; cases h
    · rw [if_neg c2] at h ⊢
      push_neg at c2
      cases h1 : extractToken (List.take n p.buffer) with
      | none => rw [h1] at h; cases h
      | some t1 =>
        obtain ⟨methodStr, r1⟩ := t1
        rw [h1] at h
        dsimp only at h ⊢
        cases h2 : extractToken r1 with
        | none => rw [h2] at h; cases h
        | some t2 =>
          obtain ⟨uri, r2⟩ := t2
          rw [h2] at h
          dsimp only at h ⊢
          cases h3 : extractToken r2 with
          | none => rw [h3] at h; cases h
          | some t3 =>
            obtain ⟨version, r3⟩ := t3
            rw [h3] at h
            dsimp only at h ⊢
            obtain ⟨a1, a2, a3, a4, a5, a6, a7⟩ := acceptRequestLine_true now _ _ _ _ _ h
            exact ⟨c2.1, a1, a2, a3, a4, a5, a6, a7⟩

theorem parseRequestLine_trace (pool : ServerPool) (now : Nat) (input : Str)
    (p : HttpParser) (hs : p.state = ParseState.REQUEST_LINE) (hT : Trace input p) :
    Trace input (parseRequestLine pool now p).2 := by
  simp only [Trace, hs] at hT
  obtain ⟨hbuf, hreq, hcl, hct, hec, hh⟩ := hT
  cases hf : find p.buffer CRLF with
  | none =>
    rw [parseRequestLine_stuck pool now p hf]
    simp only [Trace, hs]
    exact ⟨hbuf, hreq, hcl, hct, hec, hh⟩
  | some n =>
    cases hb : (parseRequestLine pool now p).1 with
    | false => exact trace_of_error (parseRequestLine_false pool now p hf hb)
    | true =>
      obtain ⟨a0, a1, a2, a3, a4, a5, a6, a7⟩ := parseRequestLine_true pool now p hf hb
      obtain ⟨hsplit, hline, -⟩ := find_crlf_split hf
      have hbp := (parseRequestLine_bodyPart pool now p).1
      simp only [HttpParser.bodyPart, Prod.mk.injEq] at hbp
      simp only [Trace, a1]
      refine ⟨p.buffer.take n, [], ?_, hline, a0, ?_, ?_, ?_, ?_, ?_, ?_⟩
      · rw [a7, ← hbuf]
        conv_lhs => rw [hsplit]
        simp [joinLines]
      · constructor
        · rw [a2, hreq]; rfl
        · rw [a3, hreq]; rfl
        · intro l hl; cases hl
        · simp
        · intro l hl; cases hl
        · rw [a6, hct]
          constructor
          · intro h; cases h
          · rintro ⟨l, hl, -⟩; cases hl
        · intro l hl; cases hl
      · rw [a4]; exact hec
      · rw [hbp.1, hreq]
      · rw [hbp.2.1, hreq]
      · rw [a5]; exact hcl
      · rw [hbp.2.2.2]; exact hh

theorem LengthFact.of_head {p q : HttpParser} (h : LengthFact p) (hq : q.head = p.head) :
    LengthFact q := by
  simp only [HttpParser.head, Prod.mk.injEq] at hq
  unfold LengthFact HttpRequest.getHeader at *
  rw [hq.2.2.2.1, hq.2.2.2.2.2.1]
  exact h

theorem parseBody_trace (input : Str) (p : HttpParser) (hs : p.state = ParseState.BODY)
    (hT : PastHeaders input p) : Trace input (parseBody p).2 := by
  obtain ⟨requestLine, lines, rest, hin, h1, h2, hF, hhost, hL, hnot, hid⟩ := hT
  have hhd := parseBody_head p
  have hhd' := hhd
  simp only [HttpParser.head, Prod.mk.injEq] at hhd'
  have hF' : HeadFacts (parseBody p).2 lines :=
    hF.of_eq hhd'.2.2.2.1 hhd'.2.2.2.2.1 hhd'.2.2.2.2.2.2.1
  have hL' : LengthFact (parseBody p).2 := hL.of_head hhd
  have hnot' : ¬ ((parseBody p).2.request.getHeader contentLengthName ≠ [] ∧
      (parseBody p).2.chunkedTransfer = true) := by
    unfold HttpRequest.getHeader at hnot ⊢
    rw [hhd'.2.2.2.1, hhd'.2.2.2.2.2.2.1]
    exact hnot
  have hshape := parseBody_shape p
  have key : ((parseBody p).2.chunkedTransfer = false →
      ((parseBody p).2.state = ParseState.BODY →
        (parseBody p).2.request.body ++ (parseBody p).2.buffer = rest ∧
        (parseBody p).2.request.totalBodySize = (parseBody p).2.request.body.length ∧
        0 < (parseBody p).2.contentLength) ∧
      ((parseBody p).2.state = ParseState.COMPLETE →
        (parseBody p).2.request.body = rest.take (parseBody p).2.contentLength ∧
        (parseBody p).2.request.totalBodySize = (parseBody p).2.contentLength ∧
        (parseBody p).2.contentLength ≤ rest.length)) := by
    intro hc
    rw [hhd'.2.2.2.2.2.2.1] at hc
    obtain ⟨hb1, hb2, hb3⟩ := (hid hc).1 hs
    by_cases c1 : p.config.client_max_body_size > 0 ∧
        p.contentLength > p.config.client_max_body_size
    · have : (parseBody p).2.state = ParseState.ERROR := by
        simp [parseBody, HttpParser.latch, hc, c1]
      rw [this]
      exact ⟨fun h => ParseState.noConfusion h, fun h => ParseState.noConfusion h⟩
    · by_cases c2 : p.request.totalBodySize + p.buffer.length > p.contentLength
      · have : (parseBody p).2.state = ParseState.ERROR := by
          simp [parseBody, HttpParser.fail, hc, c1, c2]
        rw [this]
        exact ⟨fun h => ParseState.noConfusion h, fun h => ParseState.noConfusion h⟩
      · have hg : ¬ (p.config.client_max_body_size > 0 ∧
            p.request.totalBodySize > p.config.client_max_body_size) := by
          rintro ⟨g1, g2⟩
          apply c1
          exact ⟨g1, by omega⟩
        by_cases c3 : p.request.totalBodySize + p.buffer.length ≥ p.contentLength
        · have hr : parseBody p = (true,
              { p with
                request := { p.request with
                  totalBodySize := p.request.totalBodySize + p.buffer.length,
                  body := p.request.body ++ p.buffer },
                buffer := [], state := ParseState.COMPLETE }) := by
            simp [parseBody, appendToBody, hc, c1, c2, c3, hg]
          rw [hr]
          refine ⟨fun h => ParseState.noConfusion h, fun _ => ?_⟩
          show p.request.body ++ p.buffer = rest.take p.contentLength ∧
            p.request.totalBodySize + p.buffer.length = p.contentLength ∧
            p.contentLength ≤ rest.length
          have hlen : rest.length = p.contentLength := by
            rw [← hb1, List.length_append, ← hb2]; omega
          refine ⟨?_, by omega, by omega⟩
          rw [hb1, ← hlen, List.take_length]
        · have hr : parseBody p = (false,
              { p with
                request := { p.request with
                  totalBodySize := p.request.totalBodySize + p.buffer.length,
                  body := p.request.body ++ p.buffer },
                buffer := [] }) := by
            simp [parseBody, appendToBody, hc, c1, c2, c3, hg]
          rw [hr]
          refine ⟨fun _ => ?_, fun h => ?_⟩
          · show p.request.body ++ p.buffer ++ [] = rest ∧
              p.request.totalBodySize + p.buffer.length = (p.request.body ++ p.buffer).length ∧
              0 < p.contentLength
            simp only [List.append_nil, List.length_append]
            exact ⟨hb1, by omega, hb3⟩
          · have h' : p.state = ParseState.COMPLETE := h
            rw [hs] at h'; cases h'
  have hP : PastHeaders input (parseBody p).2 :=
    ⟨requestLine, lines, rest, hin, h1, h2, hF', hhost, hL', hnot', key⟩
  rcases hshape with ⟨-, hst⟩ | ⟨-, hst | hst⟩
  · simp only [Trace, hst]; exact hP
  · rw [hs] at hst
    simp only [Trace, hst]; exact hP
  · exact trace_of_error hst

theorem run_trace_body (pool : ServerPool) (now : Nat) (input : Str) (p : HttpParser)
    (hs : p.state = ParseState.BODY) (hT : Trace input p) :
    Trace input (run pool now p).2 := by
  rw [run_of_body pool now p hs]
  simp only [Trace, hs] at hT
  exact parseBody_trace input p hs hT

theorem run_trace_headers (pool : ServerPool) (now : Nat) (input : Str) (p : HttpParser)
    (hs : p.state = ParseState.HEADERS) (hT : Trace input p) :
    Trace input (run pool now p).2 := by
  rw [run_of_headers pool now p hs]
  simp only [Trace, hs] at hT
  have h1 := parseHeaders_trace pool now input _ p rfl hs hT
  have hsh := parseHeaders_shape pool now p
  cases hb : (parseHeaders pool now p).1 with
  | false => simp only [Bool.false_eq_true, if_false]; exact h1
  | true =>
    simp only [if_true]
    rcases hsh with ⟨-, hst⟩ | ⟨h, -⟩
    · rcases hst with hst | hst
      · exact run_trace_body pool now input _ hst h1
      · rw [(run_of_terminal pool now _).1 hst]; exact h1
    · rw [hb] at h; cases h

theorem run_trace (pool : ServerPool) (now : Nat) (input : Str) (p : HttpParser)
    (hT : Trace input p) : Trace input (run pool now p).2 := by
  cases hs : p.state with
  | REQUEST_LINE =>
    rw [run_of_requestLine pool now p hs]
    have h1 := parseRequestLine_trace pool now input p hs hT
    have hsh := parseRequestLine_shape pool now p
    cases hb : (parseRequestLine pool now p).1 with
    | false => simp only [Bool.false_eq_true, if_false]; exact h1
    | true =>
      simp only [if_true]
      rcases hsh with ⟨-, hst⟩ | ⟨h, -⟩
      · exact run_trace_headers pool now input _ hst h1
      · rw [hb] at h; cases h
  | HEADERS => exact run_trace_headers pool now input p hs hT
  | BODY => exact run_trace_body pool now input p hs hT
  | COMPLETE => rw [(run_of_terminal pool now p).1 hs]; exact hT
  | ERROR => rw [(run_of_terminal pool now p).2 hs]; exact hT

theorem pastHeaders_more {input : Str} {p : HttpParser} (data : Str)
    (h : PastHeaders input p) (hs : p.state ≠ ParseState.BODY) :
    PastHeaders (input ++ data) p := by
  obtain ⟨requestLine, lines, rest, hin, h1, h2, hF, hhost, hL, hnot, hid⟩ := h
  refine ⟨requestLine, lines, rest ++ data, ?_, h1, h2, hF, hhost, hL, hnot, ?_⟩
  · rw [hin]; simp only [List.append_assoc]
  · intro hc
    refine ⟨fun hb => absurd hb hs, fun hcomp => ?_⟩
    obtain ⟨a1, a2, a3⟩ := (hid hc).2 hcomp
    refine ⟨?_, a2, by rw [List.length_append]; omega⟩
    rw [List.take_append_of_le_length a3]
    exact a1

theorem trace_extend {input : Str} {p : HttpParser} (data : Str) (h : Trace input p)
    (h1 : p.state ≠ ParseState.COMPLETE) (h2 : p.state ≠ ParseState.ERROR) :
    Trace (input ++ data) (p.extend data) := by
  cases hs : p.state with
  | REQUEST_LINE =>
    have hse : (p.extend data).state = ParseState.REQUEST_LINE := hs
    simp only [Trace, hs] at h
    simp only [Trace, hse]
    exact ⟨by simp [HttpParser.extend, h.1], h.2⟩
  | HEADERS =>
    have hse : (p.extend data).state = ParseState.HEADERS := hs
    simp only [Trace, hs] at h
    simp only [Trace, hse]
    obtain ⟨requestLine, lines, hin, a1, a2, hF, a3, a4, a5, a6, a7⟩ := h
    refine ⟨requestLine, lines, ?_, a1, a2, hF.of_eq rfl rfl rfl, a3, a4, a5, a6, a7⟩
    rw [hin]; simp only [HttpParser.extend, List.append_assoc]
  | BODY =>
    have hse : (p.extend data).state = ParseState.BODY := hs
    simp only [Trace, hs] at h
    simp only [Trace, hse]
    obtain ⟨requestLine, lines, rest, hin, a1, a2, hF, hhost, hL, hnot, hid⟩ := h
    refine ⟨requestLine, lines, rest ++ data, ?_, a1, a2, hF.of_eq rfl rfl rfl, hhost, hL,
      hnot, ?_⟩
    · rw [hin]; simp only [List.append_assoc]
    · intro hc
      refine ⟨fun _ => ?_, fun hcomp => ?_⟩
      · obtain ⟨b1, b2, b3⟩ := (hid hc).1 hs
        refine ⟨?_, b2, b3⟩
        show p.request.body ++ (p.buffer ++ data) = rest ++ data
        rw [← List.append_assoc, b1]
      · rw [hse] at hcomp; cases hcomp
  | COMPLETE => exact absurd hs h1
  | ERROR => exact absurd hs h2

theorem parse_trace (pool : ServerPool) (now : Nat) (input data : Str) (p : HttpParser)
    (hT : Trace input p) : Trace (input ++ data) (parse pool now p data).2 := by
  by_cases ht : p.state = ParseState.COMPLETE ∨ p.state = ParseState.ERROR
  · have e : parse pool now p data = (false, p) := by simp [parse, ht]
    rw [e]
    rcases ht with ht | ht
    · simp only [Trace, ht] at hT ⊢
      exact pastHeaders_more data hT (by rw [ht]; decide)
    · exact trace_of_error ht
  · push_neg at ht
    rw [parse_eq_run pool now p data ht.1 ht.2]
    exact run_trace pool now _ _ (trace_extend data hT ht.1 ht.2)

theorem feed_trace (pool : ServerPool) :
    ∀ (fragments : List Str) (clock : Nat → Nat) (input : Str) (p : HttpParser),
      Trace input p → Trace (input ++ fragments.flatten) (feed pool clock p fragments).2 := by
  intro fragments
  induction fragments with
  | nil => intro clock input p h; simpa [feed] using h
  | cons f fs ih =>
    intro clock input p h
    rw [feed_cons, List.flatten_cons, ← List.append_assoc]
    exact ih _ _ _ (parse_trace pool (clock 0) input f p h)

theorem trace_create (config : ClientConfig) : Trace [] (HttpParser.create config) := by
  exact ⟨rfl, rfl, rfl, rfl, rfl, rfl⟩

/-- Every parser that a sequence of `parse` calls produces from a new one knows its input. -/
theorem trace_of_feed (pool : ServerPool) (config : ClientConfig) (clock : Nat → Nat)
    (fragments : List Str) :
    Trace fragments.flatten (feed pool clock (HttpParser.create config) fragments).2 := by
  have := feed_trace pool fragments clock [] (HttpParser.create config) (trace_create config)
  simpa using this

/-! ## Canonical header names -/

theorem toNat_ofNat_small (n : Nat) (h : n < 55296) : (Char.ofNat n).toNat = n := by
  unfold Char.ofNat
  rw [dif_pos (Or.inl h)]
  rfl

theorem tolower_not_upper (c : Char) : isUpperLetter (tolower c) = false := by
  unfold tolower isUpperLetter
  split
  · next h =>
    rw [toNat_ofNat_small _ (by omega)]
    simp; omega
  · next h => simp; omega

theorem toupper_not_lower (c : Char) : isLowerLetter (toupper c) = false := by
  unfold toupper isLowerLetter
  split
  · next h =>
    rw [toNat_ofNat_small _ (by omega)]
    simp; omega
  · next h => simp; omega

theorem toupper_of_not_lower {c : Char} (h : isLowerLetter c = false) : toupper c = c := by
  unfold toupper
  unfold isLowerLetter at h
  simp at h
  rw [if_neg (by omega)]

theorem tolower_of_not_upper {c : Char} (h : isUpperLetter c = false) : tolower c = c := by
  unfold tolower
  unfold isUpperLetter at h
  simp at h
  rw [if_neg (by omega)]

theorem toupper_not_upper_of {c : Char} (h : isLowerLetter c = false)
    (h1 : isUpperLetter c = false) : isUpperLetter (toupper c) = false := by
  rw [toupper_of_not_lower h]; exact h1

theorem tolower_toupper {c : Char} (h : isUpperLetter c = false) :
    tolower (toupper c) = c := by
  unfold toupper
  split
  · next hl =>
    unfold tolower
    rw [toNat_ofNat_small _ (by omega)]
    rw [if_pos (by omega)]
    have : c.toNat - 32 + 32 = c.toNat := by omega
    rw [this, Char.ofNat_toNat]
  · exact tolower_of_not_upper h

theorem toupper_ne_dash_iff (c : Char) : toupper c = '-' ↔ c = '-' := by
  unfold toupper
  split
  · next h =>
    constructor
    · intro he
      have := congrArg Char.toNat he
      rw [toNat_ofNat_small _ (by omega)] at this
      have h45 : ('-' : Char).toNat = 45 := by decide
      omega
    · rintro rfl
      have h45 : ('-' : Char).toNat = 45 := by decide
      omega
  · exact Iff.rfl

theorem canonicalAfter_upperAfterDash (s : Str) :
    ∀ previous : Char, (∀ c ∈ s, isUpperLetter c = false) →
      canonicalAfter previous (upperAfterDash previous s) = true := by
  induction s with
  | nil => intro _ _; rfl
  | cons c rest ih =>
    intro previous hs
    have hc := hs c (by simp)
    unfold upperAfterDash canonicalAfter
    by_cases hp : previous = '-'
    · simp only [hp, if_true, Bool.and_eq_true, Bool.not_eq_true']
      exact ⟨toupper_not_lower c, ih _ (fun d hd => hs d (by simp [hd]))⟩
    · simp only [hp, if_false, Bool.and_eq_true, Bool.not_eq_true']
      exact ⟨hc, ih _ (fun d hd => hs d (by simp [hd]))⟩

theorem isCanonicalForm_canonicalName (raw : Str) :
    isCanonicalForm (canonicalName raw) = true := by
  unfold canonicalName
  cases h : raw.map tolower with
  | nil => rfl
  | cons c rest =>
    simp only [isCanonicalForm, Bool.and_eq_true, Bool.not_eq_true']
    refine ⟨toupper_not_lower c, canonicalAfter_upperAfterDash rest _ ?_⟩
    intro d hd
    have : d ∈ raw.map tolower := by rw [h]; simp [hd]
    obtain ⟨e, -, he⟩ := List.mem_map.mp this
    rw [← he]
    exact tolower_not_upper e

theorem map_tolower_upperAfterDash (s : Str) :
    ∀ previous : Char, (∀ c ∈ s, isUpperLetter c = false) →
      (upperAfterDash previous s).map tolower = s := by
  induction s with
  | nil => intro _ _; rfl
  | cons c rest ih =>
    intro previous hs
    have hc := hs c (by simp)
    unfold upperAfterDash
    dsimp only
    simp only [List.map_cons]
    by_cases hp : previous = '-'
    · simp only [hp, if_true]
      rw [tolower_toupper hc]
      have := ih (toupper c) (fun d hd => hs d (by simp [hd]))
      rw [this]
    · simp only [hp, if_false]
      rw [tolower_of_not_upper hc]
      have := ih c (fun d hd => hs d (by simp [hd]))
      rw [this]

theorem canonicalName_idempotent (raw : Str) :
    canonicalName (canonicalName raw) = canonicalName raw := by
  unfold canonicalName
  cases h : raw.map tolower with
  | nil => rfl
  | cons c rest =>
    have hall : ∀ d ∈ c :: rest, isUpperLetter d = false := by
      intro d hd
      have : d ∈ raw.map tolower := by rw [h]; exact hd
      obtain ⟨e, -, he⟩ := List.mem_map.mp this
      rw [← he]
      exact tolower_not_upper e
    have hc := hall c (by simp)
    have hrest : ∀ d ∈ rest, isUpperLetter d = false := fun d hd => hall d (by simp [hd])
    simp only [List.map_cons]
    rw [tolower_toupper hc, map_tolower_upperAfterDash rest _ hrest]

/-! ## Claims on complete requests -/

theorem pastHeaders_of_feed (pool : ServerPool) (config : ClientConfig) (clock : Nat → Nat)
    (fragments : List Str)
    (h : (feed pool clock (HttpParser.create config) fragments).2.state = ParseState.BODY ∨
      (feed pool clock (HttpParser.create config) fragments).2.state = ParseState.COMPLETE) :
    PastHeaders fragments.flatten (feed pool clock (HttpParser.create config) fragments).2 := by
  have hT := trace_of_feed pool config clock fragments
  rcases h with h | h <;> simp only [Trace, h] at hT <;> exact hT

/-- C5: a request without Transfer-Encoding that reaches COMPLETE, under any fragmentation:
`totalBodySize` is the number `stoul` reads from the stored Content-Length value (0 when
that value is empty or absent), and the body is made of the first `totalBodySize` bytes
that follow the empty line after the header lines of the input. -/
theorem identity_body_is_content_length (pool : ServerPool) (config : ClientConfig)
    (clock : Nat → Nat) (fragments : List Str)
    (hstate : (feed pool clock (HttpParser.create config) fragments).2.state =
      ParseState.COMPLETE)
    (hplain : headersFind (feed pool clock (HttpParser.create config) fragments).2.request.headers
      transferEncodingName = none) :
    ((feed pool clock (HttpParser.create config) fragments).2.request.getHeader
        contentLengthName = [] →
      (feed pool clock (HttpParser.create config) fragments).2.request.totalBodySize = 0) ∧
    ((feed pool clock (HttpParser.create config) fragments).2.request.getHeader
        contentLengthName ≠ [] →
      stoul ((feed pool clock (HttpParser.create config) fragments).2.request.getHeader
          contentLengthName) 10 =
        some (feed pool clock (HttpParser.create config) fragments).2.request.totalBodySize) ∧
    ∃ (requestLine : Str) (lines : List Str) (rest : Str),
      fragments.flatten = requestLine ++ CRLF ++ joinLines lines ++ CRLF ++ rest ∧
      (∀ l ∈ requestLine :: lines, IsLine l ∧ l ≠ []) ∧
      (feed pool clock (HttpParser.create config) fragments).2.request.totalBodySize ≤
        rest.length ∧
      (feed pool clock (HttpParser.create config) fragments).2.request.body =
        rest.take
          (feed pool clock (HttpParser.create config) fragments).2.request.totalBodySize := by
  obtain ⟨requestLine, lines, rest, hin, h1, h2, hF, -, hL, -, hid⟩ :=
    pastHeaders_of_feed pool config clock fragments (Or.inr hstate)
  have hc : (feed pool clock (HttpParser.create config) fragments).2.chunkedTransfer = false := by
    cases hx : (feed pool clock (HttpParser.create config) fragments).2.chunkedTransfer with
    | false => rfl
    | true =>
      have := (headersFind_headersOfLines transferEncodingName lines).mpr (hF.chunked.mp hx)
      rw [← hF.headers, hplain] at this
      cases this
  obtain ⟨b1, b2, b3⟩ := (hid hc).2 hstate
  refine ⟨?_, ?_, requestLine, lines, rest, hin, ?_, ?_, ?_⟩
  · intro he; rw [b2]; exact hL.1 he
  · intro he; rw [b2]; exact hL.2 he
  · intro l hl
    simp only [List.mem_cons] at hl
    rcases hl with hl | hl
    · subst hl; exact ⟨h1, h2⟩
    · exact ⟨(hF.lines_ok l hl).1, (hF.lines_ok l hl).2.1⟩
  · rw [b2]; exact b3
  · rw [b2]; exact b1

/-- C5 on a request with `Content-Length: 5` whose body arrives in two fragments. -/
theorem identity_body_is_content_length_witness :
    (feed examplePool (fun _ => 0) (HttpParser.create exampleConfig)
        [fiveByteHead ++ "AB".toList, "CDE".toList]).2.request.totalBodySize = 5 ∧
    ∃ (requestLine : Str) (lines : List Str) (rest : Str),
      ([fiveByteHead ++ "AB".toList, "CDE".toList] : List Str).flatten =
        requestLine ++ CRLF ++ joinLines lines ++ CRLF ++ rest ∧
      (∀ l ∈ requestLine :: lines, IsLine l ∧ l ≠ []) ∧
      (feed examplePool (fun _ => 0) (HttpParser.create exampleConfig)
        [fiveByteHead ++ "AB".toList, "CDE".toList]).2.request.totalBodySize ≤ rest.length ∧
      (feed examplePool (fun _ => 0) (HttpParser.create exampleConfig)
        [fiveByteHead ++ "AB".toList, "CDE".toList]).2.request.body =
        rest.take (feed examplePool (fun _ => 0) (HttpParser.create exampleConfig)
          [fiveByteHead ++ "AB".toList, "CDE".toList]).2.request.totalBodySize :=
  ⟨by decide,
    (identity_body_is_content_length examplePool exampleConfig (fun _ => 0)
      [fiveByteHead ++ "AB".toList, "CDE".toList] (by decide) (by decide)).2.2⟩

/-- C7: in a request that reaches COMPLETE every header key is in canonical
Title-Case-Dash form and is the canonical form of the name of a header line of the input
(the characters of the line before its first colon); and the canonical form of a canonical
name is that name. -/
theorem header_keys_canonical (pool : ServerPool) (config : ClientConfig)
    (clock : Nat → Nat) (fragments : List Str)
    (hstate : (feed pool clock (HttpParser.create config) fragments).2.state =
      ParseState.COMPLETE) :
    (∀ e ∈ (feed pool clock (HttpParser.create config) fragments).2.request.headers,
      isCanonicalForm e.1 = true) ∧
    (∃ (requestLine : Str) (lines : List Str) (rest : Str),
      fragments.flatten = requestLine ++ CRLF ++ joinLines lines ++ CRLF ++ rest ∧
      (∀ l ∈ requestLine :: lines, IsLine l ∧ l ≠ []) ∧
      ∀ e ∈ (feed pool clock (HttpParser.create config) fragments).2.request.headers,
        ∃ l ∈ lines, e.1 = canonicalName (lineName l)) ∧
    (∀ raw : Str, canonicalName (canonicalName raw) = canonicalName raw) := by
  obtain ⟨requestLine, lines, rest, hin, h1, h2, hF, -⟩ :=
    pastHeaders_of_feed pool config clock fragments (Or.inr hstate)
  have hkeys : ∀ e ∈ (feed pool clock (HttpParser.create config) fragments).2.request.headers,
      ∃ l ∈ lines, e.1 = canonicalName (lineName l) := by
    intro e he
    rw [hF.headers] at he
    obtain ⟨l, hl, hk⟩ := headersOfLines_keys lines e he
    exact ⟨l, hl, hk.symm⟩
  refine ⟨?_, ⟨requestLine, lines, rest, hin, ?_, hkeys⟩, canonicalName_idempotent⟩
  · intro e he
    obtain ⟨l, -, hk⟩ := hkeys e he
    rw [hk]
    exact isCanonicalForm_canonicalName _
  · intro l hl
    simp only [List.mem_cons] at hl
    rcases hl with hl | hl
    · subst hl; exact ⟨h1, h2⟩
    · exact ⟨(hF.lines_ok l hl).1, (hF.lines_ok l hl).2.1⟩

/-- C7 on a request whose header names are written in lower and in upper case. -/
theorem header_keys_canonical_witness :
    (feed examplePool (fun _ => 0) (HttpParser.create exampleConfig)
        ["GET / HTTP/1.1\r\nhOST: x\r\nx-REQUEST-id: 7\r\n\r\n".toList]).2.request.headers =
      [("Host".toList, "x".toList), ("X-Request-Id".toList, "7".toList)] ∧
    ∀ e ∈ (feed examplePool (fun _ => 0) (HttpParser.create exampleConfig)
        ["GET / HTTP/1.1\r\nhOST: x\r\nx-REQUEST-id: 7\r\n\r\n".toList]).2.request.headers,
      isCanonicalForm e.1 = true :=
  ⟨by decide,
    (header_keys_canonical examplePool exampleConfig (fun _ => 0)
      ["GET / HTTP/1.1\r\nhOST: x\r\nx-REQUEST-id: 7\r\n\r\n".toList] (by decide)).1⟩

/-! ## One header line in a `parse` call -/

theorem find_line (line more : Str) (h : IsLine line) :
    find (line ++ CRLF ++ more) CRLF = some line.length :=
  find_append_some more h

theorem take_line (line more : Str) :
    (line ++ CRLF ++ more).take line.length = line ∧
      (line ++ CRLF ++ more).drop (line.length + 2) = more := by
  constructor
  · rw [List.append_assoc, List.take_left]
  · have : line.length + 2 = (line ++ CRLF).length := by simp [CRLF]
    rw [this, List.drop_left]

theorem isxdigit_facts {c : Char} (h : isxdigit c = true) :
    isspace c = false ∧ c ≠ '-' ∧ c ≠ '+' ∧ c ≠ 'x' ∧ c ≠ 'X' ∧ c ≠ ';' ∧ c ≠ '\r' ∧
      digitValue 16 c = some (hexDigitValue c) := by
  unfold isxdigit at h
  simp only [Bool.or_eq_true, Bool.and_eq_true, decide_eq_true_eq] at h
  have hne : ∀ d : Char, c.toNat ≠ d.toNat → c ≠ d := fun d hd e => hd (by rw [e])
  have h1 : c ≠ ' ' := hne _ (by simp only [Char.reduceToNat]; omega)
  have h2 : c ≠ '\t' := hne _ (by simp only [Char.reduceToNat]; omega)
  have h3 : c ≠ '\n' := hne _ (by simp only [Char.reduceToNat]; omega)
  have h4 : c ≠ '\r' := hne _ (by simp only [Char.reduceToNat]; omega)
  have h5 : c.toNat ≠ 11 := by omega
  have h6 : c.toNat ≠ 12 := by omega
  refine ⟨?_, hne _ ?_, hne _ ?_, hne _ ?_, hne _ ?_, hne _ ?_, h4, ?_⟩
  · simp [isspace, h1, h2, h3, h4, h5, h6]
  all_goals try (simp only [Char.reduceToNat]; omega)
  unfold digitValue hexDigitValue
  dsimp only
  split_ifs <;> first | omega | (dsimp only; rw [if_pos (by omega)])

theorem takeDigits_hex : ∀ (s : Str), s.all isxdigit = true →
    takeDigits 16 s = s.map hexDigitValue := by
  intro s
  induction s with
  | nil => intro _; rfl
  | cons c t ih =>
    intro h
    simp only [List.all_cons, Bool.and_eq_true] at h
    unfold takeDigits
    rw [(isxdigit_facts h.1).2.2.2.2.2.2.2]
    simp only [List.map_cons, ih h.2]

theorem digitsValue_hex (s : Str) : digitsValue 16 (s.map hexDigitValue) = hexValue s := by
  unfold digitsValue hexValue
  rw [List.foldl_map]

/-- The conversion `std::stoul(sizeHex, nullptr, 16)` of a string of hexadecimal digits
gives the number the digits write. -/
theorem stoul_hex (s : Str) (hne : s ≠ []) (hall : s.all isxdigit = true)
    (hlt : hexValue s < ULONG_RANGE) : stoul s 16 = some (hexValue s) := by
  cases s with
  | nil => exact absurd rfl hne
  | cons c t =>
    have hall0 := hall
    simp only [List.all_cons, Bool.and_eq_true] at hall
    obtain ⟨f1, f2, f3, -⟩ := isxdigit_facts hall.1
    have hdrop : (c :: t).dropWhile isspace = c :: t := by
      simp [List.dropWhile, f1]
    have hd : takeDigits 16 (c :: t) = (c :: t).map hexDigitValue :=
      takeDigits_hex (c :: t) hall0
    have hv := digitsValue_hex (c :: t)
    simp [stoul, hdrop, f2, f3]
    have hx : ∀ x : Char, x ∈ t → x ≠ 'x' ∧ x ≠ 'X' := by
      intro x hxt
      have := isxdigit_facts (List.all_eq_true.mp hall.2 x hxt)
      exact ⟨this.2.2.2.1, this.2.2.2.2.1⟩
    have hfin : ¬ takeDigits 16 (c :: t) = [] ∧
        digitsValue 16 (takeDigits 16 (c :: t)) < ULONG_RANGE ∧
        digitsValue 16 (takeDigits 16 (c :: t)) = hexValue (c :: t) := by
      rw [hd, hv]
      exact ⟨by simp, hlt, rfl⟩
    split
    · next x d t1 he =>
      simp only [List.cons.injEq] at he
      have := hx x (by rw [he.2]; simp)
      rw [if_neg (by simp [this.1, this.2])]
      exact hfin
    · exact hfin

theorem find_semicolon_none : ∀ (s : Str), s.all isxdigit = true → find s [';'] = none := by
  intro s
  induction s with
  | nil => intro _; simp [find]
  | cons c t ih =>
    intro h
    simp only [List.all_cons, Bool.and_eq_true] at h
    have hc := (isxdigit_facts h.1).2.2.2.2.2.1
    unfold find
    have : List.isPrefixOf [';'] (c :: t) = false := by
      simp [List.isPrefixOf, Ne.symm hc]
    rw [this, ih h.2]
    rfl

theorem find_semicolon_some (e : Str) : ∀ (s : Str), s.all isxdigit = true →
    find (s ++ ';' :: e) [';'] = some s.length := by
  intro s
  induction s with
  | nil => intro _; simp [find, List.isPrefixOf]
  | cons c t ih =>
    intro h
    simp only [List.all_cons, Bool.and_eq_true] at h
    have hc := (isxdigit_facts h.1).2.2.2.2.2.1
    rw [List.cons_append]
    unfold find
    have : List.isPrefixOf [';'] (c :: (t ++ ';' :: e)) = false := by
      simp [List.isPrefixOf, Ne.symm hc]
    rw [this, ih h.2]
    rfl

theorem find_crlf_isSome (b : Str) : ∀ (a : Str), (find (a ++ CRLF ++ b) CRLF).isSome = true := by
  intro a
  induction a with
  | nil => simp [find, CRLF, List.isPrefixOf]
  | cons c t ih =>
    rw [List.cons_append, List.cons_append]
    unfold find
    split
    · rfl
    · cases hx : find (t ++ CRLF ++ b) CRLF with
      | none => rw [hx] at ih; cases ih
      | some n => rfl

theorem getD_crlf (data rest : Str) :
    (data ++ CRLF ++ rest).getD data.length '\x00' = '\r' ∧
    (data ++ CRLF ++ rest).getD (data.length + 1) '\x00' = '\n' := by
  induction data with
  | nil => simp [CRLF]
  | cons c t ih => simpa using ih

/-- The turn of the loop of `parseChunkedBody` on the size line of a valid chunk. -/
theorem chunkSizeLine_valid (p : HttpParser) (c : Chunk) (rest : Str) (hv : c.Valid)
    (hbuf : p.buffer = c.encode ++ rest)
    (hmax : p.config.client_max_body_size = 0 ∨
      p.request.totalBodySize + c.data.length ≤ p.config.client_max_body_size)
    (hR : c.data.length < ULONG_RANGE) :
    chunkSizeLine p (c.sizeHex ++ c.ext).length =
      (true, { p with
        chunkSize := c.data.length, hasChunkSize := true,
        buffer := c.data ++ CRLF ++ rest }) := by
  obtain ⟨v1, v2, v3, v4, v5, v6⟩ := hv
  have hb : p.buffer = (c.sizeHex ++ c.ext) ++ CRLF ++ (c.data ++ CRLF ++ rest) := by
    rw [hbuf]; simp [Chunk.encode]
  have htake := take_line (c.sizeHex ++ c.ext) (c.data ++ CRLF ++ rest)
  have hst : stoul c.sizeHex 16 = some c.data.length := by
    rw [← v3]; exact stoul_hex c.sizeHex v1 v2 (by rw [v3]; exact hR)
  have hlim : ¬ (p.config.client_max_body_size > 0 ∧
      (p.request.totalBodySize + c.data.length) % ULONG_RANGE >
        p.config.client_max_body_size) := by
    rintro ⟨h1, h2⟩
    have := Nat.mod_le (p.request.totalBodySize + c.data.length) ULONG_RANGE
    omega
  unfold chunkSizeLine
  dsimp only
  rw [hb, htake.1, htake.2]
  rcases v5 with v5 | v5
  · rw [v5, List.append_nil, find_semicolon_none c.sizeHex v2]
    simp only [v2, Bool.true_eq_false, if_false, hst]
    rw [if_neg hlim]
  · obtain ⟨e, he⟩ : ∃ e, c.ext = ';' :: e := by
      cases hx : c.ext with
      | nil => rw [hx] at v5; cases v5
      | cons a e =>
        rw [hx] at v5
        simp only [List.head?_cons, Option.some.injEq] at v5
        exact ⟨e, by rw [v5]⟩
    rw [he, find_semicolon_some e c.sizeHex v2]
    simp only [List.take_left, v2, Bool.true_eq_false, if_false, hst]
    rw [if_neg hlim]

/-- The turn of the loop of `parseChunkedBody` on the data of a chunk that is followed by
CRLF. -/
theorem chunkData_valid (p : HttpParser) (data rest : Str)
    (hbuf : p.buffer = data ++ CRLF ++ rest) (hcs : p.chunkSize = data.length)
    (hR : data.length + 2 < ULONG_RANGE)
    (hmax : p.config.client_max_body_size = 0 ∨
      p.request.totalBodySize ≤ p.config.client_max_body_size) :
    chunkData p = Turn.goOn { p with
      request := { p.request with
        totalBodySize := p.request.totalBodySize + data.length,
        body := p.request.body ++ data },
      hasChunkSize := false,
      buffer := rest } := by
  have hmod2 : (data.length + 2) % ULONG_RANGE = data.length + 2 := Nat.mod_eq_of_lt hR
  have hmod1 : (data.length + 1) % ULONG_RANGE = data.length + 1 :=
    Nat.mod_eq_of_lt (by omega)
  have hg := getD_crlf data rest
  have htake := take_line data rest
  unfold chunkData
  dsimp only
  rw [hbuf, hcs, hmod2, hmod1, hg.1, hg.2, htake.1]
  rw [if_neg (by simp [CRLF]), if_neg (by simp)]
  have happ : appendToBody p data = (decide (p.request.totalBodySize + data.length ≥
      p.contentLength), { p with request := { p.request with
        totalBodySize := p.request.totalBodySize + data.length,
        body := p.request.body ++ data } }) := by
    unfold appendToBody
    dsimp only
    rw [if_neg (by omega)]
  rw [happ]
  simp only [hbuf, hcs, hmod2, htake.2]

/-- The loop of `parseChunkedBody` takes a valid chunk from the buffer and goes on. -/
theorem parseChunkedBody_chunk (p : HttpParser) (c : Chunk) (rest : Str) (hv : c.Valid)
    (hsize : p.hasChunkSize = false)
    (hbuf : p.buffer = c.encode ++ rest)
    (hmax : p.config.client_max_body_size = 0 ∨
      p.request.totalBodySize + c.data.length ≤ p.config.client_max_body_size)
    (hR : p.buffer.length + 2 ≤ ULONG_RANGE) :
    parseChunkedBody p = parseChunkedBody { p with
      request := { p.request with
        totalBodySize := p.request.totalBodySize + c.data.length,
        body := p.request.body ++ c.data },
      chunkSize := c.data.length,
      hasChunkSize := false,
      buffer := rest } := by
  have hlen : p.buffer.length =
      c.sizeHex.length + c.ext.length + 2 + c.data.length + 2 + rest.length := by
    rw [hbuf]; simp [Chunk.encode, CRLF]; omega
  have hfind : find p.buffer CRLF = some (c.sizeHex ++ c.ext).length := by
    have hb : p.buffer = (c.sizeHex ++ c.ext) ++ CRLF ++ (c.data ++ CRLF ++ rest) := by
      rw [hbuf]; simp [Chunk.encode]
    rw [hb]
    exact find_line _ _ hv.2.2.2.2.2
  have hne : c.data.length ≠ 0 := fun h => hv.2.2.2.1 (List.length_eq_zero.mp h)
  rw [parseChunkedBody_eq p, hfind]
  simp only [hsize, if_true]
  rw [chunkSizeLine_valid p c rest hv hbuf hmax (by omega)]
  simp only
  rw [parseChunkedBody_eq]
  obtain ⟨n, hn⟩ := Option.isSome_iff_exists.mp (find_crlf_isSome rest c.data)
  simp only [hn, Bool.true_eq_false, if_false, hne]
  rw [chunkData_valid _ c.data rest rfl rfl (by omega)
    (by rcases hmax with h | h
        · exact Or.inl h
        · right; show p.request.totalBodySize ≤ p.config.client_max_body_size; omega)]

/-- The loop of `parseChunkedBody` on the last chunk `0 CRLF CRLF`. -/
theorem parseChunkedBody_last (p : HttpParser) (hsize : p.hasChunkSize = false)
    (hbuf : p.buffer = "0\r\n\r\n".toList)
    (hmax : p.config.client_max_body_size = 0 ∨
      p.request.totalBodySize ≤ p.config.client_max_body_size) :
    parseChunkedBody p = (true, { p with
      chunkSize := 0, hasChunkSize := true, buffer := [], state := ParseState.COMPLETE }) := by
  have hfind : find p.buffer CRLF = some 1 := by rw [hbuf]; decide
  have hst : stoul ['0'] 16 = some 0 := by decide
  have hlim : ¬ (p.config.client_max_body_size > 0 ∧
      (p.request.totalBodySize + 0) % ULONG_RANGE > p.config.client_max_body_size) := by
    rintro ⟨h1, h2⟩
    have := Nat.mod_le (p.request.totalBodySize + 0) ULONG_RANGE
    omega
  have h1 : chunkSizeLine p 1 =
      (true, { p with chunkSize := 0, hasChunkSize := true, buffer := CRLF }) := by
    unfold chunkSizeLine
    dsimp only
    rw [hbuf]
    have e1 : List.take 1 "0\r\n\r\n".toList = ['0'] := rfl
    have e2 : find ['0'] [';'] = none := by decide
    have e3 : List.all ['0'] isxdigit = true := by decide
    have e4 : List.drop (1 + 2) "0\r\n\r\n".toList = CRLF := rfl
    rw [e1, e2]
    simp only [e3, Bool.true_eq_false, if_false, hst]
    rw [if_neg hlim, e4]
  rw [parseChunkedBody_eq p, hfind]
  simp only [hsize, if_true]
  rw [h1]
  simp only
  rw [parseChunkedBody_eq]
  have hf2 : find CRLF CRLF = some 0 := by decide
  simp only [hf2, Bool.true_eq_false, if_false, if_true]
  rfl

/-- The loop of `parseChunkedBody` decodes a chunked body made of valid chunks. -/
theorem parseChunkedBody_chunks : ∀ (chunks : List Chunk) (p : HttpParser),
    (∀ c ∈ chunks, c.Valid) → p.hasChunkSize = false → p.buffer = encodeChunked chunks →
    (p.config.client_max_body_size = 0 ∨
      p.request.totalBodySize + chunkSizes chunks ≤ p.config.client_max_body_size) →
    p.buffer.length + 2 ≤ ULONG_RANGE →
    (parseChunkedBody p).1 = true ∧
    (parseChunkedBody p).2.state = ParseState.COMPLETE ∧
    (parseChunkedBody p).2.request.body = p.request.body ++ chunkedData chunks ∧
    (parseChunkedBody p).2.request.totalBodySize =
      p.request.totalBodySize + chunkSizes chunks ∧
    (parseChunkedBody p).2.buffer = [] ∧
    (parseChunkedBody p).2.head = p.head := by
  intro chunks
  induction chunks with
  | nil =>
    intro p _ hsize hbuf hmax _
    rw [parseChunkedBody_last p hsize (by rw [hbuf]; rfl)
      (by simpa [chunkSizes] using hmax)]
    simp [chunkedData, chunkSizes, HttpParser.head]
  | cons c cs ih =>
    intro p hv hsize hbuf hmax hR
    have hvc := hv c (by simp)
    have hb : p.buffer = c.encode ++ encodeChunked cs := by
      rw [hbuf]; simp [encodeChunked]
    have hsum : chunkSizes (c :: cs) = c.data.length + chunkSizes cs := by
      simp [chunkSizes, hvc.2.2.1]
    rw [hsum] at hmax
    rw [parseChunkedBody_chunk p c (encodeChunked cs) hvc hsize hb
      (by rcases hmax with h | h
          · exact Or.inl h
          · right; omega) hR]
    have hl : p.buffer.length = c.encode.length + (encodeChunked cs).length := by
      rw [hb]; simp
    obtain ⟨a1, a2, a3, a4, a5, a6⟩ := ih
      { p with
        request := { p.request with
          totalBodySize := p.request.totalBodySize + c.data.length,
          body := p.request.body ++ c.data },
        chunkSize := c.data.length,
        hasChunkSize := false,
        buffer := encodeChunked cs }
      (fun x hx => hv x (by simp [hx])) rfl rfl
      (by rcases hmax with h | h
          · exact Or.inl h
          · right
            show p.request.totalBodySize + c.data.length + chunkSizes cs ≤
              p.config.client_max_body_size
            omega)
      (by show (encodeChunked cs).length + 2 ≤ ULONG_RANGE; omega)
    refine ⟨a1, a2, ?_, ?_, a5, ?_⟩
    · rw [a3]; simp [chunkedData]
    · rw [a4, hsum]; simp only; omega
    · rw [a6]; rfl

/-! ## Chunked bodies -/

/-- C6: let `head` be a request head after which a new parser waits in BODY for a chunked
body, with nothing of the body read.  For every list of valid chunks (a size in hexadecimal
digits of either case that is the length of the data, not 0, and an optional extension
introduced by a semicolon) whose sizes add up to at most `client_max_body_size` (or with no
limit configured), and an input of fewer than `2 ^ 64 - 2` bytes, one `parse` call with the
head, the chunks and the last chunk `0 CRLF CRLF` returns true in COMPLETE, the body is the
data of the chunks in order, and `totalBodySize` is the sum of the chunk sizes. -/
theorem chunked_body_is_decoded (pool : ServerPool) (now : Nat) (config : ClientConfig)
    (head : Str) (chunks : List Chunk)
    (hstate : (parse pool now (HttpParser.create config) head).2.state = ParseState.BODY)
    (hchunked : (parse pool now (HttpParser.create config) head).2.chunkedTransfer = true)
    (hbuffer : (parse pool now (HttpParser.create config) head).2.buffer = [])
    (hpending : (parse pool now (HttpParser.create config) head).2.hasChunkSize = false)
    (hbody : (parse pool now (HttpParser.create config) head).2.request.body = [])
    (htotal : (parse pool now (HttpParser.create config) head).2.request.totalBodySize = 0)
    (hvalid : ∀ c ∈ chunks, c.Valid)
    (hmax :
      (parse pool now (HttpParser.create config) head).2.config.client_max_body_size = 0 ∨
      chunkSizes chunks ≤
        (parse pool now (HttpParser.create config) head).2.config.client_max_body_size)
    (hlen : (head ++ encodeChunked chunks).length + 2 ≤ ULONG_RANGE) :
    (parse pool now (HttpParser.create config) (head ++ encodeChunked chunks)).1 = true ∧
    (parse pool now (HttpParser.create config) (head ++ encodeChunked chunks)).2.state =
      ParseState.COMPLETE ∧
    (parse pool now (HttpParser.create config)
      (head ++ encodeChunked chunks)).2.request.body = chunkedData chunks ∧
    (parse pool now (HttpParser.create config)
      (head ++ encodeChunked chunks)).2.request.totalBodySize = chunkSizes chunks := by
  have hP : parse pool now (HttpParser.create config) head =
      run pool now ((HttpParser.create config).extend head) :=
    parse_eq_run pool now _ head (fun h => ParseState.noConfusion h)
      (fun h => ParseState.noConfusion h)
  have hPy : parse pool now (HttpParser.create config) (head ++ encodeChunked chunks) =
      run pool now (((HttpParser.create config).extend head).extend
        (encodeChunked chunks)) := by
    rw [parse_eq_run pool now _ _ (fun h => ParseState.noConfusion h)
      (fun h => ParseState.noConfusion h)]
    simp [HttpParser.extend]
  have hW : WellFormed ((HttpParser.create config).extend head) := by
    constructor
    · intro _; exact ⟨rfl, rfl⟩
    · intro h; cases h
  have hK : ((HttpParser.create config).extend head).mass +
      (encodeChunked chunks).length + 2 ≤ ULONG_RANGE := by
    simp only [HttpParser.mass, HttpParser.extend, HttpParser.create, List.nil_append,
      List.length_append] at hlen ⊢
    omega
  have hO := run_extend pool now _ (encodeChunked chunks) hW hK
  rw [← hP, ← hPy] at hO
  have hq : ((parse pool now (HttpParser.create config) head).2.extend
      (encodeChunked chunks)).state = ParseState.BODY := hstate
  have hrun : run pool now ((parse pool now (HttpParser.create config) head).2.extend
      (encodeChunked chunks)) =
      parseChunkedBody ((parse pool now (HttpParser.create config) head).2.extend
        (encodeChunked chunks)) := by
    rw [run_of_body pool now _ hq]
    unfold parseBody
    dsimp only
    have hc : ((parse pool now (HttpParser.create config) head).2.extend
      (encodeChunked chunks)).chunkedTransfer = true := hchunked
    rw [if_neg (by rw [hc]; simp), if_pos hc]
  obtain ⟨b1, b2, b3, b4, -, -⟩ := parseChunkedBody_chunks chunks
    ((parse pool now (HttpParser.create config) head).2.extend (encodeChunked chunks))
    hvalid hpending
    (by show (parse pool now (HttpParser.create config) head).2.buffer ++
          encodeChunked chunks = encodeChunked chunks
        rw [hbuffer]; rfl)
    (by show (parse pool now (HttpParser.create config) head).2.config.client_max_body_size
            = 0 ∨
          (parse pool now (HttpParser.create config) head).2.request.totalBodySize +
            chunkSizes chunks ≤
          (parse pool now (HttpParser.create config) head).2.config.client_max_body_size
        rw [htotal, Nat.zero_add]; exact hmax)
    (by show ((parse pool now (HttpParser.create config) head).2.buffer ++
          encodeChunked chunks).length + 2 ≤ ULONG_RANGE
        rw [hbuffer]
        simp only [List.nil_append, List.length_append] at hlen ⊢
        omega)
  rw [← hrun] at b1 b2 b3 b4
  have hb3 : (run pool now ((parse pool now (HttpParser.create config) head).2.extend
      (encodeChunked chunks))).2.request.body = chunkedData chunks := by
    rw [b3]
    show (parse pool now (HttpParser.create config) head).2.request.body ++ _ = _
    rw [hbody]; rfl
  have hb4 : (run pool now ((parse pool now (HttpParser.create config) head).2.extend
      (encodeChunked chunks))).2.request.totalBodySize = chunkSizes chunks := by
    rw [b4]
    show (parse pool now (HttpParser.create config) head).2.request.totalBodySize + _ = _
    rw [htotal, Nat.zero_add]
  unfold Outcome at hO
  rcases hO with ⟨-, -, -, -, -, halt⟩ | ⟨-, hE, -⟩ | ⟨-, hC, -⟩
  · rcases halt with halt | ⟨-, -, c1, -⟩
    · rw [halt]
      exact ⟨b1, b2, hb3, hb4⟩
    · rw [b1] at c1; cases c1
  · rw [hstate] at hE; cases hE
  · rw [hstate] at hC; cases hC

/-- C6 on a request with the chunks `Hello` and `, world!!!`. -/
theorem chunked_body_is_decoded_witness :
    (parse examplePool 0 (HttpParser.create exampleConfig)
      (chunkedHead ++ encodeChunked exampleChunks)).1 = true ∧
    (parse examplePool 0 (HttpParser.create exampleConfig)
      (chunkedHead ++ encodeChunked exampleChunks)).2.state = ParseState.COMPLETE ∧
    (parse examplePool 0 (HttpParser.create exampleConfig)
      (chunkedHead ++ encodeChunked exampleChunks)).2.request.body =
        chunkedData exampleChunks ∧
    (parse examplePool 0 (HttpParser.create exampleConfig)
      (chunkedHead ++ encodeChunked exampleChunks)).2.request.totalBodySize =
        chunkSizes exampleChunks :=
  chunked_body_is_decoded examplePool 0 exampleConfig chunkedHead exampleChunks
    (by decide) (by decide) (by decide) (by decide) (by decide) (by decide) (by decide)
    (by decide) (by decide)

/-! ## The request line -/

/-- C11, the code at `GET / HTTP/1.10`: a version token of nine characters that begins
with `HTTP/1.1` is accepted; the request is complete and the token is stored as the
version. -/
theorem version_with_longer_token_accepted :
    (parse examplePool 0 (HttpParser.create exampleConfig)
      "GET / HTTP/1.10\r\nHost: x\r\n\r\n".toList).1 = true ∧
    (parse examplePool 0 (HttpParser.create exampleConfig)
      "GET / HTTP/1.10\r\nHost: x\r\n\r\n".toList).2.state = ParseState.COMPLETE ∧
    (parse examplePool 0 (HttpParser.create exampleConfig)
      "GET / HTTP/1.10\r\nHost: x\r\n\r\n".toList).2.request.version = "HTTP/1.10".toList ∧
    (parse examplePool 0 (HttpParser.create exampleConfig)
      "GET / HTTP/1.1\r\n".toList).2.state = ParseState.HEADERS ∧
    (parse examplePool 0 (HttpParser.create exampleConfig)
      "GET / HTTP/2.0\r\nHost: x\r\n\r\n".toList).2.errorCode = HTTP_VERSION_NOT_SUPPORTED := by
  decide

/-- C14, the code at a chunk-size line `3E9` (1001) with a body limit of 1000: the parser
is in ERROR and the status code is still 400, not 413. -/
theorem chunk_over_limit_keeps_status :
    (parse examplePool 0 (HttpParser.create exampleConfig)
      (chunkedHead ++ "3E9\r\n".toList)).2.state = ParseState.ERROR ∧
    (parse examplePool 0 (HttpParser.create exampleConfig)
      (chunkedHead ++ "3E9\r\n".toList)).2.errorCode = BAD_REQUEST ∧
    (parse examplePool 0 (HttpParser.create exampleConfig)
      (chunkedHead ++ "3E9\r\n".toList)).2.errorCode ≠ CONTENT_TOO_LARGE ∧
    (parse examplePool 0 (HttpParser.create exampleConfig)
      (chunkedHead ++ "3E8\r\n".toList)).2.state = ParseState.BODY := by
  decide

/-- C15, the code at escapes that are not two hexadecimal digits: `%2g` becomes the byte 2
and `% 1` the byte 1, while `%zz` and a `%` among the last two characters stay as they
are; `/%2fa+b` becomes `//a b`. -/
theorem decodeString_partial_escape :
    decodeString "/%2g".toList = ['/', Char.ofNat 2] ∧
    decodeString "% 1".toList = [Char.ofNat 1] ∧
    decodeString "%zz".toList = "%zz".toList ∧
    decodeString "a%4".toList = "a%4".toList ∧
    decodeString "/%2fa+b".toList = "//a b".toList := by
  decide

/-- C16: a string without `%` and `+` is its own decoding, and decoding it twice gives
the same as decoding it once. -/
theorem decodeString_plain (s : Str) (hpercent : '%' ∉ s) (hplus : '+' ∉ s) :
    decodeString s = s ∧ decodeString (decodeString s) = decodeString s := by
  have h : ∀ t : Str, '%' ∉ t → '+' ∉ t → decodeLoop 0 t = t := by
    intro t
    induction t with
    | nil => intro _ _; rfl
    | cons c rest ih =>
      intro h1 h2
      simp only [List.mem_cons, not_or] at h1 h2
      unfold decodeLoop
      rw [if_neg (fun hc => h1.1 hc.1.symm), if_neg (fun hc => h2.1 hc.symm), ih h1.2 h2.2]
  have e : decodeString s = s := h s hpercent hplus
  exact ⟨e, by rw [e, e]⟩

/-- C16 on the string `/hello`. -/
theorem decodeString_plain_witness :
    decodeString "/hello".toList = "/hello".toList ∧
    decodeString (decodeString "/hello".toList) = decodeString "/hello".toList :=
  decodeString_plain "/hello".toList (by decide) (by decide)

/-- One `operator>>` on a stream that holds white space, a word and then the end or more
white space: the word is extracted and what follows it is left. -/
theorem extractToken_word (pre tok after : Str) (hpre : ∀ c ∈ pre, isspace c = true)
    (hne : tok ≠ []) (htok : ∀ c ∈ tok, isspace c = false)
    (hafter : after = [] ∨ ∃ c t, after = c :: t ∧ isspace c = true) :
    extractToken (pre ++ (tok ++ after)) = some (tok, after) := by
  have h1 : (pre ++ (tok ++ after)).dropWhile isspace = tok ++ after := by
    rw [List.dropWhile_append_of_pos hpre]
    cases tok with
    | nil => exact absurd rfl hne
    | cons c t =>
      have hc := htok c (by simp)
      rw [List.cons_append, List.dropWhile_cons_of_neg (by simp [hc])]
  have hneg : ∀ c ∈ tok, (fun c => !isspace c) c = true := by
    intro c hc; simp [htok c hc]
  have h2 : (tok ++ after).takeWhile (fun c => !isspace c) = tok := by
    rw [List.takeWhile_append_of_pos hneg]
    rcases hafter with rfl | ⟨c, t, rfl, hc⟩
    · simp
    · rw [List.takeWhile_cons_of_neg (by simp [hc])]; simp
  have h3 : (tok ++ after).dropWhile (fun c => !isspace c) = after := by
    rw [List.dropWhile_append_of_pos hneg]
    rcases hafter with rfl | ⟨c, t, rfl, hc⟩
    · simp
    · rw [List.dropWhile_cons_of_neg (by simp [hc])]
  unfold extractToken
  dsimp only
  rw [h1, h2, h3, if_neg hne]

theorem stringToMethod_word {method : Str} {m : HttpMethod}
    (h : stringToMethod method = some m) :
    method ≠ [] ∧ ∀ c ∈ method, isspace c = false := by
  unfold stringToMethod at h
  split_ifs at h with h1 h2 h3 h4 h5 h6 h7
  all_goals (subst method; decide)

/-- The request line `METHOD SP URI SP HTTP/1.1` passes every test of `parseRequestLine`
when its length is within the limit. -/
theorem parseRequestLine_valid (pool : ServerPool) (now : Nat) (p : HttpParser)
    (method uri more : Str) (m : HttpMethod)
    (hbuf : p.buffer = (method ++ ' ' :: (uri ++ ' ' :: "HTTP/1.1".toList)) ++ CRLF ++ more)
    (hline : IsLine (method ++ ' ' :: (uri ++ ' ' :: "HTTP/1.1".toList)))
    (hlen : (method ++ ' ' :: (uri ++ ' ' :: "HTTP/1.1".toList)).length ≤
      pool.max_request_line_size)
    (hm : stringToMethod method = some m) (hne : uri ≠ [])
    (huri : ∀ c ∈ uri, isspace c = false)
    (hform : uri.head? = some '/' ∨ find uri "://".toList ≠ none) :
    parseRequestLine pool now p =
      (true, { p with
        buffer := more,
        request := { p.request with
          method := some m, uri := decodeString uri, version := "HTTP/1.1".toList },
        state := ParseState.HEADERS,
        headerStart := now }) := by
  obtain ⟨hm1, hm2⟩ := stringToMethod_word hm
  have hfind := find_line _ more hline
  have htake := take_line (method ++ ' ' :: (uri ++ ' ' :: "HTTP/1.1".toList)) more
  have hsp : ∃ c t, (' ' :: (uri ++ ' ' :: "HTTP/1.1".toList) : Str) = c :: t ∧
      isspace c = true := ⟨' ', _, rfl, by decide⟩
  have t1 : extractToken (method ++ ' ' :: (uri ++ ' ' :: "HTTP/1.1".toList)) =
      some (method, ' ' :: (uri ++ ' ' :: "HTTP/1.1".toList)) :=
    extractToken_word [] method _ (by simp) hm1 hm2 (Or.inr hsp)
  have t2 : extractToken (' ' :: (uri ++ ' ' :: "HTTP/1.1".toList)) =
      some (uri, ' ' :: "HTTP/1.1".toList) :=
    extractToken_word [' '] uri _ (by simp; decide) hne huri
      (Or.inr ⟨' ', _, rfl, by decide⟩)
  have t3 : extractToken (' ' :: "HTTP/1.1".toList) = some ("HTTP/1.1".toList, []) := by
    decide
  have hhead : ¬ ((method ++ ' ' :: (uri ++ ' ' :: "HTTP/1.1".toList)) = [] ∨
      isspace ((method ++ ' ' :: (uri ++ ' ' :: "HTTP/1.1".toList)).headD ' ') = true) := by
    cases method with
    | nil => exact absurd rfl hm1
    | cons c t =>
      have := hm2 c (by simp)
      simp [this]
  have huri2 : ¬ ((uri = [] ∨ uri.head? ≠ some '/') ∧ find uri "://".toList = none) := by
    rintro ⟨a, b⟩
    rcases hform with h | h
    · rcases a with a | a
      · exact hne a
      · exact a h
    · exact h b
  have hv : versionRefused "HTTP/1.1".toList = false := by decide
  unfold parseRequestLine
  rw [hbuf, hfind]
  dsimp only
  rw [if_neg (by omega), htake.1, htake.2, if_neg hhead, t1]
  dsimp only
  rw [t2]
  dsimp only
  rw [t3]
  dsimp only
  unfold acceptRequestLine
  rw [if_neg (by simp), hm]
  dsimp only
  rw [if_neg huri2, hv]
  simp

/-- C12: in REQUEST_LINE, when the buffer and the new bytes begin with a line ended by
CRLF: a line longer than `max_request_line_size` ends the call in ERROR with status 414,
whatever it holds; a line `METHOD SP URI SP HTTP/1.1` of at most `max_request_line_size`
bytes, with one of the seven methods and a URI without white space that begins with `/` or
holds `://`, is accepted by `parseRequestLine`, which moves to HEADERS, and if no further
line is complete the call ends in HEADERS with the method, the decoded URI and the version
stored. -/
theorem request_line_length_limit (pool : ServerPool) (now : Nat) (p : HttpParser)
    (data line more : Str) (hs : p.state = ParseState.REQUEST_LINE)
    (hbuf : p.buffer ++ data = line ++ CRLF ++ more) (hline : IsLine line) :
    (line.length > pool.max_request_line_size →
      (parse pool now p data).1 = false ∧
      (parse pool now p data).2.state = ParseState.ERROR ∧
      (parse pool now p data).2.errorCode = REQUEST_URI_TOO_LONG) ∧
    (line.length ≤ pool.max_request_line_size →
      ∀ (method uri : Str) (m : HttpMethod),
        line = method ++ ' ' :: (uri ++ ' ' :: "HTTP/1.1".toList) →
        stringToMethod method = some m → uri ≠ [] → (∀ c ∈ uri, isspace c = false) →
        (uri.head? = some '/' ∨ find uri "://".toList ≠ none) →
        (parseRequestLine pool now (p.extend data)).1 = true ∧
        (parseRequestLine pool now (p.extend data)).2.state = ParseState.HEADERS ∧
        (find more CRLF = none →
          (parse pool now p data).2.state = ParseState.HEADERS ∧
          (parse pool now p data).2.request.method = some m ∧
          (parse pool now p data).2.request.uri = decodeString uri ∧
          (parse pool now p data).2.request.version = "HTTP/1.1".toList)) := by
  have hse : (p.extend data).state = ParseState.REQUEST_LINE := hs
  have hrun : parse pool now p data = run pool now (p.extend data) :=
    parse_eq_run pool now p data (by rw [hs]; decide) (by rw [hs]; decide)
  constructor
  · intro hlong
    have hfind : find (p.extend data).buffer CRLF = some line.length := by
      show find (p.buffer ++ data) CRLF = some line.length
      rw [hbuf]; exact find_line line more hline
    have hr : parseRequestLine pool now (p.extend data) =
        (false, (p.extend data).latch REQUEST_URI_TOO_LONG) := by
      unfold parseRequestLine
      rw [hfind]
      dsimp only
      rw [if_pos hlong]
    rw [hrun, run_of_requestLine pool now _ hse, hr]
    exact ⟨rfl, rfl, rfl⟩
  · intro hshort method uri m hl hm hne huri hform
    subst hl
    have hr := parseRequestLine_valid pool now (p.extend data) method uri more m hbuf hline
      hshort hm hne huri hform
    refine ⟨by rw [hr], by rw [hr], ?_⟩
    intro hmore
    rw [hrun, run_of_requestLine pool now _ hse, hr]
    simp only [if_true]
    rw [run_of_headers pool now _ rfl, parseHeaders_eq]
    simp only [hmore]
    exact ⟨rfl, rfl, rfl, rfl⟩

/-- C12 on the line `GET / HTTP/1.1` of 14 bytes: with a limit of 13 the call ends in ERROR
with status 414, with a limit of 14 it ends in HEADERS. -/
theorem request_line_length_limit_witness :
    ((parse (poolWithLineLimit 13) 0 (HttpParser.create exampleConfig)
        "GET / HTTP/1.1\r\n".toList).2.state = ParseState.ERROR ∧
      (parse (poolWithLineLimit 13) 0 (HttpParser.create exampleConfig)
        "GET / HTTP/1.1\r\n".toList).2.errorCode = REQUEST_URI_TOO_LONG) ∧
    (parse (poolWithLineLimit 14) 0 (HttpParser.create exampleConfig)
        "GET / HTTP/1.1\r\n".toList).2.state = ParseState.HEADERS :=
  ⟨((request_line_length_limit (poolWithLineLimit 13) 0 (HttpParser.create exampleConfig)
      "GET / HTTP/1.1\r\n".toList "GET / HTTP/1.1".toList [] rfl (by decide)
      (by unfold IsLine; decide)).1 (by decide)).2,
    ((((request_line_length_limit (poolWithLineLimit 14) 0 (HttpParser.create exampleConfig)
      "GET / HTTP/1.1\r\n".toList "GET / HTTP/1.1".toList [] rfl (by decide)
      (by unfold IsLine; decide)).2 (by decide)) "GET".toList "/".toList HttpMethod.GET
      (by decide) (by decide) (by decide) (by decide) (by decide)).2.2 (by decide)).1⟩

/-! ## The body limit -/

theorem sessionsFind_sessionsSet (sessions : Sessions) (k : Str) (v : List Str) (k1 : Str) :
    sessionsFind (sessionsSet sessions k v) k1 =
      if k = k1 then some v else sessionsFind sessions k1 := by
  induction sessions with
  | nil => simp [sessionsSet, sessionsFind]
  | cons e rest ih =>
    obtain ⟨a, b⟩ := e
    unfold sessionsSet
    by_cases h : a = k
    · subst h
      simp only [if_true, sessionsFind]
      by_cases h1 : a = k1 <;> simp [h1]
    · simp only [h, if_false, sessionsFind, ih]
      by_cases h1 : a = k1
      · have : ¬ k = k1 := by rintro rfl; exact h h1
        simp [h1, this]
      · simp [h1]

theorem ownsFile_iff (sessions : Sessions) (id name : Str) :
    ownsFile sessions id name = true ↔ 0 < owned sessions id name := by
  unfold ownsFile owned
  cases sessionsFind sessions id with
  | none => simp
  | some v => simp [List.count_pos_iff]

theorem owned_addUploadedFile (sessions : Sessions) (sid fn id name : Str) :
    owned (addUploadedFile sessions sid fn) id name =
      owned sessions id name + (if sid = id ∧ fn = name then 1 else 0) := by
  unfold owned addUploadedFile
  rw [sessionsFind_sessionsSet]
  by_cases h : sid = id
  · subst h
    simp only [if_true, Option.getD_some, true_and, List.count_append, List.count_singleton]
    by_cases h2 : fn = name
    · simp [h2]
    · have : ¬ (name == fn) = true := by simp [Ne.symm h2]
      simp [h2, this]
  · simp [h]

theorem owned_removeFile (sessions : Sessions) (sid fn id name : Str) :
    owned (removeFile sessions sid fn).2 id name +
        (if sid = id ∧ fn = name ∧ (removeFile sessions sid fn).1 = true then 1 else 0) =
      owned sessions id name := by
  unfold removeFile
  cases hf : sessionsFind sessions sid with
  | none => simp
  | some v =>
    dsimp only
    by_cases hm : fn ∈ v
    · rw [if_pos hm]
      simp only [owned, sessionsFind_sessionsSet, and_true]
      by_cases h : sid = id
      · subst h
        simp only [if_true, Option.getD_some, true_and, hf]
        by_cases h2 : fn = name
        · subst h2
          rw [if_pos rfl, List.count_erase_self]
          have := List.count_pos_iff.mpr hm
          omega
        · rw [if_neg h2, List.count_erase_of_ne (Ne.symm h2)]
          rfl
      · simp [h]
    · rw [if_neg hm]
      simp

theorem owned_runCalls (id name : Str) : ∀ (calls : List SessionCall) (sessions : Sessions),
    owned (runCalls sessions calls) id name + removals sessions calls id name =
      owned sessions id name + additions calls id name := by
  intro calls
  induction calls with
  | nil => intro sessions; simp [runCalls, removals, additions]
  | cons call rest ih =>
    intro sessions
    cases call with
    | add sid fn =>
      have h1 := ih (addUploadedFile sessions sid fn)
      have h2 := owned_addUploadedFile sessions sid fn id name
      have h3 : additions (SessionCall.add sid fn :: rest) id name =
          additions rest id name + (if sid = id ∧ fn = name then 1 else 0) := by
        unfold additions
        rw [List.count_cons]
        by_cases h : sid = id ∧ fn = name
        · obtain ⟨rfl, rfl⟩ := h; simp
        · have : ¬ (SessionCall.add sid fn == SessionCall.add id name) = true := by
            simpa using h
          simp [h, this]
      simp only [runCalls, removals]
      omega
    | remove sid fn =>
      have h1 := ih (removeFile sessions sid fn).2
      have h2 := owned_removeFile sessions sid fn id name
      have h3 : additions (SessionCall.remove sid fn :: rest) id name =
          additions rest id name := by
        unfold additions
        rw [List.count_cons]
        simp
      simp only [runCalls, removals]
      omega

theorem removeFile_flag (sessions : Sessions) (sid fn : Str) :
    (removeFile sessions sid fn).1 = ownsFile sessions sid fn := by
  unfold removeFile ownsFile
  cases sessionsFind sessions sid with
  | none => rfl
  | some v =>
    dsimp only
    by_cases hm : fn ∈ v
    · rw [if_pos hm]; simp [hm]
    · rw [if_neg hm]; simp [hm]

theorem removeFile_not_owned (sessions : Sessions) (sid fn : Str)
    (h : ownsFile sessions sid fn = false) : (removeFile sessions sid fn).2 = sessions := by
  unfold ownsFile at h
  unfold removeFile
  cases hf : sessionsFind sessions sid with
  | none => rfl
  | some v =>
    rw [hf] at h
    dsimp only at h ⊢
    have hm : fn ∉ v := by simpa using h
    rw [if_neg hm]

theorem removals_eq_counted (id name : Str) : ∀ (calls : List SessionCall)
    (sessions : Sessions),
    removals sessions calls id name = countedRemovals id name (owned sessions id name) calls := by
  intro calls
  induction calls with
  | nil => intro sessions; rfl
  | cons call rest ih =>
    intro sessions
    cases call with
    | add sid fn =>
      simp only [removals, countedRemovals]
      rw [ih, owned_addUploadedFile]
      congr 1
      by_cases h : sid = id ∧ fn = name
      · rw [if_pos h, if_pos h]
      · rw [if_neg h, if_neg h]; rfl
    | remove sid fn =>
      simp only [removals, countedRemovals]
      have h2 := owned_removeFile sessions sid fn id name
      have hflag := removeFile_flag sessions sid fn
      rw [ih]
      by_cases h : sid = id ∧ fn = name
      · obtain ⟨rfl, rfl⟩ := h
        have ho := ownsFile_iff sessions sid fn
        by_cases hpos : 0 < owned sessions sid fn
        · have ht : (removeFile sessions sid fn).1 = true := by rw [hflag]; exact ho.mpr hpos
          rw [if_pos ⟨rfl, rfl, ht⟩] at h2
          rw [if_pos ⟨rfl, rfl, ht⟩, if_pos ⟨rfl, rfl, hpos⟩, if_pos ⟨rfl, rfl⟩]
          congr 2
          omega
        · have ht : ¬ (removeFile sessions sid fn).1 = true := by
            rw [hflag]; exact fun hx => hpos (ho.mp hx)
          rw [if_neg (fun hx => ht hx.2.2)] at h2
          rw [if_neg (fun hx => ht hx.2.2), if_neg (fun hx => hpos hx.2.2), if_pos ⟨rfl, rfl⟩]
          congr 2
          omega
      · have h1 : ¬ (sid = id ∧ fn = name ∧ (removeFile sessions sid fn).1 = true) :=
          fun hx => h ⟨hx.1, hx.2.1⟩
        have h3 : ¬ (sid = id ∧ fn = name ∧ 0 < owned sessions id name) :=
          fun hx => h ⟨hx.1, hx.2.1⟩
        rw [if_neg h1] at h2
        rw [if_neg h1, if_neg h3, if_neg h]
        congr 2

/-- C17, counterexample: after `removeFile(s, f)` on the empty registry, which finds nothing
to remove, and `addUploadedFile(s, f)`, the session owns the file although the pair has
been added once and removed once. -/
theorem remove_before_add_owned :
    ownsFile (runCalls [] [SessionCall.remove "s".toList "f".toList,
      SessionCall.add "s".toList "f".toList]) "s".toList "f".toList = true ∧
    ¬ (additions [SessionCall.remove "s".toList "f".toList,
        SessionCall.add "s".toList "f".toList] "s".toList "f".toList >
      removeCalls [SessionCall.remove "s".toList "f".toList,
        SessionCall.add "s".toList "f".toList] "s".toList "f".toList) := by
  decide

/-- C17, amended: from the empty registry and after any calls of `addUploadedFile` and
`removeFile`, `ownsFile(id, name)` is true if and only if `addUploadedFile(id, name)` has
been called more often than `removeFile(id, name)` has been called at a moment when the
pair was held, that is, when the additions so far were more than the removals counted so
far; these are the calls of `removeFile(id, name)` that returned true.  On every registry
`removeFile` returns true exactly when the session owns the file, then one occurrence of
the name leaves the list of the session, and otherwise the registry stays as it is. -/
theorem ownsFile_iff_more_additions (calls : List SessionCall) (id name : Str) :
    (ownsFile (runCalls [] calls) id name = true ↔
      additions calls id name > countedRemovals id name 0 calls) ∧
    countedRemovals id name 0 calls = removals [] calls id name ∧
    (∀ (sessions : Sessions) (sid fn : Str),
      (removeFile sessions sid fn).1 = ownsFile sessions sid fn ∧
      (ownsFile sessions sid fn = true →
        owned (removeFile sessions sid fn).2 sid fn + 1 = owned sessions sid fn) ∧
      (ownsFile sessions sid fn = false → (removeFile sessions sid fn).2 = sessions)) := by
  have h := owned_runCalls id name calls []
  have h0 : owned [] id name = 0 := rfl
  have hc := removals_eq_counted id name calls []
  rw [h0] at hc
  refine ⟨?_, hc.symm, ?_⟩
  · rw [ownsFile_iff, ← hc]
    omega
  · intro sessions sid fn
    refine ⟨removeFile_flag sessions sid fn, fun ho => ?_, removeFile_not_owned sessions sid fn⟩
    have h2 := owned_removeFile sessions sid fn sid fn
    rw [if_pos ⟨rfl, rfl, by rw [removeFile_flag]; exact ho⟩] at h2
    exact h2

/-! ## The persistence format of the session registry -/

theorem sizeBytes_length (n : Nat) : (sizeBytes n).length = 8 := by
  simp [sizeBytes]

theorem sizeOfBytes_sizeBytes (n : Nat) : sizeOfBytes (sizeBytes n) = n % ULONG_RANGE := by
  have hr : List.range 8 = [0, 1, 2, 3, 4, 5, 6, 7] := by decide
  have hc : ∀ x : Nat, (Char.ofNat (x % 256)).toNat % 256 = x % 256 := by
    intro x
    rw [toNat_ofNat_small _ (by omega)]
    omega
  unfold sizeBytes sizeOfBytes
  rw [hr]
  simp only [List.map_cons, List.map_nil, List.foldr_cons, List.foldr_nil, hc]
  norm_num [ULONG_RANGE]
  omega

theorem sizeBytes_sizeOfBytes (bytes : Str) (hlen : bytes.length = 8)
    (hbytes : ∀ c ∈ bytes, c.toNat < 256) :
    sizeBytes (sizeOfBytes bytes) = bytes ∧ sizeOfBytes bytes < ULONG_RANGE := by
  have hr : List.range 8 = [0, 1, 2, 3, 4, 5, 6, 7] := by decide
  match bytes, hlen with
  | [c0, c1, c2, c3, c4, c5, c6, c7], _ =>
    have h0 := hbytes c0 (by simp)
    have h1 := hbytes c1 (by simp)
    have h2 := hbytes c2 (by simp)
    have h3 := hbytes c3 (by simp)
    have h4 := hbytes c4 (by simp)
    have h5 := hbytes c5 (by simp)
    have h6 := hbytes c6 (by simp)
    have h7 := hbytes c7 (by simp)
    unfold sizeBytes sizeOfBytes
    rw [hr]
    simp only [List.map_cons, List.map_nil, List.foldr_cons, List.foldr_nil,
      Nat.mod_eq_of_lt h0, Nat.mod_eq_of_lt h1, Nat.mod_eq_of_lt h2, Nat.mod_eq_of_lt h3,
      Nat.mod_eq_of_lt h4, Nat.mod_eq_of_lt h5, Nat.mod_eq_of_lt h6, Nat.mod_eq_of_lt h7,
      List.cons.injEq, and_true]
    refine ⟨⟨?_, ?_, ?_, ?_, ?_, ?_, ?_, ?_⟩, ?_⟩
    · conv_rhs => rw [← Char.ofNat_toNat c0]
      congr 1; norm_num; omega
    · conv_rhs => rw [← Char.ofNat_toNat c1]
      congr 1; norm_num; omega
    · conv_rhs => rw [← Char.ofNat_toNat c2]
      congr 1; norm_num; omega
    · conv_rhs => rw [← Char.ofNat_toNat c3]
      congr 1; norm_num; omega
    · conv_rhs => rw [← Char.ofNat_toNat c4]
      congr 1; norm_num; omega
    · conv_rhs => rw [← Char.ofNat_toNat c5]
      congr 1; norm_num; omega
    · conv_rhs => rw [← Char.ofNat_toNat c6]
      congr 1; norm_num; omega
    · conv_rhs => rw [← Char.ofNat_toNat c7]
      congr 1; norm_num; omega
    · norm_num [ULONG_RANGE]
      omega

theorem serializeBytes_eq (sessions : Sessions) :
    serializeBytes sessions =
      sizeBytes sessions.length ++ (sessions.map serializeSession).flatten := rfl

theorem readSize_sizeBytes (n : Nat) (rest : Str) (h : n < ULONG_RANGE) :
    readSize (sizeBytes n ++ rest) = some (n, rest) := by
  have hl := sizeBytes_length n
  have ht : (sizeBytes n ++ rest).take 8 = sizeBytes n := by
    rw [← hl, List.take_left]
  have hd : (sizeBytes n ++ rest).drop 8 = rest := by
    rw [← hl, List.drop_left]
  unfold readSize
  rw [ht, hd, if_neg (by rw [hl]; simp), sizeOfBytes_sizeBytes, Nat.mod_eq_of_lt h]

theorem readString_append (s rest : Str) :
    readString s.length (s ++ rest) = some (s, rest) := by
  unfold readString
  rw [List.take_left, List.drop_left, if_neg (by simp)]

theorem readSize_some {file rest : Str} {n : Nat} (h : readSize file = some (n, rest))
    (hb : ∀ c ∈ file, c.toNat < 256) :
    file = sizeBytes n ++ rest ∧ n < ULONG_RANGE := by
  unfold readSize at h
  by_cases c : (file.take 8).length ≠ 8
  · rw [if_pos c] at h; cases h
  · rw [if_neg c] at h
    simp only [Option.some.injEq, Prod.mk.injEq] at h
    obtain ⟨h1, h2⟩ := h
    have hs := sizeBytes_sizeOfBytes (file.take 8) (not_not.mp c)
      (fun x hx => hb x (List.mem_of_mem_take hx))
    rw [h1] at hs
    refine ⟨?_, hs.2⟩
    rw [hs.1, ← h2, List.take_append_drop]

theorem readString_some {file s rest : Str} {len : Nat}
    (h : readString len file = some (s, rest)) :
    file = s ++ rest ∧ s.length = len := by
  unfold readString at h
  by_cases c : (file.take len).length ≠ len
  · rw [if_pos c] at h; cases h
  · rw [if_neg c] at h
    simp only [Option.some.injEq, Prod.mk.injEq] at h
    obtain ⟨h1, h2⟩ := h
    refine ⟨?_, ?_⟩
    · rw [← h1, ← h2, List.take_append_drop]
    · rw [← h1]; exact not_not.mp c

theorem readFiles_complete : ∀ (names : List Str) (rest : Str) (acc : List Str),
    (∀ fn ∈ names, fn.length ≤ 4096) →
    readFiles names.length (serializeFiles names ++ rest) acc = some (acc ++ names, rest) := by
  intro names
  induction names with
  | nil => intro rest acc _; simp [readFiles, serializeFiles]
  | cons fn fns ih =>
    intro rest acc h
    have hfn := h fn (by simp)
    have e : serializeFiles (fn :: fns) ++ rest =
        sizeBytes fn.length ++ (fn ++ (serializeFiles fns ++ rest)) := by
      simp [serializeFiles]
    rw [e, List.length_cons, readFiles,
      readSize_sizeBytes _ _ (by simp only [ULONG_RANGE]; omega)]
    dsimp only
    rw [if_neg (by omega), readString_append]
    dsimp only
    rw [ih _ _ (fun x hx => h x (by simp [hx]))]
    simp

theorem readFiles_sound : ∀ (count : Nat) (file : Str) (acc files : List Str) (rest : Str),
    (∀ c ∈ file, c.toNat < 256) → readFiles count file acc = some (files, rest) →
    ∃ names : List Str, names.length = count ∧ (∀ fn ∈ names, fn.length ≤ 4096) ∧
      files = acc ++ names ∧ file = serializeFiles names ++ rest := by
  intro count
  induction count with
  | zero =>
    intro file acc files rest _ h
    simp only [readFiles, Option.some.injEq, Prod.mk.injEq] at h
    exact ⟨[], rfl, by simp, by simp [h.1], by simp [serializeFiles, h.2]⟩
  | succ count ih =>
    intro file acc files rest hb h
    rw [readFiles] at h
    cases h1 : readSize file with
    | none => rw [h1] at h; cases h
    | some r1 =>
      obtain ⟨fnLen, file1⟩ := r1
      rw [h1] at h
      dsimp only at h
      by_cases c : fnLen > 4096
      · rw [if_pos c] at h; cases h
      · rw [if_neg c] at h
        cases h2 : readString fnLen file1 with
        | none => rw [h2] at h; cases h
        | some r2 =>
          obtain ⟨fn, file2⟩ := r2
          rw [h2] at h
          dsimp only at h
          obtain ⟨e1, -⟩ := readSize_some h1 hb
          obtain ⟨e2, e3⟩ := readString_some h2
          have hb2 : ∀ c ∈ file2, c.toNat < 256 := by
            intro x hx; apply hb; rw [e1, e2]; simp [hx]
          obtain ⟨names, n1, n2, n3, n4⟩ := ih file2 _ files rest hb2 h
          refine ⟨fn :: names, by simp [n1], ?_, by simp [n3], ?_⟩
          · intro x hx
            simp only [List.mem_cons] at hx
            rcases hx with rfl | hx
            · omega
            · exact n2 x hx
          · rw [e1, e2, n4, ← e3]; simp [serializeFiles]

theorem storeAll_cons (sessions : Sessions) (pair : Str × List Str) (rest : Sessions) :
    storeAll sessions (pair :: rest) = storeAll (sessionsSet sessions pair.1 pair.2) rest :=
  rfl

theorem readSessions_complete : ∀ (loaded : Sessions) (rest : Str) (acc : Sessions),
    WithinLimits loaded →
    readSessions loaded.length ((loaded.map serializeSession).flatten ++ rest) acc =
      some (storeAll acc loaded) := by
  intro loaded
  induction loaded with
  | nil => intro rest acc _; simp [readSessions, storeAll]
  | cons pair more ih =>
    intro rest acc h
    obtain ⟨l1, l2, l3⟩ := h pair (by simp)
    have e : ((pair :: more).map serializeSession).flatten ++ rest =
        sizeBytes pair.1.length ++ (pair.1 ++ (sizeBytes pair.2.length ++
          (serializeFiles pair.2 ++ ((more.map serializeSession).flatten ++ rest)))) := by
      simp [serializeSession]
    rw [e, List.length_cons, readSessions,
      readSize_sizeBytes _ _ (by simp only [ULONG_RANGE]; omega)]
    dsimp only
    rw [if_neg (by omega), readString_append]
    dsimp only
    rw [readSize_sizeBytes _ _ (by simp only [ULONG_RANGE]; omega)]
    dsimp only
    rw [if_neg (by omega), readFiles_complete _ _ _ l3]
    dsimp only
    rw [List.nil_append, ih _ _ (fun x hx => h x (by simp [hx])), storeAll_cons]

theorem readSessions_sound : ∀ (count : Nat) (file : Str) (acc result : Sessions),
    (∀ c ∈ file, c.toNat < 256) → readSessions count file acc = some result →
    ∃ (loaded : Sessions) (rest : Str), loaded.length = count ∧ WithinLimits loaded ∧
      file = (loaded.map serializeSession).flatten ++ rest ∧ result = storeAll acc loaded := by
  intro count
  induction count with
  | zero =>
    intro file acc result _ h
    simp only [readSessions, Option.some.injEq] at h
    exact ⟨[], file, rfl, (fun x hx => (List.not_mem_nil x hx).elim), by simp, by simp [storeAll, h]⟩
  | succ count ih =>
    intro file acc result hb h
    rw [readSessions] at h
    cases h1 : readSize file with
    | none => rw [h1] at h; cases h
    | some r1 =>
      obtain ⟨sidLen, file1⟩ := r1
      rw [h1] at h
      dsimp only at h
      by_cases c1 : sidLen > 4096
      · rw [if_pos c1] at h; cases h
      · rw [if_neg c1] at h
        cases h2 : readString sidLen file1 with
        | none => rw [h2] at h; cases h
        | some r2 =>
          obtain ⟨sid, file2⟩ := r2
          rw [h2] at h
          dsimp only at h
          cases h3 : readSize file2 with
          | none => rw [h3] at h; cases h
          | some r3 =>
            obtain ⟨fileCount, file3⟩ := r3
            rw [h3] at h
            dsimp only at h
            by_cases c2 : fileCount > 10000
            · rw [if_pos c2] at h; cases h
            · rw [if_neg c2] at h
              cases h4 : readFiles fileCount file3 [] with
              | none => rw [h4] at h; cases h
              | some r4 =>
                obtain ⟨files, file4⟩ := r4
                rw [h4] at h
                dsimp only at h
                obtain ⟨e1, -⟩ := readSize_some h1 hb
                obtain ⟨e2, e2l⟩ := readString_some h2
                have hb2 : ∀ c ∈ file2, c.toNat < 256 := by
                  intro x hx; apply hb; rw [e1, e2]; simp [hx]
                obtain ⟨e3, -⟩ := readSize_some h3 hb2
                have hb3 : ∀ c ∈ file3, c.toNat < 256 := by
                  intro x hx; apply hb2; rw [e3]; simp [hx]
                obtain ⟨names, n1, n2, n3, n4⟩ := readFiles_sound _ _ _ _ _ hb3 h4
                have hb4 : ∀ c ∈ file4, c.toNat < 256 := by
                  intro x hx; apply hb3; rw [n4]; simp [hx]
                obtain ⟨loaded, rest, m1, m2, m3, m4⟩ := ih file4 _ result hb4 h
                rw [List.nil_append] at n3
                subst n3
                refine ⟨(sid, files) :: loaded, rest, by simp [m1], ?_, ?_, ?_⟩
                · intro x hx
                  simp only [List.mem_cons] at hx
                  rcases hx with rfl | hx
                  · exact ⟨by simp only; omega, by simp only; omega, n2⟩
                  · exact m2 x hx
                · rw [e1, e2, e3, n4, m3, ← e2l, ← n1]
                  simp [serializeSession]
                · rw [m4, storeAll_cons]

/-- A file that holds a dump within the limits, followed by anything, is loaded. -/
theorem deserialize_dump (sessions loaded : Sessions) (trailing : Str)
    (hcount : loaded.length < ULONG_RANGE) (hlimits : WithinLimits loaded) :
    deserialize sessions (some (serializeBytes loaded ++ trailing)) = storeAll [] loaded := by
  unfold deserialize
  dsimp only
  rw [serializeBytes_eq, List.append_assoc, readSize_sizeBytes _ _ hcount]
  dsimp only
  rw [readSessions_complete loaded trailing [] hlimits]

/-- A file that is loaded holds a dump within the limits, followed by the bytes that are
not read. -/
theorem deserialize_sound (sessions : Sessions) (content : Str)
    (hb : ∀ c ∈ content, c.toNat < 256) :
    deserialize sessions (some content) = [] ∨
    ∃ (loaded : Sessions) (trailing : Str), loaded.length < ULONG_RANGE ∧
      WithinLimits loaded ∧ content = serializeBytes loaded ++ trailing := by
  unfold deserialize
  dsimp only
  cases h1 : readSize content with
  | none => left; rfl
  | some r1 =>
    obtain ⟨count, rest⟩ := r1
    dsimp only
    cases h2 : readSessions count rest [] with
    | none => left; rfl
    | some result =>
      right
      obtain ⟨e1, e1l⟩ := readSize_some h1 hb
      have hb2 : ∀ c ∈ rest, c.toNat < 256 := by
        intro x hx; apply hb; rw [e1]; simp [hx]
      obtain ⟨loaded, trailing, m1, m2, m3, -⟩ := readSessions_sound _ _ _ _ hb2 h2
      refine ⟨loaded, trailing, by rw [m1]; exact e1l, m2, ?_⟩
      rw [e1, m3, serializeBytes_eq, m1, List.append_assoc]

theorem sessionsSet_of_not_mem : ∀ (sessions : Sessions) (k : Str) (v : List Str),
    k ∉ sessions.map Prod.fst → sessionsSet sessions k v = sessions ++ [(k, v)] := by
  intro sessions
  induction sessions with
  | nil => intro k v _; rfl
  | cons e rest ih =>
    intro k v h
    obtain ⟨a, b⟩ := e
    simp only [List.map_cons, List.mem_cons, not_or] at h
    unfold sessionsSet
    rw [if_neg (fun hab => h.1 hab.symm), ih k v h.2]
    rfl

theorem storeAll_of_nodup : ∀ (loaded sessions : Sessions),
    ((sessions ++ loaded).map Prod.fst).Nodup → storeAll sessions loaded = sessions ++ loaded := by
  intro loaded
  induction loaded with
  | nil => intro sessions _; simp [storeAll]
  | cons pair more ih =>
    intro sessions h
    have hk : pair.1 ∉ sessions.map Prod.fst := by
      simp only [List.map_append, List.map_cons] at h
      have := (List.nodup_append.mp h).2.2
      intro hm
      exact this hm (by simp)
    rw [storeAll_cons, sessionsSet_of_not_mem sessions pair.1 pair.2 hk,
      ih _ (by simpa using h)]
    simp

theorem sessionsFind_storeAll_isSome : ∀ (loaded sessions : Sessions) (id : Str),
    (id ∈ loaded.map Prod.fst ∨ (sessionsFind sessions id).isSome = true) →
    (sessionsFind (storeAll sessions loaded) id).isSome = true := by
  intro loaded
  induction loaded with
  | nil =>
    intro sessions id h
    rcases h with h | h
    · simp at h
    · exact h
  | cons pair more ih =>
    intro sessions id h
    rw [storeAll_cons]
    apply ih
    simp only [List.map_cons, List.mem_cons] at h
    rw [sessionsFind_sessionsSet]
    by_cases c : pair.1 = id
    · right; rw [if_pos c]; rfl
    · rw [if_neg c]
      rcases h with (h | h) | h
      · exact absurd h.symm c
      · exact Or.inl h
      · exact Or.inr h

/-- A dump whose first session has an id of more than 4096 bytes is refused. -/
theorem deserialize_long_id (sessions : Sessions) (sid : Str) (files : List Str)
    (more : Sessions) (trailing : Str) (hlong : 4096 < sid.length)
    (hsid : sid.length < ULONG_RANGE) (hcount : more.length + 1 < ULONG_RANGE) :
    deserialize sessions (some (serializeBytes ((sid, files) :: more) ++ trailing)) = [] := by
  have e : serializeBytes ((sid, files) :: more) ++ trailing =
      sizeBytes (more.length + 1) ++ (sizeBytes sid.length ++ (sid ++
        (sizeBytes files.length ++ (serializeFiles files ++
          ((more.map serializeSession).flatten ++ trailing))))) := by
    simp [serializeBytes_eq, serializeSession]
  unfold deserialize
  dsimp only
  rw [e, readSize_sizeBytes _ _ hcount]
  dsimp only
  rw [readSessions, readSize_sizeBytes _ _ hsid]
  dsimp only
  rw [if_pos hlong]

/-- A dump whose first session has more than 10000 file names is refused. -/
theorem deserialize_many_files (sessions : Sessions) (sid : Str) (files : List Str)
    (more : Sessions) (trailing : Str) (hsid : sid.length ≤ 4096)
    (hmany : 10000 < files.length) (hfiles : files.length < ULONG_RANGE)
    (hcount : more.length + 1 < ULONG_RANGE) :
    deserialize sessions (some (serializeBytes ((sid, files) :: more) ++ trailing)) = [] := by
  have e : serializeBytes ((sid, files) :: more) ++ trailing =
      sizeBytes (more.length + 1) ++ (sizeBytes sid.length ++ (sid ++
        (sizeBytes files.length ++ (serializeFiles files ++
          ((more.map serializeSession).flatten ++ trailing))))) := by
    simp [serializeBytes_eq, serializeSession]
  unfold deserialize
  dsimp only
  rw [e, readSize_sizeBytes _ _ hcount]
  dsimp only
  rw [readSessions, readSize_sizeBytes _ _ (by simp only [ULONG_RANGE]; omega)]
  dsimp only
  rw [if_neg (by omega), readString_append]
  dsimp only
  rw [readSize_sizeBytes _ _ hfiles]
  dsimp only
  rw [if_pos hmany]

theorem serialize_of_accepted (accepted : Nat) (sessions : Sessions)
    (h : (serializeBytes sessions).length ≤ accepted) :
    serialize accepted sessions = serializeBytes sessions := by
  unfold serialize
  exact List.take_of_length_le h

/-- C18, counterexamples: a registry with one session whose id has 4097 bytes, and a
registry with one session that has 10001 file names, are written in full and read back as
the empty registry. -/
theorem long_id_not_read_back :
    (deserialize [(longId, [])]
      (some (serialize (serializeBytes [(longId, [])]).length [(longId, [])])) = [] ∧
      sessionsFind (deserialize [(longId, [])]
        (some (serialize (serializeBytes [(longId, [])]).length [(longId, [])]))) longId ≠
        sessionsFind [(longId, [])] longId) ∧
    (deserialize [("s".toList, manyFiles)]
      (some (serialize (serializeBytes [("s".toList, manyFiles)]).length
        [("s".toList, manyFiles)])) = [] ∧
      sessionsFind (deserialize [("s".toList, manyFiles)]
        (some (serialize (serializeBytes [("s".toList, manyFiles)]).length
          [("s".toList, manyFiles)]))) "s".toList ≠
        sessionsFind [("s".toList, manyFiles)] "s".toList) := by
  have hid : longId.length = 4097 := by
    unfold longId; exact List.length_replicate 4097 'a'
  have hmany : manyFiles.length = 10001 := by
    unfold manyFiles; exact List.length_replicate 10001 _
  have hd : deserialize [(longId, [])]
      (some (serialize (serializeBytes [(longId, [])]).length [(longId, [])])) = [] := by
    rw [serialize_of_accepted _ _ (le_refl _)]
    have := deserialize_long_id [(longId, [])] longId [] [] []
      (by rw [hid]; decide) (by rw [hid]; decide) (by decide)
    rw [List.append_nil] at this
    exact this
  have hm : deserialize [("s".toList, manyFiles)]
      (some (serialize (serializeBytes [("s".toList, manyFiles)]).length
        [("s".toList, manyFiles)])) = [] := by
    rw [serialize_of_accepted _ _ (le_refl _)]
    have := deserialize_many_files [("s".toList, manyFiles)] "s".toList manyFiles [] []
      (by decide) (by rw [hmany]; decide) (by rw [hmany]; decide) (by decide)
    rw [List.append_nil] at this
    exact this
  refine ⟨⟨hd, ?_⟩, hm, ?_⟩
  · rw [hd]
    unfold sessionsFind
    rw [if_pos rfl]
    exact fun h => Option.noConfusion h
  · rw [hm]
    unfold sessionsFind
    rw [if_pos rfl]
    exact fun h => Option.noConfusion h

/-- C18, amended: for a registry with at most 10000 names in a session and ids and names of
at most 4096 bytes, `deserialize` on the file that `serialize` has written in full gives a
registry with the same session ids, each with the same file names in the same order,
whatever the registry held before. -/
theorem serialize_deserialize (prior registry : Sessions) (accepted : Nat)
    (hkeys : (registry.map Prod.fst).Nodup) (hcount : registry.length < ULONG_RANGE)
    (hlimits : WithinLimits registry)
    (hwritten : (serializeBytes registry).length ≤ accepted) :
    ∀ id : Str,
      sessionsFind (deserialize prior (some (serialize accepted registry))) id =
        sessionsFind registry id := by
  intro id
  rw [serialize_of_accepted _ _ hwritten]
  have h := deserialize_dump prior registry [] hcount hlimits
  rw [List.append_nil] at h
  rw [h, storeAll_of_nodup registry [] (by simpa using hkeys)]
  rfl

/-- C18, amended, on a registry with two sessions, read back into a registry that held a
third one: the session `ab` has its two files and the session `old` is gone. -/
theorem serialize_deserialize_witness :
    sessionsFind (deserialize [("old".toList, [])]
      (some (serialize 1000
        [("ab".toList, ["f".toList, "gh".toList]), ("c".toList, [])]))) "ab".toList =
      sessionsFind [("ab".toList, ["f".toList, "gh".toList]), ("c".toList, [])] "ab".toList ∧
    sessionsFind (deserialize [("old".toList, [])]
      (some (serialize 1000
        [("ab".toList, ["f".toList, "gh".toList]), ("c".toList, [])]))) "old".toList =
      sessionsFind [("ab".toList, ["f".toList, "gh".toList]), ("c".toList, [])] "old".toList :=
  ⟨serialize_deserialize [("old".toList, [])]
      [("ab".toList, ["f".toList, "gh".toList]), ("c".toList, [])] 1000
      (by decide) (by decide) (by unfold WithinLimits; decide) (by decide) "ab".toList,
    serialize_deserialize [("old".toList, [])]
      [("ab".toList, ["f".toList, "gh".toList]), ("c".toList, [])] 1000
      (by decide) (by decide) (by unfold WithinLimits; decide) (by decide) "old".toList⟩

/-- C19: on a file that opens and polls readable, whatever the registry held before: if
the content (a sequence of bytes) is not a complete dump with ids and names of at most 4096
bytes and at most 10000 names in a session, followed by anything (so a read comes up short
or a length is over its limit), the registry is empty after `deserialize`; and a complete
dump within these limits, the limits included, is loaded: the registry holds the sessions
of the file and nothing of what it held before. -/
theorem deserialize_failure_clears (prior : Sessions) (content : Str) :
    ((∀ c ∈ content, c.toNat < 256) →
      (¬ ∃ (loaded : Sessions) (trailing : Str), loaded.length < ULONG_RANGE ∧
        WithinLimits loaded ∧ content = serializeBytes loaded ++ trailing) →
      deserialize prior (some content) = []) ∧
    (∀ (loaded : Sessions) (trailing : Str), loaded.length < ULONG_RANGE →
      WithinLimits loaded → content = serializeBytes loaded ++ trailing →
      deserialize prior (some content) = storeAll [] loaded ∧
      ∀ pair ∈ loaded,
        (sessionsFind (deserialize prior (some content)) pair.1).isSome = true) := by
  constructor
  · intro hb hnot
    rcases deserialize_sound prior content hb with h | h
    · exact h
    · exact absurd h hnot
  · intro loaded trailing hcount hlimits hc
    have h := deserialize_dump prior loaded trailing hcount hlimits
    rw [← hc] at h
    refine ⟨h, ?_⟩
    intro pair hp
    rw [h]
    exact sessionsFind_storeAll_isSome loaded [] pair.1
      (Or.inl (List.mem_map_of_mem Prod.fst hp))

/-- C19 on an empty file, which leaves the registry empty, and on the dump of a session at
the limits, which is loaded. -/
theorem deserialize_failure_clears_witness :
    deserialize [("old".toList, [])] (some []) = [] ∧
    (sessionsFind (deserialize [("old".toList, [])]
      (some (serializeBytes [sessionAtLimits] ++ []))) sessionAtLimits.1).isSome = true :=
  ⟨(deserialize_failure_clears [("old".toList, [])] []).1
      (fun c hc => (List.not_mem_nil c hc).elim)
      (fun ⟨loaded, trailing, _, _, h⟩ => by
        have := congrArg List.length h
        simp [serializeBytes, sizeBytes_length] at this
        omega),
    ((deserialize_failure_clears [("old".toList, [])]
        (serializeBytes [sessionAtLimits] ++ [])).2 [sessionAtLimits] [] (by decide)
      (by
        intro pair hp
        simp only [List.mem_singleton] at hp
        subst hp
        simp only [sessionAtLimits, List.length_replicate, List.mem_replicate]
        refine ⟨by decide, by decide, ?_⟩
        rintro fn ⟨-, rfl⟩
        rw [List.length_replicate])
      rfl).2 sessionAtLimits (List.mem_singleton.mpr rfl)⟩

/-! ## Session ids from the cookie header -/

theorem find_semicolon_takeWhile : ∀ (s : Str),
    (find s [';'] = none → s.takeWhile (fun c => c ≠ ';') = s) ∧
    (∀ e, find s [';'] = some e → s.takeWhile (fun c => c ≠ ';') = s.take e) := by
  intro s
  induction s with
  | nil => simp [find]
  | cons c t ih =>
    unfold find
    by_cases h : c = ';'
    · subst h
      simp [List.isPrefixOf]
    · have hp : List.isPrefixOf [';'] (c :: t) = false := by
        simp [List.isPrefixOf, Ne.symm h]
      rw [hp]
      simp only [Bool.false_eq_true, if_false]
      rw [List.takeWhile_cons_of_pos (by simp [h])]
      cases hf : find t [';'] with
      | none =>
        refine ⟨fun _ => by rw [ih.1 hf], fun e he => by simp at he⟩
      | some e0 =>
        refine ⟨fun he => by simp at he, fun e he => ?_⟩
        simp only [Option.map_some', Option.some.injEq] at he
        subst he
        rw [ih.2 e0 hf, List.take_succ_cons]

/-- The id that `getSessionId` takes from the header is the value of the cookie. -/
theorem getSessionId_eq (sessions : Sessions) (cookieHeader : Str) (val : Nat) :
    (find cookieHeader "sessionId=".toList = none →
      getSessionId sessions cookieHeader val =
        (generateSessionId val, true, sessionsSet sessions (generateSessionId val) [])) ∧
    (∀ found, find cookieHeader "sessionId=".toList = some found →
      getSessionId sessions cookieHeader val =
        if (sessionsFind sessions (cookieValue cookieHeader found)).isSome then
          (cookieValue cookieHeader found, false, sessions)
        else
          (generateSessionId val, true, sessionsSet sessions (generateSessionId val) [])) := by
  constructor
  · intro hf
    unfold getSessionId
    rw [hf]
  · intro found hf
    have hl : "sessionId=".length = 10 := by decide
    have h2 := find_semicolon_takeWhile (cookieHeader.drop (found + 10))
    unfold getSessionId
    rw [hf]
    dsimp only
    unfold findFrom cookieValue
    rw [hl]
    cases he : find (cookieHeader.drop (found + 10)) [';'] with
    | none =>
      simp only [Option.map_none']
      rw [h2.1 he]
    | some e =>
      simp only [Option.map_some', Nat.add_sub_cancel]
      rw [h2.2 e he]

/-- C20, counterexample: when the random engine gives 0 and the registry holds the session
`0000000000000000` with a file, the header without a cookie gets that id with `isNew` true:
the id was a key before the call and the session has lost its file. -/
theorem generated_id_can_be_taken :
    (getSessionId [("0000000000000000".toList, ["f".toList])] [] 0).1 =
      "0000000000000000".toList ∧
    (getSessionId [("0000000000000000".toList, ["f".toList])] [] 0).2.1 = true ∧
    sessionsFind [("0000000000000000".toList, ["f".toList])]
      (getSessionId [("0000000000000000".toList, ["f".toList])] [] 0).1 =
        some ["f".toList] ∧
    sessionsFind (getSessionId [("0000000000000000".toList, ["f".toList])] [] 0).2.2
      "0000000000000000".toList = some [] := by
  decide

/-- C20, amended: if the header holds `sessionId=` and the text after its first occurrence
up to the next `;` (or the end) is a key of the registry, `getSessionId` returns that text
with `isNew` false and leaves the registry as it is.  In every other case it returns the
generated id with `isNew` true, afterwards that id has an empty file list and every other
id has the list it had; and if the generated id was not a key before the call, every
session that existed keeps its file list. -/
theorem getSessionId_reuses_or_creates (sessions : Sessions) (cookieHeader : Str)
    (val : Nat) :
    (∀ found, find cookieHeader "sessionId=".toList = some found →
      (sessionsFind sessions (cookieValue cookieHeader found)).isSome = true →
      getSessionId sessions cookieHeader val =
        (cookieValue cookieHeader found, false, sessions)) ∧
    ((find cookieHeader "sessionId=".toList = none ∨
        ∃ found, find cookieHeader "sessionId=".toList = some found ∧
          sessionsFind sessions (cookieValue cookieHeader found) = none) →
      (getSessionId sessions cookieHeader val).1 = generateSessionId val ∧
      (getSessionId sessions cookieHeader val).2.1 = true ∧
      sessionsFind (getSessionId sessions cookieHeader val).2.2 (generateSessionId val) =
        some [] ∧
      (∀ id, id ≠ generateSessionId val →
        sessionsFind (getSessionId sessions cookieHeader val).2.2 id =
          sessionsFind sessions id) ∧
      (sessionsFind sessions (generateSessionId val) = none →
        ∀ id files, sessionsFind sessions id = some files →
          sessionsFind (getSessionId sessions cookieHeader val).2.2 id = some files)) := by
  obtain ⟨h1, h2⟩ := getSessionId_eq sessions cookieHeader val
  constructor
  · intro found hf hkey
    rw [h2 found hf, if_pos hkey]
  · intro h
    have e : getSessionId sessions cookieHeader val =
        (generateSessionId val, true, sessionsSet sessions (generateSessionId val) []) := by
      rcases h with h | ⟨found, hf, hkey⟩
      · exact h1 h
      · rw [h2 found hf, if_neg (by rw [hkey]; simp)]
    rw [e]
    refine ⟨rfl, rfl, ?_, ?_, ?_⟩
    · show sessionsFind (sessionsSet sessions (generateSessionId val) [])
        (generateSessionId val) = some []
      rw [sessionsFind_sessionsSet, if_pos rfl]
    · intro id hid
      show sessionsFind (sessionsSet sessions (generateSessionId val) []) id =
        sessionsFind sessions id
      rw [sessionsFind_sessionsSet, if_neg (Ne.symm hid)]
    · intro hfresh id files hfiles
      show sessionsFind (sessionsSet sessions (generateSessionId val) []) id = some files
      rw [sessionsFind_sessionsSet]
      by_cases c : generateSessionId val = id
      · rw [c, hfiles] at hfresh; cases hfresh
      · rw [if_neg c, hfiles]

/-- C20, amended, on the header `sessionId=abc; lang=en` with a registry that holds `abc`
and with one that does not. -/
theorem getSessionId_reuses_or_creates_witness :
    getSessionId [("abc".toList, ["f".toList])] "sessionId=abc; lang=en".toList 7 =
      ("abc".toList, false, [("abc".toList, ["f".toList])]) ∧
    (getSessionId [("abd".toList, ["f".toList])] "sessionId=abc; lang=en".toList 7).1 =
      "0000000000000007".toList ∧
    (getSessionId [("abd".toList, ["f".toList])] "sessionId=abc; lang=en".toList 7).2.1 =
      true :=
  ⟨(getSessionId_reuses_or_creates [("abc".toList, ["f".toList])]
      "sessionId=abc; lang=en".toList 7).1 0 (by decide) (by decide),
    ((getSessionId_reuses_or_creates [("abd".toList, ["f".toList])]
      "sessionId=abc; lang=en".toList 7).2 (Or.inr ⟨0, by decide, by decide⟩)).1,
    ((getSessionId_reuses_or_creates [("abd".toList, ["f".toList])]
      "sessionId=abc; lang=en".toList 7).2 (Or.inr ⟨0, by decide, by decide⟩)).2.1⟩

/-! ## Reset -/

/-- C24: from every parser, `reset` gives a parser in REQUEST_LINE with an empty buffer,
status code 400, content length 0, the chunked flag and the chunk-size flag cleared and a
new request (no method, no headers, header count 0, no body); it is the parser that the
constructor makes for the connection, so the same `parse` calls give the same return values
and the same parsers. -/
theorem reset_equals_create (p : HttpParser) :
    p.reset.state = ParseState.REQUEST_LINE ∧ p.reset.buffer = [] ∧
    p.reset.errorCode = BAD_REQUEST ∧ p.reset.contentLength = 0 ∧
    p.reset.chunkedTransfer = false ∧ p.reset.hasChunkSize = false ∧
    p.reset.chunkSize = 0 ∧ p.reset.request.method = none ∧
    p.reset.request.headers = [] ∧ p.reset.request.headerCount = 0 ∧
    p.reset.request.body = [] ∧ p.reset.request.totalBodySize = 0 ∧
    p.reset = HttpParser.create p.config ∧
    ∀ (pool : ServerPool) (clock : Nat → Nat) (fragments : List Str),
      feed pool clock p.reset fragments = feed pool clock (HttpParser.create p.config) fragments :=
  ⟨rfl, rfl, rfl, rfl, rfl, rfl, rfl, rfl, rfl, rfl, rfl, rfl, rfl, fun _ _ _ => rfl⟩

/-! ## Chunk sizes near `2 ^ 64` -/

/-- C28, the code at the chunk-size line `FFFFFFFFFFFFFFFF` after a chunk of one byte,
with a body limit of 1000: the line is accepted (1 + (2 ^ 64 - 1) is 0 modulo 2 ^ 64), and
when the two bytes CRLF arrive the test `buffer.length() < chunkSize + 2` compares 2 with 1
and lets the parser go on to `buffer[chunkSize]`, an index outside the two bytes of the
buffer (the model reads a null character there and ends in ERROR). -/
theorem chunk_size_wraps_past_buffer :
    (parse examplePool 0 (HttpParser.create exampleConfig)
      (chunkedHead ++ "1\r\na\r\nFFFFFFFFFFFFFFFF\r\n".toList)).2.state = ParseState.BODY ∧
    (parse examplePool 0 (HttpParser.create exampleConfig)
      (chunkedHead ++ "1\r\na\r\nFFFFFFFFFFFFFFFF\r\n".toList)).2.hasChunkSize = true ∧
    (parse examplePool 0 (HttpParser.create exampleConfig)
      (chunkedHead ++ "1\r\na\r\nFFFFFFFFFFFFFFFF\r\n".toList)).2.chunkSize = 2 ^ 64 - 1 ∧
    (parse examplePool 0 (HttpParser.create exampleConfig)
      (chunkedHead ++ "1\r\na\r\nFFFFFFFFFFFFFFFF\r\n".toList)).2.buffer = [] ∧
    ¬ (("\r\n".toList).length <
      ((parse examplePool 0 (HttpParser.create exampleConfig)
        (chunkedHead ++ "1\r\na\r\nFFFFFFFFFFFFFFFF\r\n".toList)).2.chunkSize + 2) %
        ULONG_RANGE) ∧
    ("\r\n".toList).length ≤
      (parse examplePool 0 (HttpParser.create exampleConfig)
        (chunkedHead ++ "1\r\na\r\nFFFFFFFFFFFFFFFF\r\n".toList)).2.chunkSize ∧
    (parse examplePool 0 (parse examplePool 0 (HttpParser.create exampleConfig)
        (chunkedHead ++ "1\r\na\r\nFFFFFFFFFFFFFFFF\r\n".toList)).2 "\r\n".toList).2.state =
      ParseState.ERROR := by
  decide

/-! ## The words of the request line -/

/-- What one `operator>>` that succeeds has found: white space, then the word, then the
end of the stream or white space. -/
theorem extractToken_some {s tok rest : Str} (h : extractToken s = some (tok, rest)) :
    ∃ pre : Str, s = pre ++ (tok ++ rest) ∧ (∀ c ∈ pre, isspace c = true) ∧ IsWord tok ∧
      (rest = [] ∨ ∃ c t, rest = c :: t ∧ isspace c = true) ∧
      (s.head?.map isspace = some false → pre = []) := by
  unfold extractToken at h
  dsimp only at h
  by_cases c : (s.dropWhile isspace).takeWhile (fun c => !isspace c) = []
  · rw [if_pos c] at h; cases h
  · rw [if_neg c] at h
    simp only [Option.some.injEq, Prod.mk.injEq] at h
    obtain ⟨h1, h2⟩ := h
    refine ⟨s.takeWhile isspace, ?_, ?_, ⟨?_, ?_⟩, ?_, ?_⟩
    · rw [← h1, ← h2, List.takeWhile_append_dropWhile, List.takeWhile_append_dropWhile]
    · intro x hx; exact List.mem_takeWhile_imp hx
    · rw [← h1]; exact c
    · intro x hx
      rw [← h1] at hx
      have := List.mem_takeWhile_imp hx
      simpa using this
    · have hd := List.head?_dropWhile_not (fun c => !isspace c) (s.dropWhile isspace)
      rw [h2] at hd
      cases rest with
      | nil => left; rfl
      | cons x t =>
        right
        simp only [List.head?_cons] at hd
        exact ⟨x, t, rfl, by simpa using hd⟩
    · intro hs
      cases s with
      | nil => rfl
      | cons x t =>
        simp only [List.head?_cons, Option.map_some', Option.some.injEq] at hs
        rw [List.takeWhile_cons_of_neg (by simp [hs])]

theorem gap_of_pre {pre tok rest r : Str} (hr : r = pre ++ (tok ++ rest))
    (hpre : ∀ c ∈ pre, isspace c = true) (htok : IsWord tok)
    (hhead : r = [] ∨ ∃ c t, r = c :: t ∧ isspace c = true) : IsGap pre := by
  refine ⟨?_, hpre⟩
  rintro rfl
  obtain ⟨hne, hw⟩ := htok
  cases tok with
  | nil => exact hne rfl
  | cons x t =>
    have hx := hw x (by simp)
    rcases hhead with h | ⟨c, t1, h, hc⟩
    · rw [h] at hr; cases hr
    · rw [h] at hr
      simp only [List.nil_append, List.cons_append, List.cons.injEq] at hr
      rw [hr.1, hx] at hc
      cases hc

/-- Three extractions that use up a line without white space in front have found three
words with gaps between them. -/
theorem threeWords_of_tokens {line m r1 u r2 v : Str}
    (hhead : ¬ (line = [] ∨ isspace (line.headD ' ') = true))
    (h1 : extractToken line = some (m, r1)) (h2 : extractToken r1 = some (u, r2))
    (h3 : extractToken r2 = some (v, [])) : ThreeWords line m u v := by
  obtain ⟨p1, e1, -, w1, t1, n1⟩ := extractToken_some h1
  obtain ⟨p2, e2, s2, w2, t2, -⟩ := extractToken_some h2
  obtain ⟨p3, e3, s3, w3, -, -⟩ := extractToken_some h3
  have hp1 : p1 = [] := by
    apply n1
    cases line with
    | nil => exact absurd (Or.inl rfl) hhead
    | cons x t =>
      simp only [List.headD_cons, not_or, Bool.not_eq_true] at hhead
      simp [hhead.2]
  subst hp1
  have g1 := gap_of_pre e2 s2 w2 t1
  have g2 := gap_of_pre e3 s3 w3 t2
  refine ⟨p2, p3, ?_, w1, w2, w3, g1, g2⟩
  rw [e1, List.nil_append, e2, e3, List.append_nil]

/-- A line of three words gives its words to the three extractions of `parseRequestLine`. -/
theorem parseRequestLine_words (pool : ServerPool) (now : Nat) (p : HttpParser)
    (line more m u v : Str) (hbuf : p.buffer = line ++ CRLF ++ more) (hline : IsLine line)
    (hlen : line.length ≤ pool.max_request_line_size) (hw : ThreeWords line m u v) :
    parseRequestLine pool now p = acceptRequestLine now { p with buffer := more } m u v [] := by
  obtain ⟨gap1, gap2, e, w1, w2, w3, g1, g2⟩ := hw
  have hfind := find_line line more hline
  have htake := take_line line more
  have hgap : ∀ (g rest : Str), IsGap g → ∃ c t, g ++ rest = c :: t ∧ isspace c = true := by
    intro g rest hg
    cases g with
    | nil => exact absurd rfl hg.1
    | cons x t => exact ⟨x, t ++ rest, rfl, hg.2 x (by simp)⟩
  have t1 : extractToken line = some (m, gap1 ++ (u ++ (gap2 ++ v))) := by
    rw [e]
    exact extractToken_word [] m _ (by simp) w1.1 w1.2 (Or.inr (hgap _ _ g1))
  have t2 : extractToken (gap1 ++ (u ++ (gap2 ++ v))) = some (u, gap2 ++ v) :=
    extractToken_word gap1 u _ g1.2 w2.1 w2.2 (Or.inr (hgap _ _ g2))
  have t3 : extractToken (gap2 ++ v) = some (v, []) := by
    have := extractToken_word gap2 v [] g2.2 w3.1 w3.2 (Or.inl rfl)
    rwa [List.append_nil] at this
  have hhead : ¬ (line = [] ∨ isspace (line.headD ' ') = true) := by
    rw [e]
    obtain ⟨hne, hs⟩ := w1
    cases m with
    | nil => exact absurd rfl hne
    | cons c t =>
      have := hs c (by simp)
      simp [this]
  unfold parseRequestLine
  rw [hbuf, hfind]
  dsimp only
  rw [if_neg (by omega), htake.1, htake.2, if_neg hhead, t1]
  dsimp only
  rw [t2]
  dsimp only
  rw [t3]

theorem parseRequestLine_no_words (pool : ServerPool) (now : Nat) (p : HttpParser)
    (line more : Str) (hbuf : p.buffer = line ++ CRLF ++ more) (hline : IsLine line)
    (hlen : line.length ≤ pool.max_request_line_size)
    (hno : ¬ ∃ m u v, ThreeWords line m u v) :
    (parseRequestLine pool now p).1 = false ∧
    (parseRequestLine pool now p).2.state = ParseState.ERROR ∧
    ((parseRequestLine pool now p).2.errorCode = p.errorCode ∨
      (parseRequestLine pool now p).2.errorCode = BAD_REQUEST) := by
  have hfind := find_line line more hline
  have htake := take_line line more
  unfold parseRequestLine
  rw [hbuf, hfind]
  dsimp only
  rw [if_neg (by omega), htake.1, htake.2]
  by_cases hhead : line = [] ∨ isspace (line.headD ' ') = true
  · rw [if_pos hhead]; exact ⟨rfl, rfl, Or.inr rfl⟩
  · rw [if_neg hhead]
    cases h1 : extractToken line with
    | none => exact ⟨rfl, rfl, Or.inl rfl⟩
    | some a1 =>
      obtain ⟨m, r1⟩ := a1
      dsimp only
      cases h2 : extractToken r1 with
      | none => exact ⟨rfl, rfl, Or.inl rfl⟩
      | some a2 =>
        obtain ⟨u, r2⟩ := a2
        dsimp only
        cases h3 : extractToken r2 with
        | none => exact ⟨rfl, rfl, Or.inl rfl⟩
        | some a3 =>
          obtain ⟨v, r3⟩ := a3
          dsimp only
          cases r3 with
          | nil => exact absurd ⟨m, u, v, threeWords_of_tokens hhead h1 h2 h3⟩ hno
          | cons x t =>
            unfold acceptRequestLine
            rw [if_pos (by simp)]
            exact ⟨rfl, rfl, Or.inl rfl⟩

/-- The result of `acceptRequestLine` when nothing follows the three words. -/
theorem acceptRequestLine_nil (now : Nat) (p : HttpParser) (m u v : Str) :
    ((acceptRequestLine now p m u v []).1 = true ↔
      (stringToMethod m).isSome = true ∧
      (u.head? = some '/' ∨ find u "://".toList ≠ none) ∧ versionRefused v = false) ∧
    (¬ ((stringToMethod m).isSome = true ∧
        (u.head? = some '/' ∨ find u "://".toList ≠ none)) →
      (acceptRequestLine now p m u v []).1 = false ∧
      (acceptRequestLine now p m u v []).2.state = ParseState.ERROR ∧
      (acceptRequestLine now p m u v []).2.errorCode = p.errorCode) := by
  unfold acceptRequestLine
  rw [if_neg (by simp)]
  cases hm : stringToMethod m with
  | none =>
    dsimp only
    exact ⟨⟨fun h => Bool.noConfusion h, fun h => Bool.noConfusion h.1⟩,
      fun _ => ⟨rfl, rfl, rfl⟩⟩
  | some method =>
    dsimp only
    by_cases c : (u = [] ∨ u.head? ≠ some '/') ∧ find u "://".toList = none
    · rw [if_pos c]
      refine ⟨⟨fun h => Bool.noConfusion h, fun h => ?_⟩, fun _ => ⟨rfl, rfl, rfl⟩⟩
      rcases h.2.1 with h1 | h1
      · rcases c.1 with c1 | c1
        · rw [c1] at h1; cases h1
        · exact absurd h1 c1
      · exact absurd c.2 h1
    · rw [if_neg c]
      have hu : u.head? = some '/' ∨ find u "://".toList ≠ none := by
        by_contra hn
        push_neg at hn
        exact c ⟨Or.inr hn.1, hn.2⟩
      by_cases hv : versionRefused v = true
      · rw [if_pos hv]
        refine ⟨⟨fun h => Bool.noConfusion h, fun h => ?_⟩, fun h => ?_⟩
        · rw [h.2.2] at hv; cases hv
        · exact absurd ⟨rfl, hu⟩ h
      · rw [if_neg hv]
        have hv2 : versionRefused v = false := by simpa using hv
        refine ⟨⟨fun _ => ⟨rfl, hu, hv2⟩, fun _ => rfl⟩, fun h => ?_⟩
        exact absurd ⟨rfl, hu⟩ h

/-- C25, counterexample: the line `GET`, two spaces, `/`, a tab, `HTTP/1.1` is accepted;
the parser is in HEADERS. -/
theorem repeated_space_and_tab_accepted :
    (parse examplePool 0 (HttpParser.create exampleConfig)
      "GET  /\tHTTP/1.1\r\n".toList).2.state = ParseState.HEADERS ∧
    (parse examplePool 0 (HttpParser.create exampleConfig)
      "GET  /\tHTTP/1.1\r\n".toList).2.request.uri = "/".toList := by
  decide

/-- C25, amended: for a parser fed from its construction on that is in REQUEST_LINE, and a
first line within the length limit: `parseRequestLine` moves to HEADERS if and only if the
line is made of three words (without white space) with a gap of one or more white-space
characters after the first and after the second, and nothing before or after them, the
first word is one of the seven methods, the second begins with `/` or holds `://`, and the
third passes the version test; and if the line is not three such words with such a method
and URI, the call ends in ERROR with status 400. -/
theorem request_line_three_words (pool : ServerPool) (config : ClientConfig)
    (clock : Nat → Nat) (fragments : List Str) (now : Nat) (data line more : Str)
    (hs : (feed pool clock (HttpParser.create config) fragments).2.state =
      ParseState.REQUEST_LINE)
    (hbuf : (feed pool clock (HttpParser.create config) fragments).2.buffer ++ data =
      line ++ CRLF ++ more)
    (hline : IsLine line) (hlen : line.length ≤ pool.max_request_line_size) :
    ((parseRequestLine pool now
        ((feed pool clock (HttpParser.create config) fragments).2.extend data)).2.state =
        ParseState.HEADERS ↔
      ∃ m u v, ThreeWords line m u v ∧ (stringToMethod m).isSome = true ∧
        (u.head? = some '/' ∨ find u "://".toList ≠ none) ∧ versionRefused v = false) ∧
    ((¬ ∃ m u v, ThreeWords line m u v ∧ (stringToMethod m).isSome = true ∧
        (u.head? = some '/' ∨ find u "://".toList ≠ none)) →
      (parse pool now (feed pool clock (HttpParser.create config) fragments).2 data).1 =
        false ∧
      (parse pool now (feed pool clock (HttpParser.create config) fragments).2
        data).2.state = ParseState.ERROR ∧
      (parse pool now (feed pool clock (HttpParser.create config) fragments).2
        data).2.errorCode = BAD_REQUEST) := by
  have hT := trace_of_feed pool config clock fragments
  simp only [Trace, hs] at hT
  have hcode : (feed pool clock (HttpParser.create config) fragments).2.errorCode =
      BAD_REQUEST := hT.2.2.2.2.1
  have hse : ((feed pool clock (HttpParser.create config) fragments).2.extend data).state =
      ParseState.REQUEST_LINE := hs
  have hfind : find ((feed pool clock (HttpParser.create config) fragments).2.extend
      data).buffer CRLF = some line.length := by
    show find ((feed pool clock (HttpParser.create config) fragments).2.buffer ++ data)
      CRLF = some line.length
    rw [hbuf]; exact find_line line more hline
  have hbuf1 : ((feed pool clock (HttpParser.create config) fragments).2.extend
      data).buffer = line ++ CRLF ++ more := hbuf
  constructor
  · constructor
    · intro hh
      have htrue : (parseRequestLine pool now
          ((feed pool clock (HttpParser.create config) fragments).2.extend data)).1 =
          true := by
        cases hx : (parseRequestLine pool now
          ((feed pool clock (HttpParser.create config) fragments).2.extend data)).1 with
        | true => rfl
        | false =>
          have := parseRequestLine_false pool now _ hfind hx
          rw [this] at hh; cases hh
      by_cases hw : ∃ m u v, ThreeWords line m u v
      · obtain ⟨m, u, v, hw⟩ := hw
        rw [parseRequestLine_words pool now _ line more m u v hbuf1 hline hlen hw] at htrue
        exact ⟨m, u, v, hw, (acceptRequestLine_nil now _ m u v).1.mp htrue⟩
      · have := (parseRequestLine_no_words pool now _ line more hbuf1 hline hlen hw).1
        rw [this] at htrue; cases htrue
    · rintro ⟨m, u, v, hw, hok⟩
      rw [parseRequestLine_words pool now _ line more m u v hbuf1 hline hlen hw]
      exact (acceptRequestLine_true now _ m u v []
        ((acceptRequestLine_nil now _ m u v).1.mpr hok)).1
  · intro hno
    have hres : (parseRequestLine pool now
          ((feed pool clock (HttpParser.create config) fragments).2.extend data)).1 =
          false ∧
        (parseRequestLine pool now
          ((feed pool clock (HttpParser.create config) fragments).2.extend data)).2.state =
          ParseState.ERROR ∧
        (parseRequestLine pool now
          ((feed pool clock (HttpParser.create config) fragments).2.extend
            data)).2.errorCode = BAD_REQUEST := by
      by_cases hw : ∃ m u v, ThreeWords line m u v
      · obtain ⟨m, u, v, hw⟩ := hw
        rw [parseRequestLine_words pool now _ line more m u v hbuf1 hline hlen hw]
        obtain ⟨a, b, c⟩ := (acceptRequestLine_nil now
          { (feed pool clock (HttpParser.create config) fragments).2.extend data with
            buffer := more } m u v).2 (fun h => hno ⟨m, u, v, hw, h⟩)
        exact ⟨a, b, c.trans hcode⟩
      · obtain ⟨a, b, c⟩ := parseRequestLine_no_words pool now _ line more hbuf1 hline hlen hw
        refine ⟨a, b, ?_⟩
        rcases c with c | c
        · exact c.trans hcode
        · exact c
    rw [parse_eq_run pool now _ data (by rw [hs]; decide) (by rw [hs]; decide),
      run_of_requestLine pool now _ hse, hres.1]
    simp only [Bool.false_eq_true, if_false]
    exact ⟨trivial, hres.2⟩

/-- C25, amended, on the line `GET / HTTP/1.1 ` with a space at its end: the call ends in
ERROR with status 400. -/
theorem request_line_three_words_witness :
    (parse examplePool 0 (feed examplePool (fun _ => 0) (HttpParser.create exampleConfig)
      []).2 "GET / HTTP/1.1 \r\n".toList).2.state = ParseState.ERROR ∧
    (parse examplePool 0 (feed examplePool (fun _ => 0) (HttpParser.create exampleConfig)
      []).2 "GET / HTTP/1.1 \r\n".toList).2.errorCode = BAD_REQUEST :=
  ((request_line_three_words examplePool exampleConfig (fun _ => 0) [] 0
    "GET / HTTP/1.1 \r\n".toList "GET / HTTP/1.1 ".toList [] rfl (by decide)
    (by unfold IsLine; decide) (by decide)).2
    (fun ⟨m, u, v, ⟨gap1, gap2, e, w1, w2, w3, g1, g2⟩, _⟩ => by
      have hlast : ("GET / HTTP/1.1 ".toList).getLast? = some ' ' := by decide
      rw [e] at hlast
      obtain ⟨hne, hw⟩ := w3
      have hv : v.getLast? = (m ++ (gap1 ++ (u ++ (gap2 ++ v)))).getLast? := by
        rw [← List.append_assoc, ← List.append_assoc, ← List.append_assoc]
        cases v with
        | nil => exact absurd rfl hne
        | cons x t =>
          rw [List.getLast?_append, List.getLast?_eq_getLast (x :: t) (by simp)]
          rfl
      rw [← hv] at hlast
      have := hw ' ' (List.mem_of_getLast?_eq_some hlast)
      exact absurd this (by decide))).2

/-! ## The value of a header line -/

/-- The line `X-Id:`, a tab, `7` is refused: the tab after the colon counts as a control
character of the value. -/
theorem header_line_with_tab_refused :
    (parse examplePool 0 (HttpParser.create exampleConfig)
      "GET / HTTP/1.1\r\nHost: x\r\nX-Id:\t7\r\n".toList).2.state = ParseState.ERROR ∧
    (parse examplePool 0 (HttpParser.create exampleConfig)
      "GET / HTTP/1.1\r\nHost: x\r\nX-Id: 7\r\n".toList).2.state = ParseState.HEADERS := by
  decide

theorem switchToFile_isFile (b : SmartBuffer) (opened : Int) (h : b.isFile = true) :
    b.switchToFile opened = b := by
  unfold SmartBuffer.switchToFile
  rw [if_pos h]

theorem switchToFile_keeps_isFile (b : SmartBuffer) (opened : Int) (h : b.isFile = true) :
    (b.switchToFile opened).isFile = true := by
  rw [switchToFile_isFile b opened h]; exact h

theorem append_in_file_mode (b : SmartBuffer) (data : Str) (opened : Int)
    (h : b.isFile = true) (hfd : 0 ≤ b.fd) :
    b.append data opened = { b with writeBuffer := b.writeBuffer ++ data } := by
  unfold SmartBuffer.append
  dsimp only
  by_cases hd : data.length = 0
  · rw [if_pos hd]
    have : data = [] := List.length_eq_zero.mp hd
    simp [this]
  · rw [if_neg hd, if_pos (⟨h, hfd⟩ : b.isFile = true ∧ b.fd ≥ 0)]
    dsimp only
    by_cases hs : b.size > b.maxMemorySize
    · rw [if_pos hs]
      exact switchToFile_isFile _ _ h
    · rw [if_neg hs]

theorem append_isFile (b : SmartBuffer) (data : Str) (opened : Int) (h : b.isFile = true) :
    (b.append data opened).isFile = true := by
  by_cases hfd : 0 ≤ b.fd
  · rw [append_in_file_mode b data opened h hfd]; exact h
  · unfold SmartBuffer.append
    dsimp only
    by_cases hd : data.length = 0
    · rw [if_pos hd]; exact h
    · rw [if_neg hd, if_neg (fun hc => hfd hc.2 : ¬(b.isFile = true ∧ b.fd ≥ 0))]
      dsimp only
      by_cases hs : b.size + data.length > b.maxMemorySize
      · rw [if_pos hs]
        exact switchToFile_keeps_isFile _ _ h
      · rw [if_neg hs]; exact h

theorem step_isFile (b : SmartBuffer) (call : BufferCall) (h : b.isFile = true) :
    (b.step call).isFile = true := by
  cases call with
  | append data opened => exact append_isFile b data opened h
  | read length =>
    show ((b.read length).getD b).isFile = true
    unfold SmartBuffer.read
    dsimp only
    repeat' split
    all_goals exact h
  | cleanReadBuffer length => exact h
  | event pollout pollin written seekOk available =>
    show (b.onFileEvent pollout pollin written seekOk available).2.isFile = true
    unfold SmartBuffer.onFileEvent
    dsimp only
    repeat' split
    all_goals exact h

theorem run_isFile : ∀ (calls : List BufferCall) (b : SmartBuffer), b.isFile = true →
    (b.run calls).isFile = true := by
  intro calls
  induction calls with
  | nil => intro b h; exact h
  | cons call rest ih =>
    intro b h
    exact ih (b.step call) (step_isFile b call h)

/-- C21, counterexample: a buffer with a limit of 2 bytes goes to file mode on the append
of `abc`; after a writable event whose `write` fails, the buffer is still in file mode and
the append of `x` puts the byte into the in-memory buffer, not into the queue for the
file. -/
theorem append_after_failed_write :
    ((SmartBuffer.create 2).run [BufferCall.append "abc".toList 5,
      BufferCall.event true false (-1) true []]).isFile = true ∧
    ((SmartBuffer.create 2).run [BufferCall.append "abc".toList 5,
      BufferCall.event true false (-1) true [],
      BufferCall.append "x".toList 5]).buffer = "x".toList ∧
    ((SmartBuffer.create 2).run [BufferCall.append "abc".toList 5,
      BufferCall.event true false (-1) true [],
      BufferCall.append "x".toList 5]).writeBuffer = "abc".toList := by
  decide

/-- C21, amended: a buffer in file mode stays in file mode under every sequence of calls
and events, whatever the system calls answer; while its descriptor is open, an append puts
the bytes into the queue for the file and leaves the in-memory buffer and the size as they
are; and the descriptor stays open under every call and every event that does not report
a failed `write` or `read` (the event returns false). -/
theorem file_mode_is_kept (b : SmartBuffer) (hfile : b.isFile = true) :
    (∀ calls : List BufferCall, (b.run calls).isFile = true) ∧
    (∀ (data : Str) (opened : Int), 0 ≤ b.fd →
      (b.append data opened).buffer = b.buffer ∧
      (b.append data opened).writeBuffer = b.writeBuffer ++ data ∧
      (b.append data opened).size = b.size ∧ (b.append data opened).fd = b.fd) ∧
    (∀ call : BufferCall, 0 ≤ b.fd →
      (∀ pollout pollin written seekOk available,
        call = BufferCall.event pollout pollin written seekOk available →
        (b.onFileEvent pollout pollin written seekOk available).1 = false) →
      (b.step call).fd = b.fd) := by
  refine ⟨fun calls => run_isFile calls b hfile, ?_, ?_⟩
  · intro data opened hfd
    rw [append_in_file_mode b data opened hfile hfd]
    exact ⟨rfl, rfl, rfl, rfl⟩
  · intro call hfd hok
    cases call with
    | append data opened =>
      show (b.append data opened).fd = b.fd
      rw [append_in_file_mode b data opened hfile hfd]
    | read length =>
      show ((b.read length).getD b).fd = b.fd
      unfold SmartBuffer.read
      dsimp only
      repeat' split
      all_goals rfl
    | cleanReadBuffer length => rfl
    | event pollout pollin written seekOk available =>
      have h := hok pollout pollin written seekOk available rfl
      show (b.onFileEvent pollout pollin written seekOk available).2.fd = b.fd
      unfold SmartBuffer.onFileEvent at h ⊢
      dsimp only at h ⊢
      repeat' split
      all_goals first | rfl | simp_all

/-- C21, amended, on a buffer that has gone to file mode: after a writable event and an
append it is in file mode, and the appended byte is in the queue for the file. -/
theorem file_mode_is_kept_witness :
    (((SmartBuffer.create 2).append "abc".toList 5).run
      [BufferCall.event true true 2 true [], BufferCall.append "x".toList 5]).isFile =
      true ∧
    (((SmartBuffer.create 2).append "abc".toList 5).append "x".toList 5).writeBuffer =
      ((SmartBuffer.create 2).append "abc".toList 5).writeBuffer ++ "x".toList :=
  ⟨(file_mode_is_kept ((SmartBuffer.create 2).append "abc".toList 5) (by decide)).1
      [BufferCall.event true true 2 true [], BufferCall.append "x".toList 5],
    ((file_mode_is_kept ((SmartBuffer.create 2).append "abc".toList 5) (by decide)).2.1
      "x".toList 5 (by decide)).2.1⟩

/-! ## The accounting of a `SmartBuffer` -/

theorem accounted_create (M : Nat) : Accounted M [] (SmartBuffer.create M) :=
  ⟨rfl, rfl, Or.inl ⟨rfl, Nat.zero_le _, rfl, rfl, rfl⟩⟩

theorem accounted_append (M : Nat) (all : Str) (b : SmartBuffer) (data : Str) (opened : Int)
    (h : Accounted M all b) (ho : 0 ≤ opened) :
    Accounted M (all ++ data) (b.append data opened) := by
  obtain ⟨hM, hr, hmode⟩ := h
  rcases hmode with ⟨hf, hle, hsize, hbuf, hwb⟩ | ⟨hf, hfd, hlt, hbuf, hsize, hwb⟩
  · unfold SmartBuffer.append
    dsimp only
    by_cases hd : data.length = 0
    · rw [if_pos hd]
      have : data = [] := List.length_eq_zero.mp hd
      subst this
      rw [List.append_nil]
      exact ⟨hM, hr, Or.inl ⟨hf, hle, hsize, hbuf, hwb⟩⟩
    · rw [if_neg hd, if_neg (fun hc => by rw [hf] at hc; exact Bool.noConfusion hc.1 :
        ¬(b.isFile = true ∧ b.fd ≥ 0))]
      dsimp only
      by_cases hs : b.size + data.length > b.maxMemorySize
      · rw [if_pos hs]
        unfold SmartBuffer.switchToFile
        dsimp only
        rw [if_neg (by rw [hf]; exact Bool.noConfusion), if_neg (not_lt.mpr ho)]
        refine ⟨hM, hr, Or.inr ⟨rfl, ho, ?_, rfl, Nat.zero_le _, ?_⟩⟩
        · rw [List.length_append, ← hsize, ← hM]; exact hs
        · show b.writeBuffer ++ (b.buffer ++ data) = (all ++ data).drop 0
          rw [hwb, hbuf]; rfl
      · rw [if_neg hs]
        refine ⟨hM, hr, Or.inl ⟨hf, ?_, ?_, ?_, hwb⟩⟩
        · rw [List.length_append, ← hsize, ← hM]; exact not_lt.mp hs
        · show b.size + data.length = (all ++ data).length
          rw [List.length_append, hsize]
        · show b.buffer ++ data = all ++ data
          rw [hbuf]
  · rw [append_in_file_mode b data opened hf hfd]
    refine ⟨hM, hr, Or.inr ⟨hf, hfd, ?_, hbuf, ?_, ?_⟩⟩
    · rw [List.length_append]; omega
    · show b.size ≤ (all ++ data).length
      rw [List.length_append]; omega
    · show b.writeBuffer ++ data = (all ++ data).drop b.size
      rw [hwb, List.drop_append_of_le_length hsize]

theorem accounted_event (M : Nat) (all : Str) (b : SmartBuffer) (pollout pollin : Bool)
    (written : Int) (seekOk : Bool) (available : Str)
    (h : Accounted M all b) (hw : 0 < written) :
    Accounted M all (b.onFileEvent pollout pollin written seekOk available).2 := by
  obtain ⟨hM, hr, hmode⟩ := h
  unfold SmartBuffer.onFileEvent
  dsimp only
  by_cases hc : pollout = true ∧ b.writeBuffer ≠ []
  · have hlen : 0 < b.writeBuffer.length := List.length_pos.mpr hc.2
    have hnot : ¬ written ≤ 0 := not_le.mpr hw
    have hmin : 0 < min written (b.writeBuffer.length : Int) := by
      apply lt_min hw; exact_mod_cast hlen
    rw [if_neg hnot]
    rw [if_neg (fun hx => absurd hx.2.2 (not_le.mpr hmin))]
    rw [if_pos hc]
    dsimp only
    rw [if_neg (fun hx => by rw [hr] at hx; exact absurd hx.2 (by decide))]
    rcases hmode with ⟨hf, hle, hsize, hbuf, hwb⟩ | ⟨hf, hfd, hlt, hbuf, hsize, hwb⟩
    · exact absurd hwb hc.2
    · have hk : (min written (b.writeBuffer.length : Int)).toNat ≤ b.writeBuffer.length := by
        have : min written (b.writeBuffer.length : Int) ≤ (b.writeBuffer.length : Int) :=
          min_le_right _ _
        omega
      have hwl : b.writeBuffer.length = all.length - b.size := by
        rw [hwb, List.length_drop]
      refine ⟨hM, hr, Or.inr ⟨hf, hfd, hlt, hbuf, ?_, ?_⟩⟩
      · show b.size + (min written (b.writeBuffer.length : Int)).toNat ≤ all.length
        omega
      · show b.writeBuffer.drop (min written (b.writeBuffer.length : Int)).toNat =
          all.drop (b.size + (min written (b.writeBuffer.length : Int)).toNat)
        rw [hwb, List.drop_drop, ← hwb]
  · have h1 : ¬ (pollout = true ∧ b.writeBuffer ≠ [] ∧
        (if written ≤ 0 then written else min written (b.writeBuffer.length : Int)) ≤ 0) :=
      fun hx => hc ⟨hx.1, hx.2.1⟩
    rw [if_neg h1, if_neg hc]
    rw [if_neg (fun hx => by rw [hr] at hx; exact absurd hx.2 (by decide))]
    exact ⟨hM, hr, hmode⟩

theorem accounted_run (M : Nat) : ∀ (calls : List BufferCall) (all : Str) (b : SmartBuffer),
    Accounted M all b → (∀ c ∈ calls, callSucceeds c = true) →
    Accounted M (all ++ appendedBytes calls) (b.run calls) := by
  intro calls
  induction calls with
  | nil =>
    intro all b h _
    show Accounted M (all ++ []) b
    rw [List.append_nil]; exact h
  | cons call rest ih =>
    intro all b h hc
    have hrest : ∀ c ∈ rest, callSucceeds c = true :=
      fun c hm => hc c (List.mem_cons_of_mem _ hm)
    have h1 := hc call (List.mem_cons_self _ _)
    cases call with
    | append data opened =>
      have ho : 0 ≤ opened := of_decide_eq_true h1
      have := ih (all ++ data) (b.append data opened) (accounted_append M all b data opened h ho)
        hrest
      rw [List.append_assoc] at this
      exact this
    | read length => simp [callSucceeds] at h1
    | cleanReadBuffer length => simp [callSucceeds] at h1
    | event pollout pollin written seekOk available =>
      have hw : 0 < written := of_decide_eq_true h1
      exact ih all _ (accounted_event M all b pollout pollin written seekOk available h hw) hrest

/-- C22: on a new buffer with limit `maxMemorySize`, after a sequence of appends and
events in which every creation of the temporary file and every `write` succeeds, with
`appendedBytes calls` the bytes appended so far: while their number is at most the limit
the buffer is in memory mode, `size` is that number and the in-memory buffer holds the
bytes; once it is over the limit the buffer is in file mode, the in-memory buffer is
empty, `size` is the number of bytes written to the file, the queue holds the appended
bytes from position `size` on, and `size` plus the length of the queue is the number of
bytes appended. -/
theorem spill_accounting (maxMemorySize : Nat) (calls : List BufferCall)
    (hcalls : ∀ c ∈ calls, callSucceeds c = true) :
    ((appendedBytes calls).length ≤ maxMemorySize →
      ((SmartBuffer.create maxMemorySize).run calls).isFile = false ∧
      ((SmartBuffer.create maxMemorySize).run calls).size = (appendedBytes calls).length ∧
      ((SmartBuffer.create maxMemorySize).run calls).buffer = appendedBytes calls) ∧
    (maxMemorySize < (appendedBytes calls).length →
      ((SmartBuffer.create maxMemorySize).run calls).isFile = true ∧
      ((SmartBuffer.create maxMemorySize).run calls).buffer = [] ∧
      ((SmartBuffer.create maxMemorySize).run calls).writeBuffer =
        (appendedBytes calls).drop ((SmartBuffer.create maxMemorySize).run calls).size ∧
      ((SmartBuffer.create maxMemorySize).run calls).size +
        ((SmartBuffer.create maxMemorySize).run calls).writeBuffer.length =
        (appendedBytes calls).length) := by
  have h := accounted_run maxMemorySize calls [] (SmartBuffer.create maxMemorySize)
    (accounted_create maxMemorySize) hcalls
  rw [List.nil_append] at h
  obtain ⟨_, _, hmode⟩ := h
  rcases hmode with ⟨hf, hle, hsize, hbuf, hwb⟩ | ⟨hf, hfd, hlt, hbuf, hsize, hwb⟩
  · exact ⟨fun _ => ⟨hf, hsize, hbuf⟩, fun hgt => absurd hle (not_le.mpr hgt)⟩
  · refine ⟨fun hle => absurd hlt (not_lt.mpr hle), fun _ => ⟨hf, hbuf, hwb, ?_⟩⟩
    rw [hwb, List.length_drop]
    omega

/-- C22 on a buffer with limit 4: after `ab` and `cd` the buffer holds the four bytes
in memory; after a further `ef`, two writable events and `g`, it is in file mode with
the written bytes counted by `size` and the rest in the queue. -/
theorem spill_accounting_witness :
    ((SmartBuffer.create 4).run [BufferCall.append "ab".toList 7,
        BufferCall.append "cd".toList 7]).isFile = false ∧
    ((SmartBuffer.create 4).run [BufferCall.append "ab".toList 7,
        BufferCall.append "cd".toList 7]).size = 4 ∧
    ((SmartBuffer.create 4).run [BufferCall.append "ab".toList 7,
        BufferCall.append "cd".toList 7, BufferCall.append "ef".toList 7,
        BufferCall.event true false 4 true [], BufferCall.append "g".toList 7,
        BufferCall.event true true 1 true []]).isFile = true ∧
    ((SmartBuffer.create 4).run [BufferCall.append "ab".toList 7,
        BufferCall.append "cd".toList 7, BufferCall.append "ef".toList 7,
        BufferCall.event true false 4 true [], BufferCall.append "g".toList 7,
        BufferCall.event true true 1 true []]).size +
      ((SmartBuffer.create 4).run [BufferCall.append "ab".toList 7,
        BufferCall.append "cd".toList 7, BufferCall.append "ef".toList 7,
        BufferCall.event true false 4 true [], BufferCall.append "g".toList 7,
        BufferCall.event true true 1 true []]).writeBuffer.length = 7 :=
  ⟨((spill_accounting 4 [BufferCall.append "ab".toList 7, BufferCall.append "cd".toList 7]
      (by decide)).1 (by decide)).1,
    ((spill_accounting 4 [BufferCall.append "ab".toList 7, BufferCall.append "cd".toList 7]
      (by decide)).1 (by decide)).2.1,
    ((spill_accounting 4 [BufferCall.append "ab".toList 7,
        BufferCall.append "cd".toList 7, BufferCall.append "ef".toList 7,
        BufferCall.event true false 4 true [], BufferCall.append "g".toList 7,
        BufferCall.event true true 1 true []] (by decide)).2 (by decide)).1,
    ((spill_accounting 4 [BufferCall.append "ab".toList 7,
        BufferCall.append "cd".toList 7, BufferCall.append "ef".toList 7,
        BufferCall.event true false 4 true [], BufferCall.append "g".toList 7,
        BufferCall.event true true 1 true []] (by decide)).2 (by decide)).2.2.2⟩

/-- C27: a buffer on a file of 100000 bytes is asked for 60001 bytes; the readable
event clamps the member `toRead` to 60000 before its `read`, which delivers one byte, so
59999 bytes are outstanding afterwards where 60001 less 1 would be 60000: a request for
more than 60000 bytes is never served in full. -/
theorem read_over_60000_is_cut :
    ((SmartBuffer.ofFd 100 5 (some 100000)).run [BufferCall.read 60001]).toRead = 60001 ∧
    ((SmartBuffer.ofFd 100 5 (some 100000)).run [BufferCall.read 60001,
      BufferCall.event false true 0 true "x".toList]).toRead = 59999 ∧
    ((SmartBuffer.ofFd 100 5 (some 100000)).run [BufferCall.read 60001,
      BufferCall.event false true 0 true "x".toList]).readBuffer = "x".toList ∧
    ((SmartBuffer.ofFd 100 5 (some 100000)).run [BufferCall.read 60001,
      BufferCall.event false true 0 true "x".toList]).readPos = 1 ∧
    ((SmartBuffer.ofFd 100 5 (some 100000)).run [BufferCall.read 60001,
      BufferCall.event false true 0 true "x".toList]).fd = 5 := by
  decide

/-! ## The framing headers of a response -/

theorem headersFind_headersSet_other (headers : List (Str × Str)) (name value other : Str)
    (h : name ≠ other) :
    headersFind (headersSet headers name value) other = headersFind headers other := by
  induction headers with
  | nil => simp [headersSet, headersFind, h]
  | cons entry rest ih =>
    obtain ⟨k, v⟩ := entry
    unfold headersSet
    by_cases hk : k = name
    · rw [if_pos hk]
      unfold headersFind
      rw [if_neg (by rw [hk]; exact h), if_neg (by rw [hk]; exact h)]
    · rw [if_neg hk]
      unfold headersFind
      rw [ih]

theorem headersFind_headersErase_other (headers : List (Str × Str)) (name other : Str)
    (h : name ≠ other) :
    headersFind (headersErase headers name) other = headersFind headers other := by
  induction headers with
  | nil => rfl
  | cons entry rest ih =>
    obtain ⟨k, v⟩ := entry
    unfold headersErase at ih ⊢
    by_cases hk : k = name
    · rw [List.filter_cons_of_neg (by simpa using hk), ih]
      conv_rhs => unfold headersFind
      rw [if_neg (by rw [hk]; exact h)]
    · rw [List.filter_cons_of_pos (by simpa using hk)]
      unfold headersFind
      rw [ih]

theorem headersFind_headersErase_self (headers : List (Str × Str)) (name : Str) :
    headersFind (headersErase headers name) name = none := by
  induction headers with
  | nil => rfl
  | cons entry rest ih =>
    obtain ⟨k, v⟩ := entry
    unfold headersErase at ih ⊢
    by_cases hk : k = name
    · rw [List.filter_cons_of_neg (by simpa using hk), ih]
    · rw [List.filter_cons_of_pos (by simpa using hk)]
      unfold headersFind
      rw [if_neg hk, ih]

theorem mem_of_headersFind : ∀ (headers : List (Str × Str)) (name value : Str),
    headersFind headers name = some value → (name, value) ∈ headers := by
  intro headers name value
  induction headers with
  | nil => intro h; simp [headersFind] at h
  | cons entry rest ih =>
    obtain ⟨k, v⟩ := entry
    unfold headersFind
    by_cases hk : k = name
    · rw [if_pos hk]
      intro h
      cases h
      rw [hk]
      exact List.mem_cons_self _ _
    · rw [if_neg hk]
      intro h
      exact List.mem_cons_of_mem _ (ih h)

theorem headersFind_none : ∀ (headers : List (Str × Str)) (name : Str),
    headersFind headers name = none → ∀ entry ∈ headers, entry.1 ≠ name := by
  intro headers name
  induction headers with
  | nil => intro _ entry he; exact (List.not_mem_nil _ he).elim
  | cons first rest ih =>
    obtain ⟨k, v⟩ := first
    unfold headersFind
    by_cases hk : k = name
    · rw [if_pos hk]; intro h; exact Option.noConfusion h
    · rw [if_neg hk]
      intro h entry he
      rcases List.mem_cons.mp he with he | he
      · rw [he]; exact hk
      · exact ih h entry he

theorem mem_headersSet (headers : List (Str × Str)) (name value : Str) (entry : Str × Str)
    (h : entry ∈ headersSet headers name value) :
    entry ∈ headers ∨ entry = (name, value) := by
  induction headers with
  | nil =>
    simp only [headersSet, List.mem_singleton] at h
    exact Or.inr h
  | cons first rest ih =>
    obtain ⟨k, v⟩ := first
    unfold headersSet at h
    by_cases hk : k = name
    · rw [if_pos hk] at h
      rcases List.mem_cons.mp h with h | h
      · right; rw [h, hk]
      · left; exact List.mem_cons_of_mem _ h
    · rw [if_neg hk] at h
      rcases List.mem_cons.mp h with h | h
      · left; rw [h]; exact List.mem_cons_self _ _
      · rcases ih h with h | h
        · left; exact List.mem_cons_of_mem _ h
        · right; exact h

theorem framed_create (code : Int) (bodyLimit : Nat) :
    Framed (HttpResponse.create code bodyLimit) := by
  refine ⟨rfl, ?_, ?_⟩
  · show headersFind (headersSet [] "Transfer-Encoding".toList "chunked".toList) _ = _
    decide
  · show headersFind (headersSet [] "Transfer-Encoding".toList "chunked".toList) _ = _
    decide

theorem framed_step (r : HttpResponse) (call : ResponseCall) (h : Framed r)
    (hc : keepsFraming call = true) : Framed (r.step call) := by
  obtain ⟨hflag, hte, hcl⟩ := h
  cases call with
  | setStatus code message => exact ⟨hflag, hte, hcl⟩
  | setHeader name value =>
    have hn : name ≠ "Transfer-Encoding".toList ∧ name ≠ "Content-Length".toList :=
      of_decide_eq_true hc
    refine ⟨hflag, ?_, ?_⟩
    · show headersFind (headersSet r.headers name value) _ = _
      rw [headersFind_headersSet_other _ _ _ _ hn.1]; exact hte
    · show headersFind (headersSet r.headers name value) _ = _
      rw [headersFind_headersSet_other _ _ _ _ hn.2]; exact hcl
  | setBody body opened =>
    show Framed (r.setBody body opened)
    unfold HttpResponse.setBody
    dsimp only
    rw [if_neg (by rw [hflag]; exact Bool.noConfusion)]
    exact ⟨hflag, hte, hcl⟩
  | enableChunkedEncoding body =>
    refine ⟨rfl, ?_, ?_⟩
    · show headersFind (headersErase r.headers _) _ = _
      rw [headersFind_headersErase_other _ _ _ (by decide)]; exact hte
    · exact headersFind_headersErase_self _ _
  | addSetCookie cookie => exact ⟨hflag, hte, hcl⟩

theorem framed_run : ∀ (calls : List ResponseCall) (r : HttpResponse), Framed r →
    (∀ c ∈ calls, keepsFraming c = true) → Framed (r.run calls) := by
  intro calls
  induction calls with
  | nil => intro r h _; exact h
  | cons call rest ih =>
    intro r h hc
    exact ih (r.step call) (framed_step r call h (hc call (List.mem_cons_self _ _)))
      (fun c hm => hc c (List.mem_cons_of_mem _ hm))

/-! ## The text of the header of a response -/

theorem linesFrom_cons (current : Str) (c : Char) (rest : Str) :
    linesFrom current (c :: rest) =
      if c = '\n' ∧ current.getLast? = some '\r' then current.dropLast :: linesFrom [] rest
      else linesFrom (current ++ [c]) rest := rfl

theorem linesFrom_line : ∀ (line current rest : Str), '\n' ∉ line →
    linesFrom current (line ++ CRLF ++ rest) = (current ++ line) :: linesFrom [] rest := by
  intro line
  induction line with
  | nil =>
    intro current rest _
    show linesFrom current ('\r' :: '\n' :: rest) = _
    rw [linesFrom_cons, if_neg (fun h => absurd h.1 (by decide)), linesFrom_cons,
      if_pos ⟨rfl, by simp⟩]
    simp
  | cons c line ih =>
    intro current rest h
    have hc : c ≠ '\n' := fun hx => h (by rw [hx]; exact List.mem_cons_self _ _)
    have hl : '\n' ∉ line := fun hx => h (List.mem_cons_of_mem _ hx)
    show linesFrom current (c :: (line ++ CRLF ++ rest)) = _
    rw [linesFrom_cons, if_neg (fun hx => hc hx.1), ih (current ++ [c]) rest hl]
    simp

theorem textLines_joinLines : ∀ (lines : List Str) (rest : Str),
    (∀ l ∈ lines, '\n' ∉ l) → textLines (joinLines lines ++ rest) = lines ++ textLines rest := by
  intro lines
  induction lines with
  | nil => intro rest _; rfl
  | cons line more ih =>
    intro rest h
    have h1 := ih rest (fun l hl => h l (List.mem_cons_of_mem _ hl))
    unfold textLines at h1 ⊢
    have : joinLines (line :: more) ++ rest = line ++ CRLF ++ (joinLines more ++ rest) := by
      simp [joinLines]
    rw [this, linesFrom_line line [] _ (h line (List.mem_cons_self _ _)), h1]
    rfl

theorem toHeaderString_eq (r : HttpResponse) :
    r.toHeaderString = joinLines (responseLines r) ++ CRLF := by
  unfold HttpResponse.toHeaderString responseLines joinLines
  simp [List.map_append, Function.comp_def]

theorem ite_holds {α : Type} (P : α → Prop) {c : Prop} [Decidable c] {a b : α}
    (ha : P a) (hb : P b) : P (if c then a else b) := by
  split
  · exact ha
  · exact hb

theorem digitChar_ne_newline (d : Nat) : Nat.digitChar d ≠ '\n' := by
  unfold Nat.digitChar
  repeat' first | exact (by decide) | apply ite_holds (fun x : Char => x ≠ '\n')

theorem toDigitsCore_no_newline : ∀ (fuel n : Nat) (acc : Str), '\n' ∉ acc →
    '\n' ∉ Nat.toDigitsCore 10 fuel n acc := by
  intro fuel
  induction fuel with
  | zero => intro n acc h; exact h
  | succ fuel ih =>
    intro n acc h
    unfold Nat.toDigitsCore
    dsimp only
    have hd : '\n' ∉ Nat.digitChar (n % 10) :: acc := by
      intro hx
      rcases List.mem_cons.mp hx with hx | hx
      · exact digitChar_ne_newline _ hx.symm
      · exact h hx
    split
    · exact hd
    · exact ih _ _ hd

theorem decimal_no_newline (n : Int) : '\n' ∉ decimal n := by
  unfold decimal Nat.toDigits
  split
  · intro hx
    rcases List.mem_cons.mp hx with hx | hx
    · exact absurd hx (by decide)
    · exact toDigitsCore_no_newline _ _ [] (List.not_mem_nil _) hx
  · exact toDigitsCore_no_newline _ _ [] (List.not_mem_nil _)

theorem getStatusMessage_no_newline (code : Int) : '\n' ∉ getStatusMessage code := by
  unfold getStatusMessage
  repeat' first | exact (by decide) | apply ite_holds (fun x : Str => '\n' ∉ x)

theorem textSafe_create (code : Int) (bodyLimit : Nat) :
    TextSafe (HttpResponse.create code bodyLimit) := by
  refine ⟨getStatusMessage_no_newline code, ?_, fun c hc => (List.not_mem_nil _ hc).elim⟩
  intro entry he
  have : entry = ("Transfer-Encoding".toList, "chunked".toList) := by
    simpa [HttpResponse.create, headersSet] using he
  rw [this]
  decide

theorem textSafe_step (r : HttpResponse) (call : ResponseCall) (hf : Framed r)
    (h : TextSafe r) (hc : textSafe call = true) : TextSafe (r.step call) := by
  obtain ⟨hm, hh, hk⟩ := h
  cases call with
  | setStatus code message =>
    have hmsg : '\n' ∉ message := of_decide_eq_true hc
    refine ⟨?_, hh, hk⟩
    show '\n' ∉ (if message = [] then getStatusMessage code else message)
    split
    · exact getStatusMessage_no_newline code
    · exact hmsg
  | setHeader name value =>
    have hn : '\n' ∉ name ∧ ':' ∉ name ∧ '\n' ∉ value := of_decide_eq_true hc
    refine ⟨hm, ?_, hk⟩
    intro entry he
    rcases mem_headersSet r.headers name value entry he with he | he
    · exact hh entry he
    · rw [he]; exact hn
  | setBody body opened =>
    show TextSafe (r.setBody body opened)
    unfold HttpResponse.setBody
    dsimp only
    rw [if_neg (by rw [hf.1]; exact Bool.noConfusion)]
    exact ⟨hm, hh, hk⟩
  | enableChunkedEncoding body =>
    refine ⟨hm, ?_, hk⟩
    intro entry he
    exact hh entry (List.mem_of_mem_filter he)
  | addSetCookie cookie =>
    have hcookie : '\n' ∉ cookie := of_decide_eq_true hc
    refine ⟨hm, hh, ?_⟩
    intro c hmem
    rcases List.mem_append.mp hmem with hmem | hmem
    · exact hk c hmem
    · rw [List.mem_singleton.mp hmem]; exact hcookie

theorem textSafe_run : ∀ (calls : List ResponseCall) (r : HttpResponse), Framed r →
    TextSafe r → (∀ c ∈ calls, keepsFraming c = true) → (∀ c ∈ calls, textSafe c = true) →
    TextSafe (r.run calls) := by
  intro calls
  induction calls with
  | nil => intro r _ h _ _; exact h
  | cons call rest ih =>
    intro r hf h hc ht
    exact ih (r.step call) (framed_step r call hf (hc call (List.mem_cons_self _ _)))
      (textSafe_step r call hf h (ht call (List.mem_cons_self _ _)))
      (fun c hm => hc c (List.mem_cons_of_mem _ hm))
      (fun c hm => ht c (List.mem_cons_of_mem _ hm))

theorem no_newline_append {a b : Str} (ha : '\n' ∉ a) (hb : '\n' ∉ b) : '\n' ∉ a ++ b :=
  fun h => (List.mem_append.mp h).elim ha hb

theorem responseLines_no_newline (r : HttpResponse) (h : TextSafe r) :
    ∀ l ∈ responseLines r, '\n' ∉ l := by
  obtain ⟨hm, hh, hk⟩ := h
  intro l hl
  rcases List.mem_cons.mp hl with hl | hl
  · rw [hl]
    exact no_newline_append (no_newline_append (no_newline_append (by decide)
      (decimal_no_newline _)) (by decide)) hm
  · rcases List.mem_append.mp hl with hl | hl
    · obtain ⟨entry, he, rfl⟩ := List.mem_map.mp hl
      exact no_newline_append (no_newline_append (hh entry he).1 (by decide)) (hh entry he).2.2
    · obtain ⟨cookie, hc, rfl⟩ := List.mem_map.mp hl
      exact no_newline_append (by decide) (hk cookie hc)

theorem name_before_colon : ∀ (a b x y : Str), ':' ∉ a → ':' ∉ b →
    a ++ ':' :: x = b ++ ':' :: y → a = b := by
  intro a
  induction a with
  | nil =>
    intro b x y _ hb h
    cases b with
    | nil => rfl
    | cons c b =>
      simp only [List.nil_append, List.cons_append, List.cons.injEq] at h
      exact absurd (by rw [← h.1]; exact List.mem_cons_self _ _) hb
  | cons c a ih =>
    intro b x y ha hb h
    cases b with
    | nil =>
      simp only [List.nil_append, List.cons_append, List.cons.injEq] at h
      exact absurd (by rw [h.1]; exact List.mem_cons_self _ _) ha
    | cons d b =>
      simp only [List.cons_append, List.cons.injEq] at h
      rw [h.1, ih b x y (fun hx => ha (List.mem_cons_of_mem _ hx))
        (fun hx => hb (List.mem_cons_of_mem _ hx)) h.2]

theorem response_text (r : HttpResponse) (hf : Framed r) (h : TextSafe r) :
    textLines r.toHeaderString = responseLines r ++ [[], []] ∧
    "Transfer-Encoding: chunked".toList ∈ textLines r.toHeaderString ∧
    ∀ line ∈ textLines r.toHeaderString, ¬ IsContentLengthLine line := by
  have hlines : textLines r.toHeaderString = responseLines r ++ [[], []] := by
    rw [toHeaderString_eq, textLines_joinLines _ _ (responseLines_no_newline r h)]
    rfl
  refine ⟨hlines, ?_, ?_⟩
  · rw [hlines]
    apply List.mem_append_left
    apply List.mem_cons_of_mem
    apply List.mem_append_left
    exact List.mem_map.mpr ⟨_, mem_of_headersFind _ _ _ hf.2.1, rfl⟩
  · intro line hl hcl
    rw [hlines] at hl
    obtain ⟨t, ht⟩ := hcl
    rcases List.mem_append.mp hl with hl | hl
    · rcases List.mem_cons.mp hl with hl | hl
      · rw [hl] at ht
        simp at ht
      · rcases List.mem_append.mp hl with hl | hl
        · obtain ⟨entry, he, rfl⟩ := List.mem_map.mp hl
          have hname : "Content-Length".toList = entry.1 :=
            name_before_colon "Content-Length".toList entry.1 t (' ' :: entry.2) (by decide)
              (h.2.1 entry he).2.1 (by simpa using ht)
          exact headersFind_none _ _ hf.2.2 entry he hname.symm
        · obtain ⟨cookie, _, rfl⟩ := List.mem_map.mp hl
          simp at ht
    · have : line = [] := by
        rcases List.mem_cons.mp hl with hl | hl
        · exact hl
        · exact List.mem_singleton.mp hl
      rw [this] at ht
      simp at ht

/-! ## The framing of a response with chunked encoding -/

/-- C23, counterexample: `setHeader` stores what it is given.  On a new response the
call `setHeader("Content-Length", "5")` leaves the flag of chunked encoding true, puts
`Content-Length` into the header map and a `Content-Length: 5` line into the header
text; the call `setHeader("Transfer-Encoding", "gzip")` leaves the flag true and
replaces the value `chunked`. -/
theorem setHeader_breaks_framing :
    ((HttpResponse.create 200 100).run
      [ResponseCall.setHeader "Content-Length".toList "5".toList]).chunkedEncoding = true ∧
    headersFind ((HttpResponse.create 200 100).run
      [ResponseCall.setHeader "Content-Length".toList "5".toList]).headers
      "Content-Length".toList = some "5".toList ∧
    "Content-Length: 5".toList ∈ textLines ((HttpResponse.create 200 100).run
      [ResponseCall.setHeader "Content-Length".toList "5".toList]).toHeaderString ∧
    ((HttpResponse.create 200 100).run
      [ResponseCall.setHeader "Transfer-Encoding".toList "gzip".toList]).chunkedEncoding =
      true ∧
    headersFind ((HttpResponse.create 200 100).run
      [ResponseCall.setHeader "Transfer-Encoding".toList "gzip".toList]).headers
      "Transfer-Encoding".toList = some "gzip".toList := by
  decide

/-- C23, amended: for every response reached from the constructor by calls of
`setStatus`, `setHeader`, `setBody`, `enableChunkedEncoding` and `addSetCookie` in which
no `setHeader` names `Transfer-Encoding` or `Content-Length`, the flag of chunked
encoding is true, the header map holds `Transfer-Encoding` with the value `chunked` and
holds no `Content-Length`; and if no status message, header name, header value or cookie
passed holds a line feed and no header name holds a colon, the text of `toHeaderString`
has a line `Transfer-Encoding: chunked` and no line that begins with
`Content-Length:`. -/
theorem chunked_response_framing (code : Int) (bodyLimit : Nat) (calls : List ResponseCall)
    (hcalls : ∀ c ∈ calls, keepsFraming c = true) :
    ((HttpResponse.create code bodyLimit).run calls).chunkedEncoding = true ∧
    headersFind ((HttpResponse.create code bodyLimit).run calls).headers
      "Transfer-Encoding".toList = some "chunked".toList ∧
    headersFind ((HttpResponse.create code bodyLimit).run calls).headers
      "Content-Length".toList = none ∧
    ((∀ c ∈ calls, textSafe c = true) →
      "Transfer-Encoding: chunked".toList ∈
        textLines ((HttpResponse.create code bodyLimit).run calls).toHeaderString ∧
      ∀ line ∈ textLines ((HttpResponse.create code bodyLimit).run calls).toHeaderString,
        ¬ IsContentLengthLine line) := by
  have hf := framed_run calls (HttpResponse.create code bodyLimit)
    (framed_create code bodyLimit) hcalls
  refine ⟨hf.1, hf.2.1, hf.2.2, fun htext => ?_⟩
  have ht := textSafe_run calls (HttpResponse.create code bodyLimit)
    (framed_create code bodyLimit) (textSafe_create code bodyLimit) hcalls htext
  exact (response_text _ hf ht).2

/-- C23, amended, on the calls of `exampleCalls`: the header map has no
`Content-Length`, and the header text has the line `Transfer-Encoding: chunked`. -/
theorem chunked_response_framing_witness :
    headersFind ((HttpResponse.create 200 100).run exampleCalls).headers
      "Content-Length".toList = none ∧
    "Transfer-Encoding: chunked".toList ∈
      textLines ((HttpResponse.create 200 100).run exampleCalls).toHeaderString :=
  ⟨(chunked_response_framing 200 100 exampleCalls (by decide)).2.2.1,
    ((chunked_response_framing 200 100 exampleCalls (by decide)).2.2.2 (by decide)).1⟩

end Webserv
